import Mathlib

/-!
# Dijkstra's algorithm over a binary heap (`Graphs/dijkstras.go`)

A shallow embedding of the Go program and a verification of its specification.

* Go's `int` is modelled as a 64-bit two's-complement integer: values are `Int`s and
  every addition the program performs is wrapped by `wrapInt`.
* A Go `map[string]T` is a function `String → Option T`; reading a missing key yields the
  zero value of `T` (`0` for `int`, `""` for `string`).
* The graph literal `map[string]map[string]int` is an association list with distinct keys;
  the order in which a `range` statement visits a map is not fixed by the language, so it is
  supplied by an `IterOrder`, which may pick a fresh permutation at every execution of a loop.
* `container/heap` (`Push`, `Pop`, `up`, `down`) is embedded from the Go standard library.
* Loops are structurally recursive on an iteration budget. For `up` and `down` the budget is
  fixed by the arguments and always suffices (`upLoop_fuel`, `downLoop_fuel`); the main loop of
  `Dijkstra` returns `none` when its budget is exhausted, and `Dijkstra_terminates` shows that
  some budget always suffices while `Dijkstra_fuel_unique` shows that the result does not
  depend on it.
-/

namespace Dijkstras

/-! ## Machine integers -/

/-- The constant `math.MaxInt32`, used by the program as "infinity". -/
def MaxInt32 : Int := 2147483647

/-- The largest value of a 64-bit `int`. -/
def MaxInt64 : Int := 9223372036854775807

/-- The smallest value of a 64-bit `int`. -/
def MinInt64 : Int := -9223372036854775808

/-- Two's-complement wrap-around of a mathematical integer into the range of a 64-bit `int`. -/
def wrapInt (x : Int) : Int := (x + 9223372036854775808) % 18446744073709551616 - 9223372036854775808

/-- Membership in the range of a 64-bit `int`. -/
def InInt64 (x : Int) : Prop := MinInt64 ≤ x ∧ x ≤ MaxInt64

/-! ## The priority queue (`priorityQueue`, `item`) -/

/-- An `item` of the priority queue: a vertex name and its priority. -/
structure item where
  value : String
  priority : Int
deriving DecidableEq, Inhabited

/-- The type `priorityQueue []*item`; items are never mutated after allocation, so the
pointers are modelled by the items themselves. -/
abbrev priorityQueue := List item

/-- Method `Len`. -/
def Len (pq : priorityQueue) : Nat := pq.length

/-- Method `Less`: `pq[i].priority < pq[j].priority`. `container/heap` only ever calls it with
indices below `Len`. -/
def Less (pq : priorityQueue) (i j : Nat) : Bool :=
  decide ((pq.getD i default).priority < (pq.getD j default).priority)

/-- Method `Swap`: `pq[i], pq[j] = pq[j], pq[i]`. -/
def Swap (pq : priorityQueue) (i j : Nat) : priorityQueue :=
  (pq.set i (pq.getD j default)).set j (pq.getD i default)

/-- Method `Push`: `*pq = append(*pq, item)`. -/
def Push (pq : priorityQueue) (x : item) : priorityQueue := pq ++ [x]

/-- Method `Pop`: returns `old[n-1]` and leaves `old[0 : n-1]`; indexing an empty slice at
`-1` is a run-time panic, modelled by `none`. -/
def Pop (pq : priorityQueue) : Option (item × priorityQueue) :=
  match pq.getLast? with
  | none => none
  | some x => some (x, pq.dropLast)

/-! ## `container/heap` -/

/-- The loop of `heap.up`, with an explicit iteration budget. -/
def upLoop : Nat → priorityQueue → Nat → priorityQueue
  | 0, pq, _ => pq
  | fuel + 1, pq, j =>
    let i := (j - 1) / 2
    if i = j ∨ ¬ Less pq j i then pq
    else upLoop fuel (Swap pq i j) i

/-- The function `heap.up(h, j)`; the index strictly decreases at every iteration, so
`j + 1` iterations always suffice. -/
def up (pq : priorityQueue) (j : Nat) : priorityQueue := upLoop (j + 1) pq j

/-- The loop of `heap.down`, with an explicit iteration budget. The guard `j1 < 0` of the Go
source only fires after an overflow of `2*i + 1`, which needs a slice of more than `2^62`
entries, and the boolean that `down` returns is not used by `heap.Pop`; both are left out. -/
def downLoop : Nat → priorityQueue → Nat → Nat → priorityQueue
  | 0, pq, _, _ => pq
  | fuel + 1, pq, i, n =>
    let j1 := 2 * i + 1
    if j1 ≥ n then pq
    else
      let j := if j1 + 1 < n ∧ Less pq (j1 + 1) j1 then j1 + 1 else j1
      if ¬ Less pq j i then pq
      else downLoop fuel (Swap pq i j) j n

/-- The function `heap.down(h, i0, n)`; the index strictly increases and stays below `n`, so
`n` iterations always suffice. -/
def down (pq : priorityQueue) (i0 n : Nat) : priorityQueue := downLoop n pq i0 n

/-- The function `heap.Push(h, x)`: `h.Push(x); up(h, h.Len()-1)`. -/
def heapPush (pq : priorityQueue) (x : item) : priorityQueue :=
  let pq1 := Push pq x
  up pq1 (Len pq1 - 1)

/-- The function `heap.Pop(h)`: `n := h.Len() - 1; h.Swap(0, n); down(h, 0, n); return h.Pop()`.
On an empty queue `h.Swap(0, -1)` indexes out of range and panics (`none`). -/
def heapPop (pq : priorityQueue) : Option (item × priorityQueue) :=
  if Len pq = 0 then none
  else
    let n := Len pq - 1
    Pop (down (Swap pq 0 n) 0 n)

/-! ## Graphs and maps -/

/-- A Go `map[string]int` given by its entries. -/
abbrev Adj := List (String × Int)

/-- A Go `map[string]map[string]int` given by its entries. -/
abbrev Graph := List (String × Adj)

/-- The key set of the graph. -/
def keys (g : Graph) : List String := g.map Prod.fst

/-- The expression `graph[u]`: the adjacency map of `u`, or the nil map when `u` is not a key. -/
def adjOf (g : Graph) (u : String) : Adj := (g.lookup u).getD []

/-- A graph literal is well formed when its keys and the keys of every adjacency map are
distinct and every weight is a 64-bit `int`. -/
def Graph.WF (g : Graph) : Prop :=
  (keys g).Nodup ∧ ∀ p ∈ g, (p.2.map Prod.fst).Nodup ∧ ∀ e ∈ p.2, InInt64 e.2

/-- A Go map as a partial function. -/
abbrev GoMap (β : Type) := String → Option β

/-- The assignment `m[k] = v`. -/
def mapSet {β : Type} (m : GoMap β) (k : String) (v : β) : GoMap β :=
  fun x => if x = k then some v else m x

/-- The read `dist[v]`: a missing key reads as `0`. -/
def getDist (m : GoMap Int) (v : String) : Int := (m v).getD 0

/-- The read `prev[v]`: a missing key reads as `""`. -/
def getPrev (m : GoMap String) (v : String) : String := (m v).getD ""

/-- The iteration orders chosen by the run time: `keys` for `range graph` and `adj k` for the
`range graph[u]` executed in the `k`-th iteration of the main loop. -/
structure IterOrder where
  keys : List String → List String
  adj : Nat → Adj → Adj

/-- An iteration order is valid when every loop visits each entry of its map exactly once. -/
def IterOrder.Valid (o : IterOrder) : Prop :=
  (∀ l, (o.keys l).Perm l) ∧ ∀ k a, (o.adj k a).Perm a

/-- The order that visits every map in the order of its literal. -/
def idOrder : IterOrder := ⟨fun l => l, fun _ a => a⟩

/-- The order that visits every map in the reverse order of its literal. -/
def revOrder : IterOrder := ⟨fun l => l.reverse, fun _ a => a.reverse⟩

/-! ## `Dijkstra` -/

/-- The variables `dist`, `prev` and `queue` of `Dijkstra`. -/
structure State where
  dist : GoMap Int
  prev : GoMap String
  queue : priorityQueue

/-- The initialisation loop `for v := range graph { dist[v] = math.MaxInt32; prev[v] = "" }`. -/
def initMaps (vs : List String) : GoMap Int × GoMap String :=
  vs.foldl (fun m v => (mapSet m.1 v MaxInt32, mapSet m.2 v "")) (fun _ => none, fun _ => none)

/-- The state on entry to the main loop. -/
def initState (g : Graph) (start : String) (ord : IterOrder) : State :=
  let m := initMaps (ord.keys (keys g))
  { dist := mapSet m.1 start 0, prev := m.2, queue := heapPush [] ⟨start, 0⟩ }

/-- The body of the inner loop for one entry `(v, w)` of `graph[u]`. -/
def relax (u : String) (st : State) (e : String × Int) : State :=
  let alt := wrapInt (getDist st.dist u + e.2)
  if alt < getDist st.dist e.1 then
    { dist := mapSet st.dist e.1 alt
      prev := mapSet st.prev e.1 u
      queue := heapPush st.queue ⟨e.1, alt⟩ }
  else st

/-- One iteration of the main loop, the `k`-th: pop `u`, then relax every entry of `graph[u]`. -/
def step (g : Graph) (ord : IterOrder) (k : Nat) (st : State) : Option State :=
  match heapPop st.queue with
  | none => none
  | some (it, q) =>
    some ((ord.adj k (adjOf g it.value)).foldl (relax it.value) { st with queue := q })

/-- The main loop `for queue.Len() > 0 { ... }`, run for at most `fuel` iterations starting
with iteration number `k`; `none` when the budget is exhausted. -/
def mainLoop (g : Graph) (ord : IterOrder) : Nat → Nat → State → Option State
  | 0, _, st => if Len st.queue > 0 then none else some st
  | fuel + 1, k, st =>
    if Len st.queue > 0 then
      match step g ord k st with
      | none => none
      | some st1 => mainLoop g ord fuel (k + 1) st1
    else some st

/-- The function `Dijkstra(graph, start)`, returning `(dist, prev)`. -/
def Dijkstra (g : Graph) (start : String) (ord : IterOrder) (fuel : Nat) :
    Option (GoMap Int × GoMap String) :=
  (mainLoop g ord fuel 0 (initState g start ord)).map fun st => (st.dist, st.prev)

/-- The graph of `main`. -/
def mainGraph : Graph :=
  [("A", [("B", 2), ("C", 3)]), ("B", [("C", 1), ("D", 1)]), ("C", [("D", 4)]), ("D", [("C", 2)])]

/-- The priority stored at index `i` of the queue. -/
def prio (pq : priorityQueue) (i : Nat) : Int := (pq.getD i default).priority

/-- The binary min-heap property on priority: every entry is at least its parent. -/
def IsHeap (pq : priorityQueue) : Prop :=
  ∀ i, i < pq.length → prio pq ((i - 1) / 2) ≤ prio pq i

/-- The queue satisfies the heap property everywhere except possibly between `j` and its
parent, and the children of `j` are not below the parent of `j`. -/
def HeapUpTo (pq : priorityQueue) (j : Nat) : Prop :=
  (∀ k, k < pq.length → k ≠ j → prio pq ((k - 1) / 2) ≤ prio pq k) ∧
  (∀ k, k < pq.length → k ≠ j → (k - 1) / 2 = j → prio pq ((j - 1) / 2) ≤ prio pq k)

/-- The first `n` entries satisfy the heap property. -/
def IsHeapBelow (pq : priorityQueue) (n : Nat) : Prop :=
  ∀ k, k < n → prio pq ((k - 1) / 2) ≤ prio pq k

/-- The first `n` entries satisfy the heap property except possibly between `i` and its
children, and the children of `i` are not below the parent of `i`. -/
def HeapDownFrom (pq : priorityQueue) (i n : Nat) : Prop :=
  (∀ k, k < n → (k - 1) / 2 ≠ i → prio pq ((k - 1) / 2) ≤ prio pq k) ∧
  (∀ k, k < n → (k - 1) / 2 = i → i ≠ 0 → prio pq ((i - 1) / 2) ≤ prio pq k)

/-! ## Specification vocabulary -/

/-- Every edge weight of the graph is non-negative. -/
def NonNeg (g : Graph) : Prop := ∀ p ∈ g, ∀ e ∈ p.2, 0 ≤ e.2

/-- Every edge weight is non-negative and small enough that adding it to a distance of at most
`math.MaxInt32` stays within a 64-bit `int`: no sum `dist[u] + w` computed by the program
overflows. -/
def Bounded (g : Graph) : Prop := ∀ p ∈ g, ∀ e ∈ p.2, 0 ≤ e.2 ∧ e.2 ≤ MaxInt64 - MaxInt32

/-- The relation `Walk g s v c`: there is a directed path from `s` to `v` in `g` whose edge
weights sum to `c`. The path of length zero has weight `0`. -/
inductive Walk (g : Graph) (s : String) : String → Int → Prop
  | nil : Walk g s s 0
  | snoc {u : String} {c : Int} (e : String × Int) :
      Walk g s u c → e ∈ adjOf g u → Walk g s e.1 (c + e.2)

/-- The vertex `v` is reachable from `s` by a directed path. -/
def Reachable (g : Graph) (s v : String) : Prop := ∃ c, Walk g s v c

/-- The integer `d` is the minimum, over all directed paths from `s` to `v`, of the sum of the
edge weights on the path. -/
def IsMinDist (g : Graph) (s v : String) (d : Int) : Prop :=
  Walk g s v d ∧ ∀ c, Walk g s v c → d ≤ c

/-- Every vertex that occurs as a neighbour in some adjacency map. -/
def targets : Graph → List String
  | [] => []
  | p :: g => p.2.map Prod.fst ++ targets g

/-- A variant for termination: the total height of the recorded distances of the vertices `vs`
above the least 64-bit integer. -/
def potential (vs : List String) (d : GoMap Int) : Nat :=
  (vs.map fun v => (getDist d v - MinInt64).toNat).sum

/-- The termination measure of the main loop. -/
def loopMeasure (g : Graph) (st : State) : Nat :=
  2 * potential (targets g) st.dist + st.queue.length

/-- Every recorded distance is a 64-bit `int`. -/
def InRange (d : GoMap Int) : Prop := ∀ v, InInt64 (getDist d v)

/-- The vertex `x` has an entry in the queue. -/
def Queued (pq : priorityQueue) (x : String) : Prop := ∃ it ∈ pq, it.value = x

/-- The invariant of `Dijkstra` on graphs whose weights are `Bounded`. The predicate `pend`
marks the edges that the inner loop has not visited yet: `pend` is empty at the head of the
main loop, and inside the inner loop over `graph[u]` it holds of the entries of `graph[u]`
still to come. -/
structure Inv (g : Graph) (s : String) (pend : String → String × Int → Prop) (st : State) :
    Prop where
  range : ∀ v, 0 ≤ getDist st.dist v ∧ getDist st.dist v ≤ MaxInt32
  src : st.dist s = some 0
  nonkey : ∀ v, v ∉ keys g → v ≠ s → st.dist v = none ∧ st.prev v = none
  key : ∀ v, v ∈ keys g → st.dist v = some (getDist st.dist v)
  walk : ∀ v, v ∈ keys g → getDist st.dist v < MaxInt32 → Walk g s v (getDist st.dist v)
  prevNone : ∀ v, v ∈ keys g → (v = s ∨ getDist st.dist v = MaxInt32) → st.prev v = some ""
  prevSrc : s ∉ keys g → st.prev s = none
  edges : ∀ x, Queued st.queue x ∨
    ∀ e ∈ adjOf g x, pend x e ∨ getDist st.dist e.1 ≤ getDist st.dist x + e.2

/-- The invariant that holds for arbitrary weights: only vertices reachable from the source are
ever queued or written to. -/
structure ReachInv (g : Graph) (s : String) (ord : IterOrder) (st : State) : Prop where
  queued : ∀ it ∈ st.queue, Reachable g s it.value
  dist : ∀ v, ¬ Reachable g s v → st.dist v = (initState g s ord).dist v
  prev : ∀ v, ¬ Reachable g s v → st.prev v = (initState g s ord).prev v

instance (g : Graph) : Decidable (NonNeg g) := by unfold NonNeg; infer_instance

instance (g : Graph) : Decidable (Bounded g) := by unfold Bounded; infer_instance

/-- The state on entry to the main loop for the graph of `main` and source `"A"`. -/
def mainInit : State :=
  { dist := fun v => if v = "A" then some 0 else if v ∈ keys mainGraph then some MaxInt32 else none
    prev := fun v => if v ∈ keys mainGraph then some "" else none
    queue := [⟨"A", 0⟩] }

/-- The values that a result of `Dijkstra` holds for the four vertices of the graph of `main`. -/
def mainView (r : GoMap Int × GoMap String) : List (Option Int) × List (Option String) :=
  ([r.1 "A", r.1 "B", r.1 "C", r.1 "D"], [r.2 "A", r.2 "B", r.2 "C", r.2 "D"])

/-- The distance map `{A:0, B:2, C:3, D:3}`. -/
def mainDist : GoMap Int := fun v =>
  if v = "A" then some 0 else if v = "B" then some 2 else if v = "C" then some 3
  else if v = "D" then some 3 else none

/-- The predecessor map `{A:"", B:A, C:A, D:B}`. -/
def mainPrev : GoMap String := fun v =>
  if v = "A" then some "" else if v = "B" then some "A" else if v = "C" then some "A"
  else if v = "D" then some "B" else none

/-- A graph with one edge of weight `2^31`. -/
def satGraph : Graph := [("A", [("B", 2147483648)]), ("B", [])]

/-- A graph with a cycle through the source whose second edge has weight `2^63 - 1`. -/
def wrapGraph : Graph := [("A", [("B", 1)]), ("B", [("A", 9223372036854775807)])]

/-- A graph with two equal-priority neighbours of the source and two edges of weight
`2^63 - 1`. -/
def tieGraph : Graph :=
  [("S", [("U1", 1), ("U2", 1)]), ("U1", [("X", 9223372036854775807)]), ("X", [("U2", 0)]),
   ("U2", [("Y", 9223372036854775807)]), ("Y", [])]

/-- A graph whose vertex `"B"` occurs only as a neighbour. -/
def leafGraph : Graph := [("A", [("B", 5)])]

instance (pq : priorityQueue) : Decidable (IsHeap pq) := by unfold IsHeap; infer_instance

/-! ## Path reconstruction -/

/-- The outcome of `reconstruct_path`: a path, the "no path" indicator, or an exhausted
iteration budget. -/
inductive Trace where
  | path : List String → Trace
  | noPath : Trace
  | budget : Trace
deriving DecidableEq

/-- Modelled from the spec: the loop of `reconstruct_path` (§4.4), which the repository does not
implement. Starting at the target it follows the predecessor link, prepending each vertex,
until it reaches the source (success) or a vertex other than the source whose predecessor is
"none" (failure); in the Go maps "none" is the empty string, also read from a missing key. -/
def walkBack (prev : GoMap String) (source : String) : Nat → String → List String → Trace
  | 0, _, _ => Trace.budget
  | fuel + 1, cur, acc =>
    if cur = source then Trace.path (cur :: acc)
    else if getPrev prev cur = "" then Trace.noPath
    else walkBack prev source fuel (getPrev prev cur) (cur :: acc)

/-- Modelled from the spec: `reconstruct_path(predecessors, source, target)` (§4.4), which the
repository does not implement, run for at most `fuel` links. -/
def reconstructPath (prev : GoMap String) (source target : String) (fuel : Nat) : Trace :=
  walkBack prev source fuel target []

/-- The relation `WalkVia g s p v c`: the vertex sequence `p` runs from `s` to `v` inclusive,
each consecutive pair is an edge of `g`, and the weights of those edges sum to `c`. -/
inductive WalkVia (g : Graph) (s : String) : List String → String → Int → Prop
  | nil : WalkVia g s [s] s 0
  | snoc {p : List String} {u : String} {c : Int} (e : String × Int) :
      WalkVia g s p u c → e ∈ adjOf g u → WalkVia g s (p ++ [e.1]) e.1 (c + e.2)

/-- The invariant on predecessor links: every key that has been reached holds a predecessor
`u` such that `(u, v)` is an edge accounting for the distance of `v`, and along a link either
the distance or the auxiliary `rank` strictly decreases, so links never form a cycle. -/
structure PredInv (g : Graph) (s : String) (rank : String → Nat) (st : State) : Prop where
  link : ∀ v, v ∈ keys g → v ≠ s → getDist st.dist v < MaxInt32 →
    ∃ u w, st.prev v = some u ∧ (v, w) ∈ adjOf g u ∧
      getDist st.dist u + w ≤ getDist st.dist v ∧
      (getDist st.dist u < getDist st.dist v ∨ rank u < rank v)

/-- The states at the head of the main loop: `Reached g s ord k st` holds when `st` is the state
in which a run of `Dijkstra g s` under the order `ord` tests the loop guard for the `k`-th
time, counting from `0`. -/
inductive Reached (g : Graph) (s : String) (ord : IterOrder) : Nat → State → Prop
  | init : Reached g s ord 0 (initState g s ord)
  | next {k : Nat} {st st1 : State} :
      Reached g s ord k st → st.queue ≠ [] → step g ord k st = some st1 →
      Reached g s ord (k + 1) st1

/-- A graph whose source is the vertex named by the empty string. -/
def emptyNameGraph : Graph := [("", [("B", 1)]), ("B", [])]

/-! ## Bounds-checked heap operations -/

/-- The index expression `pq[i]` with the bounds check of the Go run time; `none` stands for
the panic "index out of range". -/
def index (pq : priorityQueue) (i : Int) : Option item :=
  if 0 ≤ i ∧ i < pq.length then pq.get? i.toNat else none

/-- Method `Less` with bounds-checked index expressions. -/
def LessChecked (pq : priorityQueue) (i j : Int) : Option Bool :=
  match index pq i, index pq j with
  | some a, some b => some (decide (a.priority < b.priority))
  | _, _ => none

/-- Method `Swap` with bounds-checked index expressions: both operands are read before either
slot is written. -/
def SwapChecked (pq : priorityQueue) (i j : Int) : Option priorityQueue :=
  match index pq j, index pq i with
  | some a, some b => some ((pq.set i.toNat a).set j.toNat b)
  | _, _ => none

/-- The loop of `heap.down` over the bounds-checked methods, with the indices as Go `int`s and
the guard `j1 < 0` of the source kept. -/
def downLoopChecked : Nat → priorityQueue → Int → Int → Option priorityQueue
  | 0, pq, _, _ => some pq
  | fuel + 1, pq, i, n =>
    let j1 := 2 * i + 1
    if j1 ≥ n ∨ j1 < 0 then some pq
    else
      match (if j1 + 1 < n then LessChecked pq (j1 + 1) j1 else some false) with
      | none => none
      | some c =>
        let j := if c then j1 + 1 else j1
        match LessChecked pq j i with
        | none => none
        | some b =>
          if ¬ b then some pq
          else
            match SwapChecked pq i j with
            | none => none
            | some pq1 => downLoopChecked fuel pq1 j n

/-- The function `heap.Pop(h)` over the bounds-checked methods:
`n := h.Len() - 1; h.Swap(0, n); down(h, 0, n); return h.Pop()`. On an empty queue `n` is `-1`
and `h.Swap(0, -1)` panics. -/
def heapPopChecked (pq : priorityQueue) : Option (item × priorityQueue) :=
  let n : Int := (Len pq : Int) - 1
  match SwapChecked pq 0 n with
  | none => none
  | some pq1 =>
    match downLoopChecked n.toNat pq1 0 n with
    | none => none
    | some pq2 => Pop pq2

/-! ## The states of a run -/

/-- The state in which the guard of the main loop is tested for the `k`-th time, counting from
`0`; `none` when the loop has exited before. -/
def stateAfter (g : Graph) (s : String) (ord : IterOrder) : Nat → Option State
  | 0 => some (initState g s ord)
  | k + 1 =>
    match stateAfter g s ord k with
    | none => none
    | some st => if Len st.queue > 0 then step g ord k st else none

/-- The entry that `heap.Pop` returns in the `k`-th iteration of the main loop, counting from
`0`; `none` when the loop has exited before. -/
def poppedAt (g : Graph) (s : String) (ord : IterOrder) (k : Nat) : Option item :=
  match stateAfter g s ord k with
  | none => none
  | some st => (heapPop st.queue).map Prod.fst

/-- The vertices of the graph: its keys and the vertices that occur as neighbours. -/
def vertices (g : Graph) : List String := (keys g ++ targets g).dedup

/-- A graph with five vertices in which `"A"` and `"B"` are each improved twice after their
first entry was queued. -/
def fanGraph : Graph :=
  [("S", [("X1", 1), ("X2", 2), ("A", 10), ("B", 10)]), ("X1", [("A", 5), ("B", 5)]),
   ("X2", [("A", 3), ("B", 3)]), ("A", []), ("B", [])]

/-- A graph with two paths of weight `2` from `"S"` to `"T"`. -/
def diamondGraph : Graph :=
  [("S", [("A", 1), ("B", 1)]), ("A", [("T", 1)]), ("B", [("T", 1)]), ("T", [])]

/-! ## The settled-check variant -/

/-- The iteration of the main loop with the settled-check that the spec allows (§4.3): a popped
entry `(u, p)` whose priority `p` no longer matches the current distance `dist[u]` is skipped;
any other entry is processed as in `step`. -/
def stepSettled (g : Graph) (ord : IterOrder) (k : Nat) (st : State) : Option State :=
  match heapPop st.queue with
  | none => none
  | some (it, q) =>
    if it.priority ≠ getDist st.dist it.value then some { st with queue := q }
    else some ((ord.adj k (adjOf g it.value)).foldl (relax it.value) { st with queue := q })

/-- The main loop built on `stepSettled`. -/
def mainLoopSettled (g : Graph) (ord : IterOrder) : Nat → Nat → State → Option State
  | 0, _, st => if Len st.queue > 0 then none else some st
  | fuel + 1, k, st =>
    if Len st.queue > 0 then
      match stepSettled g ord k st with
      | none => none
      | some st1 => mainLoopSettled g ord fuel (k + 1) st1
    else some st

/-- The variant of `Dijkstra` with the settled-check. -/
def DijkstraSettled (g : Graph) (start : String) (ord : IterOrder) (fuel : Nat) :
    Option (GoMap Int × GoMap String) :=
  (mainLoopSettled g ord fuel 0 (initState g start ord)).map fun st => (st.dist, st.prev)

/-- The invariant on the queue, which holds for all weights: the queue is a heap, no entry lies
below the current distance of its vertex, and every queued vertex either has an entry at its
current distance or has had all its edges, except those still `pend`ing in the inner loop,
relaxed at its current distance. -/
structure QueueInv (g : Graph) (pend : String → String × Int → Prop) (st : State) : Prop where
  heap : IsHeap st.queue
  above : ∀ it ∈ st.queue, getDist st.dist it.value ≤ it.priority
  fresh : ∀ x, Queued st.queue x → (⟨x, getDist st.dist x⟩ : item) ∈ st.queue ∨
    ∀ e ∈ adjOf g x, pend x e ∨ getDist st.dist e.1 ≤ wrapInt (getDist st.dist x + e.2)

/-- No sum `dist[u] + w` computed by the run overflows the 64-bit `int`: whenever the inner loop
of some iteration has visited the entries `seen` of `graph[u]` and visits `e` next, the sum of
the current `dist[u]` and the weight of `e` is a 64-bit integer. -/
def NoOverflow (g : Graph) (s : String) (ord : IterOrder) : Prop :=
  ∀ k st it q seen e, Reached g s ord k st → heapPop st.queue = some (it, q) →
    seen ++ [e] <+: ord.adj k (adjOf g it.value) →
    InInt64 (getDist (seen.foldl (relax it.value) { st with queue := q }).dist it.value + e.2)

end Dijkstras

/-!
# Binary trees (`Trees/Binary_Trees/bst.go`)

The nodes of the Go program live on the heap and are updated in place through pointers. The
heap is a list of cells, the address of a cell is its index, `nil` is `none`, and allocation
appends a cell. Recursive functions take a bound on the recursion depth and return `none`
when it is exceeded or when a pointer is dangling.
-/

namespace BinaryTrees

/-- The constant `math.MinInt32`. -/
def MinInt32 : Int := -2147483648

/-- A pointer `*BinaryTreeNode`. -/
abbrev Ptr := Option Nat

/-- The struct `BinaryTreeNode`. -/
structure BinaryTreeNode where
  left : Ptr
  data : Int
  right : Ptr
deriving DecidableEq

/-- The heap of `BinaryTreeNode` cells. -/
abbrev Heap := List BinaryTreeNode

/-- The function `FindMax`. -/
def FindMax : Nat → Heap → Ptr → Option Int
  | 0, _, _ => none
  | _ + 1, _, none => some MinInt32
  | fuel + 1, h, some a =>
    match h[a]? with
    | none => none
    | some n =>
      match FindMax fuel h n.left, FindMax fuel h n.right with
      | some left, some right =>
        let max := if left > MinInt32 then left else right
        some (if n.data > max then n.data else max)
      | _, _ => none

/-- The function `Size`; a tree whose size overflows an `int` does not fit in memory, so the
sum is not wrapped. -/
def Size : Nat → Heap → Ptr → Option Int
  | 0, _, _ => none
  | _ + 1, _, none => some 0
  | fuel + 1, h, some a =>
    match h[a]? with
    | none => none
    | some n =>
      match Size fuel h n.left, Size fuel h n.right with
      | some sl, some sr => some (sl + 1 + sr)
      | _, _ => none

/-- The function `Height`. -/
def Height : Nat → Heap → Ptr → Option Int
  | 0, _, _ => none
  | _ + 1, _, none => some 0
  | fuel + 1, h, some a =>
    match h[a]? with
    | none => none
    | some n =>
      match Height fuel h n.left, Height fuel h n.right with
      | some leftHeight, some rightHeight =>
        some (if leftHeight > rightHeight then leftHeight + 1 else rightHeight + 1)
      | _, _ => none

/-- The function `InOrder`, returning the sequence of values it prints. -/
def InOrder : Nat → Heap → Ptr → Option (List Int)
  | 0, _, _ => none
  | _ + 1, _, none => some []
  | fuel + 1, h, some a =>
    match h[a]? with
    | none => none
    | some n =>
      match InOrder fuel h n.left, InOrder fuel h n.right with
      | some l, some r => some (l ++ [n.data] ++ r)
      | _, _ => none

/-- The function `InvertTree`: it evaluates `InvertTree(root.right)`, then
`InvertTree(root.left)`, then stores the two results in `root.left` and `root.right`, and
returns `root`. -/
def InvertTree : Nat → Heap → Ptr → Option (Heap × Ptr)
  | 0, _, _ => none
  | _ + 1, h, none => some (h, none)
  | fuel + 1, h, some a =>
    match h[a]? with
    | none => none
    | some n =>
      match InvertTree fuel h n.right with
      | none => none
      | some (h1, p1) =>
        match h1[a]? with
        | none => none
        | some n1 =>
          match InvertTree fuel h1 n1.left with
          | none => none
          | some (h2, p2) =>
            match h2[a]? with
            | none => none
            | some n2 => some (h2.set a { n2 with left := p1, right := p2 }, some a)

/-- The function `InvertTree2`: it swaps the two pointers of `root`, calls
`InvertTree(root.left)` and `InvertTree(root.right)` for their effect on the heap, discarding
the pointers they return, and returns `root`. -/
def InvertTree2 (fuel : Nat) (h : Heap) : Ptr → Option (Heap × Ptr)
  | none => some (h, none)
  | some a =>
    match h[a]? with
    | none => none
    | some n =>
      let h0 := h.set a { n with left := n.right, right := n.left }
      match h0[a]? with
      | none => none
      | some n0 =>
        match InvertTree fuel h0 n0.left with
        | none => none
        | some (h1, _) =>
          match h1[a]? with
          | none => none
          | some n1 =>
            match InvertTree fuel h1 n1.right with
            | none => none
            | some (h2, _) => some (h2, some a)

/-- The function `insert`; `&BinaryTreeNode{nil, v, nil}` allocates a new cell. -/
def insert : Nat → Heap → Ptr → Int → Option (Heap × Ptr)
  | 0, _, _, _ => none
  | _ + 1, h, none, v => some (h ++ [⟨none, v, none⟩], some h.length)
  | fuel + 1, h, some a, v =>
    match h[a]? with
    | none => none
    | some n =>
      if v < n.data then
        match insert fuel h n.left v with
        | none => none
        | some (h1, p) =>
          match h1[a]? with
          | none => none
          | some n1 => some (h1.set a { n1 with left := p }, some a)
      else
        match insert fuel h n.right v with
        | none => none
        | some (h1, p) =>
          match h1[a]? with
          | none => none
          | some n1 => some (h1.set a { n1 with right := p }, some a)

/-- The function `NewBinaryTree(n, k)`, where `perm` is the slice that `rand.Perm(n)` returns:
`root` starts as `nil` and every `v` of `perm` is inserted as `(1 + v) * k`, a product of 64-bit
`int`s. -/
def NewBinaryTree (fuel : Nat) (h : Heap) (perm : List Nat) (k : Int) : Option (Heap × Ptr) :=
  perm.foldl
    (fun acc (v : Nat) =>
      match acc with
      | none => none
      | some (h1, root) => insert fuel h1 root (Dijkstras.wrapInt ((1 + (v : Int)) * k)))
    (some (h, none))

/-! ## Specification vocabulary for trees -/

/-- A binary tree of integers, as a value. -/
inductive Tree where
  | nil : Tree
  | node : Tree → Int → Tree → Tree
deriving DecidableEq

/-- The mirror image: at every node the two subtrees are exchanged and mirrored. -/
def Tree.mirror : Tree → Tree
  | Tree.nil => Tree.nil
  | Tree.node l d r => Tree.node r.mirror d l.mirror

/-- The number of nodes. -/
def Tree.size : Tree → Nat
  | Tree.nil => 0
  | Tree.node l _ r => l.size + 1 + r.size

/-- The number of nodes on a longest path from the root downwards. -/
def Tree.height : Tree → Nat
  | Tree.nil => 0
  | Tree.node l _ r => max l.height r.height + 1

/-- The data in in-order. -/
def Tree.toList : Tree → List Int
  | Tree.nil => []
  | Tree.node l d r => l.toList ++ [d] ++ r.toList

/-- The search-tree ordering: at every node the data of the left subtree are smaller than the
data of the node and the data of the right subtree are at least as large. -/
def Tree.Ordered : Tree → Prop
  | Tree.nil => True
  | Tree.node l d r =>
    (∀ x ∈ l.toList, x < d) ∧ (∀ x ∈ r.toList, d ≤ x) ∧ l.Ordered ∧ r.Ordered

/-- Insertion into a tree value by the comparisons of `insert`. -/
def Tree.ins : Tree → Int → Tree
  | Tree.nil, v => Tree.node Tree.nil v Tree.nil
  | Tree.node l d r, v => if v < d then Tree.node (l.ins v) d r else Tree.node l d (r.ins v)

/-- The relation `IsTree h p t fp`: in the heap `h` the pointer `p` is the root of a structure
without sharing whose cells sit at the addresses `fp`, each used once, and which holds the
tree `t`. -/
inductive IsTree (h : Heap) : Ptr → Tree → List Nat → Prop
  | nil : IsTree h none Tree.nil []
  | node {a : Nat} {n : BinaryTreeNode} {l r : Tree} {fl fr : List Nat} :
      h[a]? = some n → IsTree h n.left l fl → IsTree h n.right r fr →
      (a :: (fl ++ fr)).Nodup → IsTree h (some a) (Tree.node l n.data r) (a :: (fl ++ fr))

/-- The cell with its two pointers exchanged. -/
def swapCell (n : BinaryTreeNode) : BinaryTreeNode := { n with left := n.right, right := n.left }

/-- The heap in which the cells at the addresses `fp` have their two pointers exchanged. -/
def swapOn (fp : List Nat) (h : Heap) : Heap :=
  h.mapIdx fun a n => if a ∈ fp then swapCell n else n

/-- The heap holding the tree with root `2`, left child `1` and right child `3`, as built by
`NewBinaryTree(3, 1)` when `rand.Perm(3)` returns `[1, 0, 2]`. -/
def smallHeap : Heap := [⟨some 1, 2, some 2⟩, ⟨none, 1, none⟩, ⟨none, 3, none⟩]

/-- The tree with root `2`, left child `1` and right child `3`. -/
def smallTree : Tree :=
  Tree.node (Tree.node Tree.nil 1 Tree.nil) 2 (Tree.node Tree.nil 3 Tree.nil)

end BinaryTrees

namespace Dijkstras

/-! ## Basic facts about `Swap` -/

theorem length_Swap (pq : priorityQueue) (i j : Nat) : (Swap pq i j).length = pq.length := by
  simp [Swap]

theorem getD_Swap (pq : priorityQueue) (i j k : Nat) (hi : i < pq.length) (hj : j < pq.length) :
    (Swap pq i j).getD k default =
      if k = j then pq.getD i default else if k = i then pq.getD j default
      else pq.getD k default := by
  simp only [Swap, List.getD_eq_getElem?_getD, List.getElem?_set, List.length_set]
  by_cases hkj : k = j
  · subst hkj; simp [hj]
  · by_cases hki : k = i
    · subst hki
      have : ¬ j = k := fun h => hkj h.symm
      simp [hkj, this, hi]
    · have h1 : ¬ j = k := fun h => hkj h.symm
      have h2 : ¬ i = k := fun h => hki h.symm
      simp [hkj, hki, h1, h2]

theorem prio_Swap (pq : priorityQueue) (i j k : Nat) (hi : i < pq.length) (hj : j < pq.length) :
    prio (Swap pq i j) k =
      if k = j then prio pq i else if k = i then prio pq j else prio pq k := by
  unfold prio
  rw [getD_Swap pq i j k hi hj]
  split_ifs <;> rfl

theorem Swap_perm (pq : priorityQueue) (i j : Nat) (hi : i < pq.length) (hj : j < pq.length) :
    (Swap pq i j).Perm pq := by
  rw [List.perm_iff_count]
  intro a
  unfold Swap
  rw [List.count_set _ _ _ _ (by simpa using hj), List.count_set _ _ _ _ hi]
  simp only [List.getD_eq_getElem?_getD, List.getElem?_eq_getElem hi,
    List.getElem?_eq_getElem hj, Option.getD_some, List.getElem_set]
  have h1 : 0 < List.count pq[i] pq := List.count_pos_iff.mpr (List.getElem_mem _)
  have h2 : 0 < List.count pq[j] pq := List.count_pos_iff.mpr (List.getElem_mem _)
  by_cases hij : i = j
  · subst hij
    simp only [if_true]
    by_cases ha : pq[i] = a
    · subst ha; simp
    · simp [ha]
  · simp only [hij, if_false]
    by_cases ha : pq[i] = a <;> by_cases hb : pq[j] = a
    · subst ha; simp [hb]
    · subst ha; simp [hb]
    · subst hb; simp [ha]
    · simp [ha, hb]

/-! ## `heap.up` -/

theorem upLoop_length (fuel : Nat) : ∀ (pq : priorityQueue) (j : Nat),
    (upLoop fuel pq j).length = pq.length := by
  induction fuel with
  | zero => intro pq j; rfl
  | succ f ih =>
    intro pq j
    simp only [upLoop]
    split_ifs
    · rfl
    · rw [ih, length_Swap]

theorem upLoop_perm (fuel : Nat) : ∀ (pq : priorityQueue) (j : Nat), j < pq.length →
    (upLoop fuel pq j).Perm pq := by
  induction fuel with
  | zero => intro pq j _; exact List.Perm.refl _
  | succ f ih =>
    intro pq j hj
    simp only [upLoop]
    split_ifs
    · exact List.Perm.refl _
    · have hi : (j - 1) / 2 < pq.length := by omega
      exact (ih _ _ (by rw [length_Swap]; exact hi)).trans (Swap_perm pq _ _ hi hj)

theorem upLoop_succ (fuel : Nat) (pq : priorityQueue) (j : Nat) :
    upLoop (fuel + 1) pq j =
      if (j - 1) / 2 = j ∨ ¬ Less pq j ((j - 1) / 2) = true then pq
      else upLoop fuel (Swap pq ((j - 1) / 2) j) ((j - 1) / 2) := rfl

/-- Extra iterations of the budget of `up` are never used. -/
theorem upLoop_fuel (fuel : Nat) : ∀ (pq : priorityQueue) (j : Nat), j < fuel →
    upLoop (fuel + 1) pq j = upLoop fuel pq j := by
  induction fuel with
  | zero => intro pq j hj; omega
  | succ f ih =>
    intro pq j hj
    rw [upLoop_succ (f + 1) pq j, upLoop_succ f pq j]
    by_cases hc : (j - 1) / 2 = j ∨ ¬ Less pq j ((j - 1) / 2) = true
    · simp only [hc, if_true]
    · simp only [hc, if_false]
      have hlt : (j - 1) / 2 < f := by
        have : (j - 1) / 2 ≠ j := fun h => hc (Or.inl h)
        omega
      exact ih _ _ hlt

theorem upLoop_heap (fuel : Nat) : ∀ (pq : priorityQueue) (j : Nat), j < pq.length → j < fuel →
    HeapUpTo pq j → IsHeap (upLoop fuel pq j) := by
  induction fuel with
  | zero => intro pq j _ hf; omega
  | succ f ih =>
    intro pq j hj hf ⟨h1, h2⟩
    simp only [upLoop]
    by_cases hc : (j - 1) / 2 = j ∨ ¬ Less pq j ((j - 1) / 2) = true
    · simp only [hc, if_true]
      intro k hk
      by_cases hkj : k = j
      · subst hkj
        rcases hc with hc | hc
        · rw [hc]
        · simpa [Less, prio] using hc
      · exact h1 k hk hkj
    · simp only [hc, if_false]
      have hne : (j - 1) / 2 ≠ j := fun h => hc (Or.inl h)
      have hless : prio pq j < prio pq ((j - 1) / 2) := by
        have : Less pq j ((j - 1) / 2) = true := by
          by_contra h; exact hc (Or.inr h)
        simpa [Less, prio] using this
      have hi : (j - 1) / 2 < pq.length := by omega
      apply ih _ _ (by rw [length_Swap]; exact hi) (by omega)
      constructor
      · intro k hk hki
        rw [length_Swap] at hk
        rw [prio_Swap pq _ _ _ hi hj, prio_Swap pq _ _ _ hi hj]
        by_cases hkj : k = j
        · subst hkj
          simp only [if_true, hne, if_false]
          exact le_of_lt hless
        · simp only [hkj, hki, if_false]
          have hpj : (k - 1) / 2 = j ∨ (k - 1) / 2 ≠ j := em _
          rcases hpj with hpj | hpj
          · simp only [hpj, if_true]
            exact h2 k hk hkj hpj
          · simp only [hpj, if_false]
            by_cases hpi : (k - 1) / 2 = (j - 1) / 2
            · simp only [hpi, if_true]
              have := h1 k hk hkj
              rw [hpi] at this
              exact le_trans (le_of_lt hless) this
            · simp only [hpi, if_false]
              exact h1 k hk hkj
      · intro k hk hki hpk
        rw [length_Swap] at hk
        rw [prio_Swap pq _ _ _ hi hj, prio_Swap pq _ _ _ hi hj]
        have hppj : ((j - 1) / 2 - 1) / 2 ≠ j := by omega
        simp only [hppj, if_false]
        have hgp : prio pq (((j - 1) / 2 - 1) / 2) ≤ prio pq ((j - 1) / 2) := by
          by_cases h0 : ((j - 1) / 2 - 1) / 2 = (j - 1) / 2
          · rw [h0]
          · exact h1 _ hi hne
        by_cases hkj : k = j
        · subst hkj
          simp only [if_true]
          by_cases h0 : ((k - 1) / 2 - 1) / 2 = (k - 1) / 2
          · simp only [h0, if_true]; exact le_of_lt hless
          · simp only [h0, if_false]; exact hgp
        · simp only [hkj, hki, if_false]
          have hk1 := h1 k hk hkj
          rw [hpk] at hk1
          by_cases h0 : ((j - 1) / 2 - 1) / 2 = (j - 1) / 2
          · simp only [h0, if_true]; exact le_trans (le_of_lt hless) hk1
          · simp only [h0, if_false]; exact le_trans hgp hk1

theorem prio_append_left (pq : priorityQueue) (x : item) (k : Nat) (hk : k < pq.length) :
    prio (pq ++ [x]) k = prio pq k := by
  unfold prio
  simp [List.getElem?_append_left hk]

theorem heapPush_length (pq : priorityQueue) (x : item) :
    (heapPush pq x).length = pq.length + 1 := by
  simp [heapPush, up, Push, upLoop_length]

theorem heapPush_perm (pq : priorityQueue) (x : item) : (heapPush pq x).Perm (x :: pq) := by
  unfold heapPush up Push Len
  refine (upLoop_perm _ _ _ (by simp)).trans ?_
  exact List.perm_append_comm

theorem heapPush_heap (pq : priorityQueue) (x : item) (h : IsHeap pq) :
    IsHeap (heapPush pq x) := by
  unfold heapPush up Push Len
  apply upLoop_heap _ _ _ (by simp) (by simp)
  constructor
  · intro k hk hne
    have hk' : k < pq.length := by
      simp only [List.length_append, List.length_singleton] at hk hne
      omega
    rw [prio_append_left pq x k hk', prio_append_left pq x _ (by omega)]
    exact h k hk'
  · intro k hk hne hp
    simp only [List.length_append, List.length_singleton] at hk hne hp
    omega

/-! ## `heap.down` -/

theorem downLoop_succ (fuel : Nat) (pq : priorityQueue) (i n : Nat) :
    downLoop (fuel + 1) pq i n =
      if 2 * i + 1 ≥ n then pq
      else if ¬ Less pq (if 2 * i + 1 + 1 < n ∧ Less pq (2 * i + 1 + 1) (2 * i + 1) = true
                then 2 * i + 1 + 1 else 2 * i + 1) i = true then pq
      else downLoop fuel
        (Swap pq i (if 2 * i + 1 + 1 < n ∧ Less pq (2 * i + 1 + 1) (2 * i + 1) = true
                then 2 * i + 1 + 1 else 2 * i + 1))
        (if 2 * i + 1 + 1 < n ∧ Less pq (2 * i + 1 + 1) (2 * i + 1) = true
                then 2 * i + 1 + 1 else 2 * i + 1) n := rfl

/-- The child index chosen by one iteration of `down` is one of the two children and lies
below `n`. -/
theorem down_child (pq : priorityQueue) (i n : Nat) (h : ¬ 2 * i + 1 ≥ n) :
    ((if 2 * i + 1 + 1 < n ∧ Less pq (2 * i + 1 + 1) (2 * i + 1) = true
        then 2 * i + 1 + 1 else 2 * i + 1) = 2 * i + 1 ∨
     (if 2 * i + 1 + 1 < n ∧ Less pq (2 * i + 1 + 1) (2 * i + 1) = true
        then 2 * i + 1 + 1 else 2 * i + 1) = 2 * i + 2) ∧
    (if 2 * i + 1 + 1 < n ∧ Less pq (2 * i + 1 + 1) (2 * i + 1) = true
        then 2 * i + 1 + 1 else 2 * i + 1) < n := by
  split_ifs with hc
  · exact ⟨Or.inr rfl, hc.1⟩
  · exact ⟨Or.inl rfl, by omega⟩

theorem downLoop_length (fuel : Nat) : ∀ (pq : priorityQueue) (i n : Nat),
    (downLoop fuel pq i n).length = pq.length := by
  induction fuel with
  | zero => intro pq i n; rfl
  | succ f ih =>
    intro pq i n
    rw [downLoop_succ]
    split_ifs <;> first | rfl | (rw [ih, length_Swap])

theorem downLoop_perm (fuel : Nat) : ∀ (pq : priorityQueue) (i n : Nat), i < n → n ≤ pq.length →
    (downLoop fuel pq i n).Perm pq := by
  induction fuel with
  | zero => intro pq i n _ _; exact List.Perm.refl _
  | succ f ih =>
    intro pq i n hi hn
    rw [downLoop_succ]
    by_cases h1 : 2 * i + 1 ≥ n
    · simp only [h1, if_true]; exact List.Perm.refl _
    · simp only [h1, if_false]
      obtain ⟨_, hjn⟩ := down_child pq i n h1
      generalize (if 2 * i + 1 + 1 < n ∧ Less pq (2 * i + 1 + 1) (2 * i + 1) = true
        then 2 * i + 1 + 1 else 2 * i + 1) = j at hjn ⊢
      by_cases hl : Less pq j i = true
      · simp only [if_neg (not_not.mpr hl)]
        exact (ih _ _ _ hjn (by rw [length_Swap]; exact hn)).trans
          (Swap_perm pq _ _ (by omega) (by omega))
      · simp only [if_pos hl]
        exact List.Perm.refl _

/-- Entries at index `n` and above are left alone by `down(h, i, n)`. -/
theorem downLoop_getD_ge (fuel : Nat) : ∀ (pq : priorityQueue) (i n k : Nat), i < n →
    n ≤ pq.length → n ≤ k → (downLoop fuel pq i n).getD k default = pq.getD k default := by
  induction fuel with
  | zero => intro pq i n k _ _ _; rfl
  | succ f ih =>
    intro pq i n k hi hn hk
    rw [downLoop_succ]
    by_cases h1 : 2 * i + 1 ≥ n
    · simp only [h1, if_true]
    · simp only [h1, if_false]
      obtain ⟨_, hjn⟩ := down_child pq i n h1
      generalize (if 2 * i + 1 + 1 < n ∧ Less pq (2 * i + 1 + 1) (2 * i + 1) = true
        then 2 * i + 1 + 1 else 2 * i + 1) = j at hjn ⊢
      by_cases hl : Less pq j i = true
      · simp only [if_neg (not_not.mpr hl)]
        rw [ih _ _ _ _ hjn (by rw [length_Swap]; exact hn) hk,
          getD_Swap pq i j k (by omega) (by omega)]
        have h2 : k ≠ j := by omega
        have h3 : k ≠ i := by omega
        simp only [h2, h3, if_false]
      · simp only [if_pos hl]

/-- Extra iterations of the budget of `down` are never used. -/
theorem downLoop_fuel (fuel : Nat) : ∀ (pq : priorityQueue) (i n : Nat), n ≤ fuel + i →
    downLoop (fuel + 1) pq i n = downLoop fuel pq i n := by
  induction fuel with
  | zero =>
    intro pq i n h
    rw [downLoop_succ]
    have : 2 * i + 1 ≥ n := by omega
    simp only [this, if_true]
    rfl
  | succ f ih =>
    intro pq i n h
    rw [downLoop_succ (f + 1) pq i n, downLoop_succ f pq i n]
    by_cases h1 : 2 * i + 1 ≥ n
    · simp only [h1, if_true]
    · simp only [h1, if_false]
      obtain ⟨hj, hjn⟩ := down_child pq i n h1
      generalize (if 2 * i + 1 + 1 < n ∧ Less pq (2 * i + 1 + 1) (2 * i + 1) = true
        then 2 * i + 1 + 1 else 2 * i + 1) = j at hj hjn ⊢
      by_cases hl : Less pq j i = true
      · simp only [if_neg (not_not.mpr hl)]
        exact ih _ _ _ (by omega)
      · simp only [if_pos hl]

/-- The child chosen by one iteration of `down` has the least priority among the children
of `i` that lie below `n`. -/
theorem down_child_min (pq : priorityQueue) (i n : Nat) (k : Nat) (hk : k < n)
    (hc : k = 2 * i + 1 ∨ k = 2 * i + 2) :
    prio pq (if 2 * i + 1 + 1 < n ∧ Less pq (2 * i + 1 + 1) (2 * i + 1) = true
        then 2 * i + 1 + 1 else 2 * i + 1) ≤ prio pq k := by
  split_ifs with h
  · rcases hc with hc | hc
    · subst hc
      have := h.2
      simp only [Less, decide_eq_true_eq] at this
      exact le_of_lt this
    · subst hc; exact le_refl _
  · rcases hc with hc | hc
    · subst hc; exact le_refl _
    · subst hc
      have hl : ¬ Less pq (2 * i + 1 + 1) (2 * i + 1) = true := fun hl => h ⟨hk, hl⟩
      simp only [Less, decide_eq_true_eq, not_lt] at hl
      exact hl

theorem downLoop_heap (fuel : Nat) : ∀ (pq : priorityQueue) (i n : Nat), i < n →
    n ≤ pq.length → n ≤ fuel + i → HeapDownFrom pq i n →
    IsHeapBelow (downLoop fuel pq i n) n := by
  induction fuel with
  | zero => intro pq i n hi _ hf _; omega
  | succ f ih =>
    intro pq i n hi hn hf ⟨h1, h2⟩
    rw [downLoop_succ]
    by_cases hb : 2 * i + 1 ≥ n
    · simp only [hb, if_true]
      intro k hk
      by_cases hp : (k - 1) / 2 = i
      · have : k = 0 := by omega
        subst this
        exact le_refl _
      · exact h1 k hk hp
    · simp only [hb, if_false]
      obtain ⟨hj, hjn⟩ := down_child pq i n hb
      have hmin := down_child_min pq i n
      generalize (if 2 * i + 1 + 1 < n ∧ Less pq (2 * i + 1 + 1) (2 * i + 1) = true
        then 2 * i + 1 + 1 else 2 * i + 1) = j at hj hjn hmin ⊢
      have hij : i ≠ j := by omega
      have hpj : (j - 1) / 2 = i := by omega
      by_cases hl : Less pq j i = true
      · simp only [if_neg (not_not.mpr hl)]
        have hlt : prio pq j < prio pq i := by simpa [Less, prio] using hl
        apply ih _ _ _ hjn (by rw [length_Swap]; exact hn) (by omega)
        have hil : i < pq.length := by omega
        have hjl : j < pq.length := by omega
        constructor
        · intro k hk hpk
          rw [prio_Swap pq _ _ _ hil hjl, prio_Swap pq _ _ _ hil hjl]
          simp only [hpk, if_false]
          by_cases hkj : k = j
          · subst hkj
            simp only [if_true, hpj]
            exact le_of_lt hlt
          · simp only [hkj, if_false]
            by_cases hki : k = i
            · subst hki
              simp only [if_true]
              by_cases hpi : (k - 1) / 2 = k
              · simp only [hpi, if_true]; exact le_refl _
              · simp only [hpi, if_false]
                exact h2 j hjn hpj (by omega)
            · simp only [hki, if_false]
              by_cases hpi : (k - 1) / 2 = i
              · simp only [hpi, if_true]
                exact hmin k hk (by omega)
              · simp only [hpi, if_false]
                exact h1 k hk hpi
        · intro k hk hpk hj0
          rw [prio_Swap pq _ _ _ hil hjl, prio_Swap pq _ _ _ hil hjl]
          have e1 : (j - 1) / 2 ≠ j := by omega
          have e2 : k ≠ j := by omega
          have e3 : k ≠ i := by omega
          simp only [e1, e2, e3, hpj, hij, if_true, if_false]
          have := h1 k hk (by omega)
          rw [hpk] at this
          exact this
      · simp only [if_pos hl]
        have hle : prio pq i ≤ prio pq j := by simpa [Less, prio] using hl
        intro k hk
        by_cases hp : (k - 1) / 2 = i
        · by_cases hk0 : k = i
          · subst hk0; rw [hp]
          · rw [hp]
            exact le_trans hle (hmin k hk (by omega))
        · exact h1 k hk hp

/-- In a heap the root has the least priority. -/
theorem IsHeap_root_le (pq : priorityQueue) (h : IsHeap pq) :
    ∀ k, k < pq.length → prio pq 0 ≤ prio pq k := by
  intro k
  induction k using Nat.strong_induction_on with
  | _ k ih =>
    intro hk
    by_cases h0 : k = 0
    · subst h0; exact le_refl _
    · exact le_trans (ih ((k - 1) / 2) (by omega) (by omega)) (h k hk)

/-! ## `heap.Pop` -/

theorem Pop_of_length (pq : priorityQueue) (n : Nat) (h : pq.length = n + 1) :
    Pop pq = some (pq.getD n default, pq.take n) ∧ pq = pq.take n ++ [pq.getD n default] := by
  have hn : n < pq.length := by omega
  have hl : pq.getLast? = some (pq.getD n default) := by
    rw [List.getLast?_eq_getElem?, h]
    simp [List.getElem?_eq_getElem hn]
  constructor
  · unfold Pop
    rw [hl, List.dropLast_eq_take, h]
    rfl
  · have h1 : pq.take n = pq.dropLast := by rw [List.dropLast_eq_take, h]; rfl
    rw [h1]
    have h2 := List.dropLast_append_getLast? (pq.getD n default) (by rw [Option.mem_def]; exact hl)
    exact h2.symm

/-- The intermediate queue of `heap.Pop`: after `Swap(0, n)` and `down(0, n)` the old root
sits at index `n` and the first `n` entries are a permutation of the other entries. -/
theorem heapPop_shape (pq : priorityQueue) (hne : pq ≠ []) :
    ∃ pq2 : priorityQueue, heapPop pq = some (pq.getD 0 default, pq2.take (pq.length - 1)) ∧
      pq2 = pq2.take (pq.length - 1) ++ [pq.getD 0 default] ∧ pq2.Perm pq ∧
      (IsHeap pq → IsHeapBelow pq2 (pq.length - 1)) := by
  have hlen : 0 < pq.length := List.length_pos.mpr hne
  obtain ⟨n, hn⟩ : ∃ n, pq.length = n + 1 := ⟨pq.length - 1, by omega⟩
  have hL : Len pq = n + 1 := hn
  have hnz : ¬ Len pq = 0 := by rw [hL]; omega
  simp only [heapPop, hnz, if_false, hL, hn, Nat.add_sub_cancel]
  have hs1 : (Swap pq 0 n).length = n + 1 := by rw [length_Swap]; exact hn
  have hsn : (Swap pq 0 n).getD n default = pq.getD 0 default := by
    rw [getD_Swap pq 0 n n (by omega) (by omega)]; simp
  refine ⟨down (Swap pq 0 n) 0 n, ?_⟩
  have hdl : (down (Swap pq 0 n) 0 n).length = n + 1 := by
    unfold down; rw [downLoop_length]; exact hs1
  have hlast : (down (Swap pq 0 n) 0 n).getD n default = pq.getD 0 default := by
    rcases Nat.eq_zero_or_pos n with h0 | h0
    · subst h0; exact hsn
    · unfold down
      rw [downLoop_getD_ge n _ 0 n n h0 (by omega) (le_refl _)]
      exact hsn
  have hperm : (down (Swap pq 0 n) 0 n).Perm pq := by
    rcases Nat.eq_zero_or_pos n with h0 | h0
    · subst h0; exact Swap_perm pq 0 0 (by omega) (by omega)
    · unfold down
      exact (downLoop_perm n _ 0 n h0 (by omega)).trans (Swap_perm pq 0 n (by omega) (by omega))
  obtain ⟨hp1, hp2⟩ := Pop_of_length _ n hdl
  rw [hlast] at hp1 hp2
  refine ⟨hp1, hp2, hperm, ?_⟩
  intro hheap
  rcases Nat.eq_zero_or_pos n with h0 | h0
  · subst h0
    intro k hk; omega
  · unfold down
    apply downLoop_heap n _ 0 n h0 (by omega) (by omega)
    constructor
    · intro k hk hp
      rw [prio_Swap pq 0 n _ (by omega) (by omega), prio_Swap pq 0 n _ (by omega) (by omega)]
      have e1 : (k - 1) / 2 ≠ n := by omega
      have e2 : k ≠ n := by omega
      have e3 : k ≠ 0 := by omega
      simp only [e1, e2, e3, hp, if_false]
      exact hheap k (by omega)
    · intro k _ _ h00
      exact absurd rfl h00

/-- On a non-empty queue `heap.Pop` succeeds and splits the queue, as a multiset, into the
returned entry and the remaining queue. -/
theorem heapPop_perm (pq : priorityQueue) (hne : pq ≠ []) :
    ∃ it rest, heapPop pq = some (it, rest) ∧ pq.Perm (it :: rest) := by
  obtain ⟨pq2, h1, h2, h3, _⟩ := heapPop_shape pq hne
  refine ⟨_, _, h1, ?_⟩
  have h5 : pq2.Perm (pq.getD 0 default :: pq2.take (pq.length - 1)) := by
    conv_lhs => rw [h2]
    exact List.perm_append_comm
  exact h3.symm.trans h5

theorem heapPop_none (pq : priorityQueue) : heapPop pq = none ↔ pq = [] := by
  constructor
  · intro h
    by_contra hne
    obtain ⟨it, rest, h1, _⟩ := heapPop_perm pq hne
    rw [h1] at h
    exact Option.noConfusion h
  · intro h; subst h; rfl

theorem prio_take (pq : priorityQueue) (n k : Nat) (hk : k < n) :
    prio (pq.take n) k = prio pq k := by
  unfold prio
  simp [List.getElem?_take, hk]

theorem heapPop_heap (pq : priorityQueue) (hne : pq ≠ []) (h : IsHeap pq) :
    ∃ it rest, heapPop pq = some (it, rest) ∧ (∀ x ∈ pq, it.priority ≤ x.priority) ∧
      pq.Perm (it :: rest) ∧ rest.length + 1 = pq.length ∧ IsHeap rest := by
  obtain ⟨pq2, h1, h2, h3, h4⟩ := heapPop_shape pq hne
  obtain ⟨it, rest, e1, e2⟩ := heapPop_perm pq hne
  rw [h1] at e1
  obtain ⟨rfl, rfl⟩ : pq.getD 0 default = it ∧ pq2.take (pq.length - 1) = rest := by
    simpa using e1
  refine ⟨_, _, h1, ?_, e2, ?_, ?_⟩
  · intro x hx
    obtain ⟨k, hk, rfl⟩ := List.getElem_of_mem hx
    have := IsHeap_root_le pq h k hk
    simpa [prio, List.getElem?_eq_getElem hk] using this
  · have := e2.length_eq
    simp only [List.length_cons] at this
    omega
  · intro k hk
    have hk' : k < pq.length - 1 := by
      have := e2.length_eq
      simp only [List.length_cons] at this
      omega
    rw [prio_take _ _ _ hk', prio_take _ _ _ (by omega)]
    exact h4 h k hk'

/-! ## Maps and graphs -/

theorem getDist_mapSet (d : GoMap Int) (k : String) (a : Int) (x : String) :
    getDist (mapSet d k a) x = if x = k then a else getDist d x := by
  unfold getDist mapSet
  split_ifs <;> rfl

theorem adjOf_cons (p : String × Adj) (g : Graph) (u : String) :
    adjOf (p :: g) u = if u = p.1 then p.2 else adjOf g u := by
  obtain ⟨k, a⟩ := p
  unfold adjOf
  by_cases h : u = k
  · subst h; simp [List.lookup]
  · have : (u == k) = false := by simpa using h
    simp [List.lookup, this, h]

/-- A non-empty `graph[u]` is the adjacency map stored under the key `u`. -/
theorem adjOf_mem (g : Graph) (u : String) (e : String × Int) (h : e ∈ adjOf g u) :
    (u, adjOf g u) ∈ g := by
  induction g with
  | nil => simp [adjOf] at h
  | cons p g ih =>
    rw [adjOf_cons] at h ⊢
    by_cases hu : u = p.1
    · simp only [hu, if_true]
      exact List.mem_cons_self _ _
    · simp only [hu, if_false] at h ⊢
      exact List.mem_cons_of_mem _ (ih h)

theorem adjOf_key (g : Graph) (u : String) (e : String × Int) (h : e ∈ adjOf g u) :
    u ∈ keys g := by
  have := adjOf_mem g u e h
  exact List.mem_map.mpr ⟨_, this, rfl⟩

theorem adjOf_not_key (g : Graph) (u : String) (h : u ∉ keys g) : adjOf g u = [] := by
  cases hq : adjOf g u with
  | nil => rfl
  | cons e l =>
    exact absurd (adjOf_key g u e (by rw [hq]; exact List.mem_cons_self _ _)) h

theorem mem_targets (g : Graph) (p : String × Adj) (e : String × Int) (hp : p ∈ g)
    (he : e ∈ p.2) : e.1 ∈ targets g := by
  induction g with
  | nil => cases hp
  | cons q g ih =>
    simp only [targets, List.mem_append]
    rcases List.mem_cons.mp hp with h | h
    · subst h
      exact Or.inl (List.mem_map.mpr ⟨e, he, rfl⟩)
    · exact Or.inr (ih h)

theorem adjOf_target (g : Graph) (u : String) (e : String × Int) (h : e ∈ adjOf g u) :
    e.1 ∈ targets g :=
  mem_targets g _ e (adjOf_mem g u e h) h

theorem NonNeg_adjOf (g : Graph) (h : NonNeg g) (u : String) (e : String × Int)
    (he : e ∈ adjOf g u) : 0 ≤ e.2 :=
  h _ (adjOf_mem g u e he) e he

theorem Bounded_adjOf (g : Graph) (h : Bounded g) (u : String) (e : String × Int)
    (he : e ∈ adjOf g u) : 0 ≤ e.2 ∧ e.2 ≤ MaxInt64 - MaxInt32 :=
  h _ (adjOf_mem g u e he) e he

theorem Bounded_NonNeg (g : Graph) (h : Bounded g) : NonNeg g :=
  fun p hp e he => (h p hp e he).1

/-! ## Machine arithmetic -/

theorem wrapInt_range (x : Int) : InInt64 (wrapInt x) := by
  unfold InInt64 wrapInt MinInt64 MaxInt64
  omega

theorem wrapInt_id (x : Int) (h : InInt64 x) : wrapInt x = x := by
  unfold InInt64 MinInt64 MaxInt64 at h
  unfold wrapInt
  omega

/-! ## The initial state -/

theorem initMaps_fst (vs : List String) (v : String) :
    (initMaps vs).1 v = if v ∈ vs then some MaxInt32 else none := by
  unfold initMaps
  suffices h : ∀ (m : GoMap Int × GoMap String),
      (vs.foldl (fun m v => (mapSet m.1 v MaxInt32, mapSet m.2 v "")) m).1 v =
        if v ∈ vs then some MaxInt32 else m.1 v from h _
  induction vs with
  | nil => intro m; simp
  | cons a l ih =>
    intro m
    simp only [List.foldl_cons, ih, List.mem_cons, mapSet]
    by_cases h1 : v ∈ l
    · simp [h1]
    · by_cases h2 : v = a <;> simp [h1, h2]

theorem initMaps_snd (vs : List String) (v : String) :
    (initMaps vs).2 v = if v ∈ vs then some "" else none := by
  unfold initMaps
  suffices h : ∀ (m : GoMap Int × GoMap String),
      (vs.foldl (fun m v => (mapSet m.1 v MaxInt32, mapSet m.2 v "")) m).2 v =
        if v ∈ vs then some "" else m.2 v from h _
  induction vs with
  | nil => intro m; simp
  | cons a l ih =>
    intro m
    simp only [List.foldl_cons, ih, List.mem_cons, mapSet]
    by_cases h1 : v ∈ l
    · simp [h1]
    · by_cases h2 : v = a <;> simp [h1, h2]

theorem initState_dist (g : Graph) (s : String) (ord : IterOrder) (hv : ord.Valid) (v : String) :
    (initState g s ord).dist v =
      if v = s then some 0 else if v ∈ keys g then some MaxInt32 else none := by
  simp only [initState, mapSet, initMaps_fst, (hv.1 (keys g)).mem_iff]

theorem initState_prev (g : Graph) (s : String) (ord : IterOrder) (hv : ord.Valid) (v : String) :
    (initState g s ord).prev v = if v ∈ keys g then some "" else none := by
  simp only [initState, initMaps_snd, (hv.1 (keys g)).mem_iff]

theorem initState_queue (g : Graph) (s : String) (ord : IterOrder) :
    (initState g s ord).queue = [⟨s, 0⟩] := by
  simp [initState, heapPush, Push, up, upLoop, Len]

/-! ## The loops of `Dijkstra` -/

theorem relax_eq (u : String) (st : State) (e : String × Int) :
    relax u st e =
      if wrapInt (getDist st.dist u + e.2) < getDist st.dist e.1 then
        { dist := mapSet st.dist e.1 (wrapInt (getDist st.dist u + e.2))
          prev := mapSet st.prev e.1 u
          queue := heapPush st.queue ⟨e.1, wrapInt (getDist st.dist u + e.2)⟩ }
      else st := rfl

/-- Induction principle for the inner loop: a property of the state and of the list of
entries visited so far that holds on entry and is preserved by the loop body holds on exit
for the whole list. -/
theorem foldl_relax_induct (u : String) (Q : State → List (String × Int) → Prop)
    (l : List (String × Int)) (st0 : State) (h0 : Q st0 [])
    (hs : ∀ st seen e, Q st seen → e ∈ l → Q (relax u st e) (seen ++ [e])) :
    Q (l.foldl (relax u) st0) l := by
  suffices h : ∀ (rest seen : List (String × Int)) (st : State), seen ++ rest = l →
      Q st seen → Q (rest.foldl (relax u) st) l from h l [] st0 rfl h0
  intro rest
  induction rest with
  | nil =>
    intro seen st he hq
    rw [List.append_nil] at he
    subst he
    exact hq
  | cons e rest ih =>
    intro seen st he hq
    rw [List.foldl_cons]
    apply ih (seen ++ [e]) (relax u st e)
    · rw [List.append_assoc]; exact he
    · apply hs st seen e hq
      rw [← he]
      exact List.mem_append_right _ (List.mem_cons_self _ _)

/-- One iteration of the main loop on a non-empty queue pops an entry and relaxes a
permutation of the adjacency map of its vertex. -/
theorem step_shape (g : Graph) (ord : IterOrder) (k : Nat) (st : State) (hne : st.queue ≠ []) :
    ∃ it q, st.queue.Perm (it :: q) ∧ heapPop st.queue = some (it, q) ∧
      step g ord k st =
        some ((ord.adj k (adjOf g it.value)).foldl (relax it.value) { st with queue := q }) := by
  obtain ⟨it, q, h1, h2⟩ := heapPop_perm st.queue hne
  refine ⟨it, q, h2, h1, ?_⟩
  unfold step
  rw [h1]

theorem mainLoop_zero (g : Graph) (ord : IterOrder) (k : Nat) (st : State) :
    mainLoop g ord 0 k st = if Len st.queue > 0 then none else some st := rfl

theorem mainLoop_succ (g : Graph) (ord : IterOrder) (fuel k : Nat) (st : State) :
    mainLoop g ord (fuel + 1) k st =
      if Len st.queue > 0 then
        match step g ord k st with
        | none => none
        | some st1 => mainLoop g ord fuel (k + 1) st1
      else some st := rfl

/-- Induction principle for the main loop: a property that holds on entry and is preserved by
every iteration holds of the state on exit, where moreover the queue is empty. -/
theorem mainLoop_induct (g : Graph) (ord : IterOrder) (P : State → Prop)
    (hs : ∀ k st st1, P st → st.queue ≠ [] → step g ord k st = some st1 → P st1) :
    ∀ (fuel k : Nat) (st r : State), P st → mainLoop g ord fuel k st = some r →
      P r ∧ r.queue = [] := by
  intro fuel
  induction fuel with
  | zero =>
    intro k st r hp h
    rw [mainLoop_zero] at h
    by_cases hq : Len st.queue > 0
    · simp [hq] at h
    · simp only [hq, if_false, Option.some.injEq] at h
      subst h
      exact ⟨hp, List.length_eq_zero.mp (by unfold Len at hq; omega)⟩
  | succ f ih =>
    intro k st r hp h
    rw [mainLoop_succ] at h
    by_cases hq : Len st.queue > 0
    · simp only [hq, if_true] at h
      have hne : st.queue ≠ [] := List.length_pos.mp hq
      cases hst : step g ord k st with
      | none => rw [hst] at h; exact Option.noConfusion h
      | some st1 =>
        rw [hst] at h
        exact ih _ _ _ (hs k st st1 hp hne hst) h
    · simp only [hq, if_false, Option.some.injEq] at h
      subst h
      exact ⟨hp, List.length_eq_zero.mp (by unfold Len at hq; omega)⟩

/-- A larger iteration budget does not change the result of the main loop. -/
theorem mainLoop_mono (g : Graph) (ord : IterOrder) :
    ∀ (fuel k : Nat) (st r : State), mainLoop g ord fuel k st = some r →
      mainLoop g ord (fuel + 1) k st = some r := by
  intro fuel
  induction fuel with
  | zero =>
    intro k st r h
    rw [mainLoop_zero] at h
    rw [mainLoop_succ]
    by_cases hq : Len st.queue > 0
    · simp [hq] at h
    · simpa [hq] using h
  | succ f ih =>
    intro k st r h
    rw [mainLoop_succ] at h
    rw [mainLoop_succ]
    by_cases hq : Len st.queue > 0
    · simp only [hq, if_true] at h ⊢
      cases hst : step g ord k st with
      | none => rw [hst] at h; exact Option.noConfusion h
      | some st1 =>
        rw [hst] at h
        exact ih _ _ _ h
    · simpa [hq] using h

theorem mainLoop_mono_le (g : Graph) (ord : IterOrder) (k : Nat) (st r : State) :
    ∀ (m n : Nat), m ≤ n → mainLoop g ord m k st = some r → mainLoop g ord n k st = some r := by
  intro m n hmn h
  induction n with
  | zero =>
    have : m = 0 := by omega
    subst this; exact h
  | succ n ih =>
    by_cases he : m = n + 1
    · subst he; exact h
    · exact mainLoop_mono g ord n k st r (ih (by omega))

/-- The result of `Dijkstra` does not depend on the iteration budget. -/
theorem Dijkstra_fuel_unique (g : Graph) (s : String) (ord : IterOrder) (m n : Nat)
    (r1 r2 : GoMap Int × GoMap String) (h1 : Dijkstra g s ord m = some r1)
    (h2 : Dijkstra g s ord n = some r2) : r1 = r2 := by
  unfold Dijkstra at h1 h2
  cases e1 : mainLoop g ord m 0 (initState g s ord) with
  | none => rw [e1] at h1; exact Option.noConfusion h1
  | some st1 =>
    cases e2 : mainLoop g ord n 0 (initState g s ord) with
    | none => rw [e2] at h2; exact Option.noConfusion h2
    | some st2 =>
      rw [e1] at h1
      rw [e2] at h2
      have e1' := mainLoop_mono_le g ord 0 _ st1 m (max m n) (le_max_left _ _) e1
      have e2' := mainLoop_mono_le g ord 0 _ st2 n (max m n) (le_max_right _ _) e2
      rw [e1'] at e2'
      have : st1 = st2 := Option.some.inj e2'
      subst this
      simp only [Option.map_some', Option.some.injEq] at h1 h2
      rw [← h1, ← h2]

/-! ## Termination -/

theorem potential_cons (x : String) (vs : List String) (d : GoMap Int) :
    potential (x :: vs) d = (getDist d x - MinInt64).toNat + potential vs d := by
  simp [potential]

theorem potential_mapSet_le (vs : List String) (d : GoMap Int) (v : String) (a : Int)
    (h : a ≤ getDist d v) : potential vs (mapSet d v a) ≤ potential vs d := by
  induction vs with
  | nil => simp [potential]
  | cons x vs ih =>
    rw [potential_cons, potential_cons, getDist_mapSet]
    by_cases hx : x = v
    · subst hx
      simp only [if_true]
      have : (a - MinInt64).toNat ≤ (getDist d x - MinInt64).toNat := by omega
      omega
    · simp only [hx, if_false]
      omega

theorem potential_mapSet_lt (vs : List String) (d : GoMap Int) (v : String) (a : Int)
    (hv : v ∈ vs) (ha : MinInt64 ≤ a) (h : a < getDist d v) :
    potential vs (mapSet d v a) + 1 ≤ potential vs d := by
  induction vs with
  | nil => cases hv
  | cons x vs ih =>
    rw [potential_cons, potential_cons, getDist_mapSet]
    by_cases hx : x = v
    · subst hx
      simp only [if_true]
      have h1 : (a - MinInt64).toNat + 1 ≤ (getDist d x - MinInt64).toNat := by omega
      have h2 := potential_mapSet_le vs d x a (le_of_lt h)
      omega
    · simp only [hx, if_false]
      have hv' : v ∈ vs := by
        rcases List.mem_cons.mp hv with h' | h'
        · exact absurd h'.symm hx
        · exact h'
      have := ih hv'
      omega

theorem relax_measure (g : Graph) (u : String) (st : State) (e : String × Int)
    (hr : InRange st.dist) (he : e.1 ∈ targets g) :
    InRange (relax u st e).dist ∧ loopMeasure g (relax u st e) ≤ loopMeasure g st := by
  rw [relax_eq]
  by_cases hc : wrapInt (getDist st.dist u + e.2) < getDist st.dist e.1
  · simp only [hc, if_true]
    have hw := wrapInt_range (getDist st.dist u + e.2)
    constructor
    · intro v
      show InInt64 (getDist (mapSet st.dist e.1 _) v)
      rw [getDist_mapSet]
      split_ifs
      · exact hw
      · exact hr v
    · have := potential_mapSet_lt (targets g) st.dist e.1 _ he hw.1 hc
      unfold loopMeasure
      simp only [heapPush_length]
      omega
  · simp only [hc, if_false]
    exact ⟨hr, le_refl _⟩

theorem step_measure (g : Graph) (ord : IterOrder) (hv : ord.Valid) (k : Nat) (st st1 : State)
    (hr : InRange st.dist) (hne : st.queue ≠ []) (h : step g ord k st = some st1) :
    InRange st1.dist ∧ loopMeasure g st1 + 1 ≤ loopMeasure g st := by
  obtain ⟨it, q, hp, _, hs⟩ := step_shape g ord k st hne
  rw [hs] at h
  have h := Option.some.inj h
  subst h
  have hlen : st.queue.length = q.length + 1 := by
    have := hp.length_eq
    simpa using this
  have hm : loopMeasure g { st with queue := q } + 1 = loopMeasure g st := by
    unfold loopMeasure
    simp only [hlen]
    omega
  have := foldl_relax_induct it.value
    (fun s _ => InRange s.dist ∧ loopMeasure g s ≤ loopMeasure g { st with queue := q })
    (ord.adj k (adjOf g it.value)) { st with queue := q } ⟨hr, le_refl _⟩
    (by
      intro s seen e ⟨h1, h2⟩ he
      have he' : e ∈ adjOf g it.value := (hv.2 k _).mem_iff.mp he
      have := relax_measure g it.value s e h1 (adjOf_target g _ e he')
      exact ⟨this.1, le_trans this.2 h2⟩)
  exact ⟨this.1, by omega⟩

theorem mainLoop_terminates (g : Graph) (ord : IterOrder) (hv : ord.Valid) :
    ∀ (fuel k : Nat) (st : State), InRange st.dist → loopMeasure g st ≤ fuel →
      ∃ r, mainLoop g ord fuel k st = some r := by
  intro fuel
  induction fuel with
  | zero =>
    intro k st _ hm
    rw [mainLoop_zero]
    have : ¬ Len st.queue > 0 := by
      unfold loopMeasure at hm
      unfold Len
      omega
    exact ⟨st, by simp only [this, if_false]⟩
  | succ f ih =>
    intro k st hr hm
    rw [mainLoop_succ]
    by_cases hq : Len st.queue > 0
    · simp only [hq, if_true]
      have hne : st.queue ≠ [] := List.length_pos.mp hq
      obtain ⟨it, q, _, _, hs⟩ := step_shape g ord k st hne
      have := step_measure g ord hv k st _ hr hne hs
      rw [hs]
      exact ih _ _ this.1 (by omega)
    · exact ⟨st, by simp only [hq, if_false]⟩

theorem initState_range (g : Graph) (s : String) (ord : IterOrder) (hv : ord.Valid) :
    InRange (initState g s ord).dist := by
  intro v
  unfold getDist
  rw [initState_dist g s ord hv]
  unfold InInt64 MinInt64 MaxInt64
  split_ifs <;> simp [MaxInt32]

/-- For every graph, whatever its weights, `Dijkstra` returns: every push follows a strict
decrease of a 64-bit distance. -/
theorem Dijkstra_terminates (g : Graph) (s : String) (ord : IterOrder) (hv : ord.Valid) :
    ∃ n r, Dijkstra g s ord n = some r := by
  obtain ⟨r, hr⟩ := mainLoop_terminates g ord hv (loopMeasure g (initState g s ord)) 0
    (initState g s ord) (initState_range g s ord hv) (le_refl _)
  exact ⟨_, (r.dist, r.prev), by unfold Dijkstra; rw [hr]; rfl⟩

/-- Whatever holds on entry to the main loop and is preserved by every iteration holds of the
maps that `Dijkstra` returns. -/
theorem Dijkstra_induct (g : Graph) (s : String) (ord : IterOrder) (P : State → Prop)
    (h0 : P (initState g s ord))
    (hs : ∀ k st st1, P st → st.queue ≠ [] → step g ord k st = some st1 → P st1)
    (n : Nat) (r : GoMap Int × GoMap String) (h : Dijkstra g s ord n = some r) :
    ∃ st, P st ∧ st.queue = [] ∧ r = (st.dist, st.prev) := by
  unfold Dijkstra at h
  cases e : mainLoop g ord n 0 (initState g s ord) with
  | none => rw [e] at h; exact Option.noConfusion h
  | some st =>
    rw [e] at h
    have := mainLoop_induct g ord P hs n 0 _ st h0 e
    exact ⟨st, this.1, this.2, (Option.some.inj h).symm⟩

/-! ## Unreachable vertices are never touched -/

theorem mem_heapPush (pq : priorityQueue) (x y : item) :
    y ∈ heapPush pq x ↔ y = x ∨ y ∈ pq := by
  rw [(heapPush_perm pq x).mem_iff, List.mem_cons]

theorem relax_reachInv (g : Graph) (s : String) (ord : IterOrder) (u : String) (st : State)
    (e : String × Int) (hu : Reachable g s u) (he : e ∈ adjOf g u)
    (hi : ReachInv g s ord st) : ReachInv g s ord (relax u st e) := by
  rw [relax_eq]
  split_ifs with hc
  · have hr : Reachable g s e.1 := by
      obtain ⟨c, hw⟩ := hu
      exact ⟨_, Walk.snoc e hw he⟩
    refine ⟨?_, ?_, ?_⟩
    · intro it hit
      rcases (mem_heapPush _ _ _).mp hit with h | h
      · subst h; exact hr
      · exact hi.queued it h
    · intro v hv
      have : v ≠ e.1 := fun h => hv (h ▸ hr)
      simp only [mapSet, this, if_false]
      exact hi.dist v hv
    · intro v hv
      have : v ≠ e.1 := fun h => hv (h ▸ hr)
      simp only [mapSet, this, if_false]
      exact hi.prev v hv
  · exact hi

theorem step_reachInv (g : Graph) (s : String) (ord : IterOrder) (hv : ord.Valid) (k : Nat)
    (st st1 : State) (hi : ReachInv g s ord st) (hne : st.queue ≠ [])
    (h : step g ord k st = some st1) : ReachInv g s ord st1 := by
  obtain ⟨it, q, hp, _, hs⟩ := step_shape g ord k st hne
  rw [hs] at h
  have h := Option.some.inj h
  subst h
  have hu : Reachable g s it.value := hi.queued it (hp.mem_iff.mpr (List.mem_cons_self _ _))
  apply foldl_relax_induct it.value (fun s' _ => ReachInv g s ord s')
  · exact ⟨fun x hx => hi.queued x (hp.mem_iff.mpr (List.mem_cons_of_mem _ hx)), hi.dist, hi.prev⟩
  · intro s' _ e hs' he
    exact relax_reachInv g s ord it.value s' e hu ((hv.2 k _).mem_iff.mp he) hs'

theorem initState_reachInv (g : Graph) (s : String) (ord : IterOrder) :
    ReachInv g s ord (initState g s ord) := by
  refine ⟨?_, fun _ _ => rfl, fun _ _ => rfl⟩
  intro it hit
  rw [initState_queue] at hit
  rw [List.mem_singleton.mp hit]
  exact ⟨0, Walk.nil⟩

/-! ## The invariant on bounded weights -/

theorem Queued_heapPush (pq : priorityQueue) (x : item) (v : String) :
    Queued (heapPush pq x) v ↔ x.value = v ∨ Queued pq v := by
  unfold Queued
  constructor
  · rintro ⟨it, hit, hv⟩
    rcases (mem_heapPush _ _ _).mp hit with h | h
    · subst h; exact Or.inl hv
    · exact Or.inr ⟨it, h, hv⟩
  · rintro (h | ⟨it, hit, hv⟩)
    · exact ⟨x, (mem_heapPush _ _ _).mpr (Or.inl rfl), h⟩
    · exact ⟨it, (mem_heapPush _ _ _).mpr (Or.inr hit), hv⟩

/-- Under the invariant no sum `dist[u] + w` overflows. -/
theorem Inv.alt_eq {g : Graph} {s : String} {pend : String → String × Int → Prop} {st : State}
    (hi : Inv g s pend st) (hb : Bounded g) (u : String) (e : String × Int)
    (he : e ∈ adjOf g u) :
    wrapInt (getDist st.dist u + e.2) = getDist st.dist u + e.2 := by
  apply wrapInt_id
  have h1 := hi.range u
  have h2 := Bounded_adjOf g hb u e he
  unfold InInt64 MinInt64
  unfold MaxInt32 at h1
  unfold MaxInt64 MaxInt32 at h2
  unfold MaxInt64
  omega

/-- A vertex whose recorded distance is positive is a key of the graph other than the
source. -/
theorem Inv.pos_key {g : Graph} {s : String} {pend : String → String × Int → Prop} {st : State}
    (hi : Inv g s pend st) (v : String) (h : 0 < getDist st.dist v) : v ∈ keys g ∧ v ≠ s := by
  have hs : v ≠ s := by
    intro hvs
    subst hvs
    have := hi.src
    unfold getDist at h
    rw [this] at h
    simp at h
  refine ⟨?_, hs⟩
  by_contra hk
  have := (hi.nonkey v hk hs).1
  unfold getDist at h
  rw [this] at h
  simp at h

/-- The body of the inner loop preserves the invariant and discharges the visited edge,
provided the weight is non-negative and the sum `dist[u] + w` does not overflow. -/
theorem relax_inv_gen (g : Graph) (s u : String) (seen : List (String × Int)) (st : State)
    (e : String × Int) (hw : 0 ≤ e.2)
    (halt : wrapInt (getDist st.dist u + e.2) = getDist st.dist u + e.2)
    (he : e ∈ adjOf g u) (hi : Inv g s (fun x e1 => x = u ∧ e1 ∉ seen) st) :
    Inv g s (fun x e1 => x = u ∧ e1 ∉ seen ++ [e]) (relax u st e) := by
  have hru := hi.range u
  rw [relax_eq, halt]
  by_cases hc : getDist st.dist u + e.2 < getDist st.dist e.1
  · simp only [hc, if_true]
    have hrv := hi.range e.1
    obtain ⟨hvk, hvs⟩ := hi.pos_key e.1 (by omega)
    have hvu : e.1 ≠ u := by
      intro h
      rw [h] at hc
      omega
    have huk : u ∈ keys g := adjOf_key g u e he
    have hwu : Walk g s u (getDist st.dist u) := hi.walk u huk (by omega)
    have hgd : ∀ x, getDist (mapSet st.dist e.1 (getDist st.dist u + e.2)) x =
        if x = e.1 then getDist st.dist u + e.2 else getDist st.dist x :=
      fun x => getDist_mapSet _ _ _ x
    have hle : ∀ x, getDist (mapSet st.dist e.1 (getDist st.dist u + e.2)) x ≤
        getDist st.dist x := by
      intro x
      rw [hgd]
      split_ifs with hx
      · subst hx; omega
      · exact le_refl _
    refine ⟨?_, ?_, ?_, ?_, ?_, ?_, ?_, ?_⟩
    · intro v
      show 0 ≤ getDist (mapSet st.dist e.1 _) v ∧ getDist (mapSet st.dist e.1 _) v ≤ MaxInt32
      rw [hgd]
      split_ifs
      · constructor <;> omega
      · exact hi.range v
    · show mapSet st.dist e.1 _ s = some 0
      have hsv : s ≠ e.1 := fun h => hvs h.symm
      simp only [mapSet, hsv, if_false]
      exact hi.src
    · intro v hk hs
      have hne : v ≠ e.1 := fun h => hk (h ▸ hvk)
      show mapSet st.dist e.1 _ v = none ∧ mapSet st.prev e.1 _ v = none
      simp only [mapSet, hne, if_false]
      exact hi.nonkey v hk hs
    · intro v hk
      show mapSet st.dist e.1 _ v = some (getDist (mapSet st.dist e.1 _) v)
      rw [hgd]
      by_cases hv : v = e.1
      · simp only [mapSet, hv, if_true]
      · simp only [mapSet, hv, if_false]
        exact hi.key v hk
    · intro v hk hlt
      change getDist (mapSet st.dist e.1 _) v < MaxInt32 at hlt
      show Walk g s v (getDist (mapSet st.dist e.1 _) v)
      rw [hgd] at hlt ⊢
      by_cases hv : v = e.1
      · simp only [hv, if_true]
        exact Walk.snoc e hwu he
      · simp only [hv, if_false] at hlt ⊢
        exact hi.walk v hk hlt
    · intro v hk hor
      change v = s ∨ getDist (mapSet st.dist e.1 _) v = MaxInt32 at hor
      show mapSet st.prev e.1 u v = some ""
      rw [hgd] at hor
      have hv : v ≠ e.1 := by
        intro h
        rcases hor with h1 | h1
        · exact hvs (h ▸ h1)
        · simp only [h, if_true] at h1
          omega
      simp only [hv, if_false] at hor
      simp only [mapSet, hv, if_false]
      exact hi.prevNone v hk hor
    · intro hs
      show mapSet st.prev e.1 u s = none
      have hsv : s ≠ e.1 := fun h => hvs h.symm
      simp only [mapSet, hsv, if_false]
      exact hi.prevSrc hs
    · intro x
      show Queued (heapPush st.queue _) x ∨ _
      by_cases hx : x = e.1
      · left
        exact (Queued_heapPush _ _ _).mpr (Or.inl hx.symm)
      · rcases hi.edges x with hq | hall
        · left
          exact (Queued_heapPush _ _ _).mpr (Or.inr hq)
        · right
          intro e1 he1
          show _ ∨ getDist (mapSet st.dist e.1 _) e1.1 ≤
            getDist (mapSet st.dist e.1 _) x + e1.2
          have hxx : getDist (mapSet st.dist e.1 (getDist st.dist u + e.2)) x =
              getDist st.dist x := by rw [hgd]; simp only [hx, if_false]
          rw [hxx]
          rcases hall e1 he1 with ⟨hxu, hns⟩ | hold
          · by_cases hee : e1 = e
            · right
              subst hee
              subst hxu
              rw [hgd]
              simp only [if_true]
              exact le_refl _
            · left
              refine ⟨hxu, ?_⟩
              simp only [List.mem_append, List.mem_singleton, not_or]
              exact ⟨hns, hee⟩
          · right
            exact le_trans (hle e1.1) hold
  · simp only [hc, if_false]
    refine ⟨hi.range, hi.src, hi.nonkey, hi.key, hi.walk, hi.prevNone, hi.prevSrc, ?_⟩
    intro x
    rcases hi.edges x with hq | hall
    · exact Or.inl hq
    · right
      intro e1 he1
      rcases hall e1 he1 with ⟨hxu, hns⟩ | hold
      · by_cases hee : e1 = e
        · right
          subst hee
          subst hxu
          omega
        · left
          refine ⟨hxu, ?_⟩
          simp only [List.mem_append, List.mem_singleton, not_or]
          exact ⟨hns, hee⟩
      · exact Or.inr hold

/-- The body of the inner loop preserves the invariant on bounded weights. -/
theorem relax_inv (g : Graph) (s u : String) (seen : List (String × Int)) (st : State)
    (e : String × Int) (hb : Bounded g) (he : e ∈ adjOf g u)
    (hi : Inv g s (fun x e1 => x = u ∧ e1 ∉ seen) st) :
    Inv g s (fun x e1 => x = u ∧ e1 ∉ seen ++ [e]) (relax u st e) :=
  relax_inv_gen g s u seen st e (Bounded_adjOf g hb u e he).1 (hi.alt_eq hb u e he) he hi

/-- Popping an entry keeps the invariant, with every edge of the popped vertex pending. -/
theorem Inv.pop {g : Graph} {s : String} {st : State} (hi : Inv g s (fun _ _ => False) st)
    (it : item) (q : priorityQueue) (hp : st.queue.Perm (it :: q)) :
    Inv g s (fun x e1 => x = it.value ∧ e1 ∉ ([] : List (String × Int)))
      { st with queue := q } := by
  refine ⟨hi.range, hi.src, hi.nonkey, hi.key, hi.walk, hi.prevNone, hi.prevSrc, ?_⟩
  intro x
  by_cases hx : x = it.value
  · right
    intro e1 _
    exact Or.inl ⟨hx, List.not_mem_nil _⟩
  · rcases hi.edges x with ⟨it1, hit1, hval⟩ | hall
    · left
      refine ⟨it1, ?_, hval⟩
      rcases List.mem_cons.mp (hp.mem_iff.mp hit1) with h1 | h1
      · exact absurd (h1 ▸ hval).symm hx
      · exact h1
    · right
      intro e1 he1
      rcases hall e1 he1 with hf | hle
      · exact absurd hf id
      · exact Or.inr hle

/-- One iteration of the main loop preserves the invariant. -/
theorem step_inv (g : Graph) (s : String) (ord : IterOrder) (hv : ord.Valid) (hb : Bounded g)
    (k : Nat) (st st1 : State) (hi : Inv g s (fun _ _ => False) st) (hne : st.queue ≠ [])
    (h : step g ord k st = some st1) : Inv g s (fun _ _ => False) st1 := by
  obtain ⟨it, q, hp, _, hs⟩ := step_shape g ord k st hne
  rw [hs] at h
  have h := Option.some.inj h
  subst h
  have hfold := foldl_relax_induct it.value
    (fun s' seen => Inv g s (fun x e1 => x = it.value ∧ e1 ∉ seen) s')
    (ord.adj k (adjOf g it.value)) { st with queue := q } (hi.pop it q hp)
    (by
      intro s' seen e hs' he
      exact relax_inv g s it.value seen s' e hb ((hv.2 k _).mem_iff.mp he) hs')
  refine ⟨hfold.range, hfold.src, hfold.nonkey, hfold.key, hfold.walk, hfold.prevNone,
    hfold.prevSrc, ?_⟩
  intro x
  rcases hfold.edges x with hq | hall
  · exact Or.inl hq
  · right
    intro e1 he1
    rcases hall e1 he1 with ⟨hxu, hns⟩ | hle
    · exact absurd ((hv.2 k _).mem_iff.mpr (hxu ▸ he1)) hns
    · exact Or.inr hle

theorem initState_inv_gen (g : Graph) (s : String) (ord : IterOrder) (hv : ord.Valid)
    (hn : NonNeg g) : Inv g s (fun _ _ => False) (initState g s ord) := by
  have hd := initState_dist g s ord hv
  have hp := initState_prev g s ord hv
  have hgd : ∀ v, getDist (initState g s ord).dist v =
      if v = s then 0 else if v ∈ keys g then MaxInt32 else 0 := by
    intro v
    unfold getDist
    rw [hd]
    split_ifs <;> rfl
  refine ⟨?_, ?_, ?_, ?_, ?_, ?_, ?_, ?_⟩
  · intro v
    rw [hgd]
    split_ifs <;> simp [MaxInt32]
  · rw [hd]; simp
  · intro v hk hs
    rw [hd, hp]
    simp [hk, hs]
  · intro v hk
    rw [hgd, hd]
    split_ifs <;> rfl
  · intro v hk hlt
    rw [hgd] at hlt ⊢
    by_cases hs : v = s
    · subst hs
      simp only [if_true]
      exact Walk.nil
    · simp only [hs, hk, if_true, if_false, lt_irrefl] at hlt
  · intro v hk _
    rw [hp]
    simp [hk]
  · intro hs
    rw [hp]
    simp [hs]
  · intro x
    by_cases hx : x = s
    · left
      rw [initState_queue]
      exact ⟨⟨s, 0⟩, List.mem_singleton.mpr rfl, hx.symm⟩
    · right
      intro e he
      right
      rw [hgd, hgd x]
      have hk : x ∈ keys g := adjOf_key g x e he
      simp only [hx, hk, if_true, if_false]
      have hr : (if e.1 = s then (0 : Int) else if e.1 ∈ keys g then MaxInt32 else 0) ≤
          MaxInt32 := by
        split_ifs <;> simp [MaxInt32]
      have := NonNeg_adjOf g hn x e he
      omega

theorem initState_inv (g : Graph) (s : String) (ord : IterOrder) (hv : ord.Valid)
    (hb : Bounded g) : Inv g s (fun _ _ => False) (initState g s ord) :=
  initState_inv_gen g s ord hv (Bounded_NonNeg g hb)

/-! ## Consequences of the invariant at the end of the run -/

theorem Walk.nonneg {g : Graph} {s v : String} {c : Int} (hn : NonNeg g) (h : Walk g s v c) :
    0 ≤ c := by
  induction h with
  | nil => exact le_refl _
  | snoc e _ he ih =>
    have := NonNeg_adjOf g hn _ e he
    omega

/-- When the queue is empty every recorded distance is a lower bound of every path weight. -/
theorem Inv.lower {g : Graph} {s : String} {st : State} (hi : Inv g s (fun _ _ => False) st)
    (hq : st.queue = []) {v : String} {c : Int} (h : Walk g s v c) : getDist st.dist v ≤ c := by
  induction h with
  | nil =>
    unfold getDist
    rw [hi.src]
    exact le_refl _
  | snoc e _ he ih =>
    rcases hi.edges _ with ⟨it, hit, _⟩ | hall
    · rw [hq] at hit
      cases hit
    · rcases hall e he with hf | hle
      · exact absurd hf id
      · omega

/-- The state in which `Dijkstra` leaves the main loop satisfies the invariant and has an
empty queue. -/
theorem Dijkstra_final (g : Graph) (s : String) (ord : IterOrder) (hv : ord.Valid)
    (hb : Bounded g) (n : Nat) (r : GoMap Int × GoMap String)
    (h : Dijkstra g s ord n = some r) :
    ∃ st, Inv g s (fun _ _ => False) st ∧ st.queue = [] ∧ r = (st.dist, st.prev) :=
  Dijkstra_induct g s ord _ (initState_inv g s ord hv hb)
    (fun k st st1 hi hne hs => step_inv g s ord hv hb k st st1 hi hne hs) n r h

/-- On bounded weights the distance returned for a key, or for the source, is the least path
weight capped at `math.MaxInt32`. -/
theorem Dijkstra_dist (g : Graph) (s : String) (ord : IterOrder) (hv : ord.Valid)
    (hb : Bounded g) (n : Nat) (r : GoMap Int × GoMap String)
    (h : Dijkstra g s ord n = some r) (v : String) (d : Int) (hk : v ∈ keys g ∨ v = s)
    (hd : IsMinDist g s v d) : r.1 v = some (min d MaxInt32) := by
  obtain ⟨st, hi, hq, rfl⟩ := Dijkstra_final g s ord hv hb n r h
  show st.dist v = some (min d MaxInt32)
  have hlow := hi.lower hq hd.1
  by_cases hs : v = s
  · subst hs
    rw [hi.src]
    have h0 : d ≤ 0 := hd.2 0 Walk.nil
    have h1 : 0 ≤ d := Walk.nonneg (Bounded_NonNeg g hb) hd.1
    have : d = 0 := by omega
    subst this
    simp [MaxInt32]
  · have hk' : v ∈ keys g := hk.resolve_right hs
    rw [hi.key v hk']
    congr 1
    have hr := hi.range v
    by_cases hlt : getDist st.dist v < MaxInt32
    · have := hd.2 _ (hi.walk v hk' hlt)
      rw [min_def]
      split_ifs <;> omega
    · rw [min_def]
      split_ifs <;> omega

/-- On bounded weights a vertex that is neither a key nor the source never receives an entry. -/
theorem Dijkstra_nonkey (g : Graph) (s : String) (ord : IterOrder) (hv : ord.Valid)
    (hb : Bounded g) (n : Nat) (r : GoMap Int × GoMap String)
    (h : Dijkstra g s ord n = some r) (v : String) (hk : v ∉ keys g) (hs : v ≠ s) :
    r.1 v = none ∧ r.2 v = none := by
  obtain ⟨st, hi, _, rfl⟩ := Dijkstra_final g s ord hv hb n r h
  exact hi.nonkey v hk hs

/-- On bounded weights the distance map is a function of the graph and the source alone. -/
theorem Dijkstra_dist_unique (g : Graph) (s : String) (o1 o2 : IterOrder) (h1 : o1.Valid)
    (h2 : o2.Valid) (hb : Bounded g) (n1 n2 : Nat) (r1 r2 : GoMap Int × GoMap String)
    (e1 : Dijkstra g s o1 n1 = some r1) (e2 : Dijkstra g s o2 n2 = some r2) : r1.1 = r2.1 := by
  obtain ⟨st1, i1, q1, rfl⟩ := Dijkstra_final g s o1 h1 hb n1 r1 e1
  obtain ⟨st2, i2, q2, rfl⟩ := Dijkstra_final g s o2 h2 hb n2 r2 e2
  funext v
  show st1.dist v = st2.dist v
  by_cases hs : v = s
  · subst hs
    rw [i1.src, i2.src]
  · by_cases hk : v ∈ keys g
    · rw [i1.key v hk, i2.key v hk]
      congr 1
      have r1 := i1.range v
      have r2 := i2.range v
      by_cases l1 : getDist st1.dist v < MaxInt32
      · have a := i2.lower q2 (i1.walk v hk l1)
        have b := i1.lower q1 (i2.walk v hk (by omega))
        omega
      · by_cases l2 : getDist st2.dist v < MaxInt32
        · have b := i1.lower q1 (i2.walk v hk l2)
          omega
        · omega
    · rw [(i1.nonkey v hk hs).1, (i2.nonkey v hk hs).1]

theorem idOrder_valid : idOrder.Valid :=
  ⟨fun _ => List.Perm.refl _, fun _ _ => List.Perm.refl _⟩

theorem revOrder_valid : revOrder.Valid :=
  ⟨fun l => List.reverse_perm l, fun _ a => List.reverse_perm a⟩

/-! ## The graph of `main` -/

theorem perm_pair {α : Type} {a b : α} {l : List α} (h : l.Perm [a, b]) :
    l = [a, b] ∨ l = [b, a] := by
  have hl := h.length_eq
  match l, hl with
  | [x, y], _ =>
    have hx : x ∈ [a, b] := h.mem_iff.mp (List.mem_cons_self _ _)
    have hy : y ∈ [a, b] := h.mem_iff.mp (List.mem_cons_of_mem _ (List.mem_cons_self _ _))
    have ha : a ∈ [x, y] := h.mem_iff.mpr (List.mem_cons_self _ _)
    have hb : b ∈ [x, y] := h.mem_iff.mpr (List.mem_cons_of_mem _ (List.mem_cons_self _ _))
    simp only [List.mem_cons, List.mem_singleton, List.not_mem_nil, or_false] at hx hy ha hb
    rcases hx with rfl | rfl
    · rcases hy with rfl | rfl
      · rcases hb with rfl | rfl <;> exact Or.inl rfl
      · exact Or.inl rfl
    · rcases hy with rfl | rfl
      · exact Or.inr rfl
      · rcases ha with rfl | rfl <;> exact Or.inl rfl

/-- One iteration of the main loop, given the entry that `heap.Pop` returns. -/
theorem mainLoop_step (g : Graph) (ord : IterOrder) (fuel k : Nat) (st : State) (u : String)
    (p : Int) (q : priorityQueue) (a : Adj) (hq : heapPop st.queue = some (⟨u, p⟩, q))
    (ha : adjOf g u = a) :
    mainLoop g ord (fuel + 1) k st =
      mainLoop g ord fuel (k + 1) ((ord.adj k a).foldl (relax u) { st with queue := q }) := by
  have hne : Len st.queue > 0 := by
    unfold Len
    apply List.length_pos.mpr
    intro h
    rw [h] at hq
    exact Option.noConfusion hq
  rw [mainLoop_succ]
  simp only [hne, if_true, step, hq, ha]

theorem initState_main (ord : IterOrder) (hv : ord.Valid) :
    initState mainGraph "A" ord = mainInit := by
  have h1 : (initState mainGraph "A" ord).dist = mainInit.dist :=
    funext fun v => initState_dist mainGraph "A" ord hv v
  have h2 : (initState mainGraph "A" ord).prev = mainInit.prev :=
    funext fun v => initState_prev mainGraph "A" ord hv v
  have h3 : (initState mainGraph "A" ord).queue = mainInit.queue := initState_queue _ _ _
  cases hst : initState mainGraph "A" ord with
  | mk d p q =>
    rw [hst] at h1 h2 h3
    simp only at h1 h2 h3
    subst h1 h2 h3
    rfl

/-- Whatever the iteration order, four iterations of the main loop empty the queue on the graph
of `main`, with the same values for its four vertices. -/
theorem mainGraph_view (ord : IterOrder) (hv : ord.Valid) :
    (Dijkstra mainGraph "A" ord 4).map mainView =
      some ([some 0, some 2, some 3, some 3], [some "", some "A", some "A", some "B"]) := by
  have h0 := perm_pair (hv.2 0 [("B", 2), ("C", 3)])
  have h1 := perm_pair (hv.2 1 [("C", 1), ("D", 1)])
  have h2 := List.perm_singleton.mp (hv.2 2 [("D", 4)])
  have h3 := List.perm_singleton.mp (hv.2 3 [("C", 2)])
  unfold Dijkstra
  rw [initState_main ord hv]
  rw [mainLoop_step mainGraph ord 3 0 mainInit "A" 0 [] [("B", 2), ("C", 3)] (by decide) (by decide)]
  rcases h0 with h0 | h0 <;> rw [h0]
  · rw [mainLoop_step mainGraph ord 2 1 _ "B" 2 [⟨"C", 3⟩] [("C", 1), ("D", 1)]
      (by decide) (by decide)]
    rcases h1 with h1 | h1 <;> rw [h1]
    · rw [mainLoop_step mainGraph ord 1 2 _ "C" 3 [⟨"D", 3⟩] [("D", 4)] (by decide) (by decide),
        h2, mainLoop_step mainGraph ord 0 3 _ "D" 3 [] [("C", 2)] (by decide) (by decide), h3,
        mainLoop_zero]
      decide
    · rw [mainLoop_step mainGraph ord 1 2 _ "C" 3 [⟨"D", 3⟩] [("D", 4)] (by decide) (by decide),
        h2, mainLoop_step mainGraph ord 0 3 _ "D" 3 [] [("C", 2)] (by decide) (by decide), h3,
        mainLoop_zero]
      decide
  · rw [mainLoop_step mainGraph ord 2 1 _ "B" 2 [⟨"C", 3⟩] [("C", 1), ("D", 1)]
      (by decide) (by decide)]
    rcases h1 with h1 | h1 <;> rw [h1]
    · rw [mainLoop_step mainGraph ord 1 2 _ "C" 3 [⟨"D", 3⟩] [("D", 4)] (by decide) (by decide),
        h2, mainLoop_step mainGraph ord 0 3 _ "D" 3 [] [("C", 2)] (by decide) (by decide), h3,
        mainLoop_zero]
      decide
    · rw [mainLoop_step mainGraph ord 1 2 _ "C" 3 [⟨"D", 3⟩] [("D", 4)] (by decide) (by decide),
        h2, mainLoop_step mainGraph ord 0 3 _ "D" 3 [] [("C", 2)] (by decide) (by decide), h3,
        mainLoop_zero]
      decide

/-! ## Paths in the example graphs -/

/-- A path ends at its source or at a vertex that occurs as a neighbour. -/
theorem Walk.target {g : Graph} {s v : String} {c : Int} (h : Walk g s v c) :
    v = s ∨ v ∈ targets g := by
  cases h with
  | nil => exact Or.inl rfl
  | snoc e _ he => exact Or.inr (adjOf_target g _ e he)

theorem satGraph_walk {v : String} {c : Int} (h : Walk satGraph "A" v c) :
    (v = "A" ∧ c = 0) ∨ (v = "B" ∧ c = 2147483648) := by
  induction h with
  | nil => exact Or.inl ⟨rfl, rfl⟩
  | snoc e _ he ih =>
    rcases ih with ⟨rfl, rfl⟩ | ⟨rfl, rfl⟩
    · have h1 : adjOf satGraph "A" = [("B", 2147483648)] := by decide
      rw [h1] at he
      rw [List.mem_singleton.mp he]
      exact Or.inr ⟨rfl, rfl⟩
    · have h1 : adjOf satGraph "B" = [] := by decide
      rw [h1] at he
      cases he

theorem satGraph_min : IsMinDist satGraph "A" "B" 2147483648 := by
  constructor
  · have h := Walk.snoc (g := satGraph) (s := "A") ("B", 2147483648) Walk.nil (by decide)
    simpa using h
  · intro c hc
    rcases satGraph_walk hc with ⟨h, _⟩ | ⟨_, h⟩
    · exact absurd h (by decide)
    · rw [h]

theorem mainGraph_walk {v : String} {c : Int} (h : Walk mainGraph "A" v c) :
    (v = "A" ∧ 0 ≤ c) ∨ (v ≠ "A" ∧ 2 ≤ c) := by
  induction h with
  | nil => exact Or.inl ⟨rfl, le_refl _⟩
  | snoc e _ he ih =>
    right
    have ht : ∀ x ∈ targets mainGraph, x ≠ "A" := by decide
    refine ⟨ht _ (adjOf_target mainGraph _ e he), ?_⟩
    rcases ih with ⟨rfl, h0⟩ | ⟨_, h2⟩
    · have hA : ∀ e ∈ adjOf mainGraph "A", 2 ≤ e.2 := by decide
      have := hA e he
      omega
    · have := NonNeg_adjOf mainGraph (by decide) _ e he
      omega

theorem mainGraph_min : IsMinDist mainGraph "A" "B" 2 := by
  constructor
  · have h := Walk.snoc (g := mainGraph) (s := "A") ("B", 2) Walk.nil (by decide)
    simpa using h
  · intro c hc
    rcases mainGraph_walk hc with ⟨h, _⟩ | ⟨_, h⟩
    · exact absurd h (by decide)
    · exact h

theorem mainGraph_unreachable : ¬ Reachable mainGraph "C" "A" := by
  rintro ⟨c, hc⟩
  rcases hc.target with h | h
  · exact absurd h (by decide)
  · exact absurd h (by decide)

theorem heapPop_singleton (x : item) : heapPop [x] = some (x, []) := by
  simp [heapPop, Len, Swap, down, downLoop, Pop]

/-- When the source is not a key the main loop runs once, over the nil map, and returns the
maps of the initialisation. -/
theorem Dijkstra_source_not_key (g : Graph) (s : String) (ord : IterOrder) (hv : ord.Valid)
    (hs : s ∉ keys g) :
    Dijkstra g s ord 1 = some ((initState g s ord).dist, (initState g s ord).prev) := by
  unfold Dijkstra
  rw [mainLoop_step g ord 0 0 (initState g s ord) s 0 [] []
    (by rw [initState_queue]; exact heapPop_singleton _) (adjOf_not_key g s hs)]
  rw [List.perm_nil.mp (hv.2 0 [])]
  rfl

/-! ## The claims of the specification -/

/-- C1, as stated, fails: a reachable vertex whose least path weight is `2^31` is reported at
distance `math.MaxInt32`, and a 64-bit overflow on a cycle with non-negative weights leaves the
source at distance `-2^63` although its least path weight is `0`. -/
theorem C1_counterexample :
    (NonNeg satGraph ∧ IsMinDist satGraph "A" "B" 2147483648 ∧
      (Dijkstra satGraph "A" idOrder 2).map (fun r => r.1 "B") = some (some 2147483647)) ∧
    (NonNeg wrapGraph ∧ IsMinDist wrapGraph "A" "A" 0 ∧
      (Dijkstra wrapGraph "A" idOrder 4).map (fun r => r.1 "A") =
        some (some (-9223372036854775808))) :=
  ⟨⟨by decide, satGraph_min, by decide⟩,
   ⟨by decide, ⟨Walk.nil, fun _ hc => Walk.nonneg (by decide) hc⟩, by decide⟩⟩

/-- C1, amended: on a graph whose weights lie between `0` and `2^63 - 2^31`, for every source,
every iteration order and every vertex `v` that is a key of the graph or the source and whose
least path weight from the source is `d`, `Dijkstra` returns and `distances[v]` is `d` capped at
`math.MaxInt32`; so it equals the minimum whenever that is at most `math.MaxInt32`. -/
theorem C1_distance_is_capped_minimum (g : Graph) (s : String) (ord : IterOrder)
    (hv : ord.Valid) (hb : Bounded g) (v : String) (d : Int) (hk : v ∈ keys g ∨ v = s)
    (hd : IsMinDist g s v d) :
    (∃ n r, Dijkstra g s ord n = some r) ∧
      ∀ n r, Dijkstra g s ord n = some r → r.1 v = some (min d MaxInt32) :=
  ⟨Dijkstra_terminates g s ord hv, fun n r h => Dijkstra_dist g s ord hv hb n r h v d hk hd⟩

/-- Witness of C1 on the graph of `main`: the least path weight from `"A"` to `"B"` is `2`. -/
theorem C1_witness :
    idOrder.Valid ∧ Bounded mainGraph ∧ IsMinDist mainGraph "A" "B" 2 ∧
      ((∃ n r, Dijkstra mainGraph "A" idOrder n = some r) ∧
        ∀ n r, Dijkstra mainGraph "A" idOrder n = some r → r.1 "B" = some (min 2 MaxInt32)) :=
  ⟨idOrder_valid, by decide, mainGraph_min,
    C1_distance_is_capped_minimum mainGraph "A" idOrder idOrder_valid (by decide) "B" 2
      (Or.inl (by decide)) mainGraph_min⟩

/-- C2, as stated, fails: on the graph of `main` the predecessor returned for `"C"` is `"A"`,
not `"B"`. -/
theorem C2_counterexample :
    idOrder.Valid ∧
      (Dijkstra mainGraph "A" idOrder 4).map (fun r => r.2 "C") = some (some "A") :=
  ⟨idOrder_valid, by decide⟩

/-- C2, amended: on the graph of `main` with source `"A"`, under every iteration order,
`Dijkstra` returns exactly the distances `{A:0, B:2, C:3, D:3}` and the predecessors
`{A:"", B:A, C:A, D:B}`. -/
theorem C2_main_scenario (ord : IterOrder) (hv : ord.Valid) :
    (∃ n r, Dijkstra mainGraph "A" ord n = some r) ∧
      ∀ n r, Dijkstra mainGraph "A" ord n = some r → r.1 = mainDist ∧ r.2 = mainPrev := by
  refine ⟨Dijkstra_terminates _ _ ord hv, ?_⟩
  intro n r h
  have hview := mainGraph_view ord hv
  cases h4 : Dijkstra mainGraph "A" ord 4 with
  | none => rw [h4] at hview; exact Option.noConfusion hview
  | some r4 =>
    rw [h4] at hview
    have hr : r = r4 := Dijkstra_fuel_unique _ _ _ _ _ _ _ h h4
    subst hr
    simp only [Option.map_some', Option.some.injEq, mainView, Prod.mk.injEq, List.cons.injEq,
      and_true] at hview
    obtain ⟨⟨dA, dB, dC, dD⟩, pA, pB, pC, pD⟩ := hview
    have hnk : ∀ v, v ≠ "A" → v ≠ "B" → v ≠ "C" → v ≠ "D" → r.1 v = none ∧ r.2 v = none := by
      intro v hA hB hC hD
      apply Dijkstra_nonkey mainGraph "A" ord hv (by decide) n r h v _ hA
      simp only [keys, mainGraph, List.map_cons, List.map_nil, List.mem_cons, List.mem_singleton,
        List.not_mem_nil, or_false, not_or]
      exact ⟨hA, hB, hC, hD⟩
    constructor
    · funext v
      unfold mainDist
      by_cases hA : v = "A"
      · subst hA; simpa using dA
      by_cases hB : v = "B"
      · subst hB; simpa using dB
      by_cases hC : v = "C"
      · subst hC; simpa using dC
      by_cases hD : v = "D"
      · subst hD; simpa using dD
      simp only [hA, hB, hC, hD, if_false]
      exact (hnk v hA hB hC hD).1
    · funext v
      unfold mainPrev
      by_cases hA : v = "A"
      · subst hA; simpa using pA
      by_cases hB : v = "B"
      · subst hB; simpa using pB
      by_cases hC : v = "C"
      · subst hC; simpa using pC
      by_cases hD : v = "D"
      · subst hD; simpa using pD
      simp only [hA, hB, hC, hD, if_false]
      exact (hnk v hA hB hC hD).2

/-- Witness of C2: the order that reverses every map. -/
theorem C2_witness :
    revOrder.Valid ∧
      ((∃ n r, Dijkstra mainGraph "A" revOrder n = some r) ∧
        ∀ n r, Dijkstra mainGraph "A" revOrder n = some r → r.1 = mainDist ∧ r.2 = mainPrev) :=
  ⟨revOrder_valid, C2_main_scenario revOrder revOrder_valid⟩

/-- C3, as stated, fails: on a cycle through the source whose weights are non-negative, the sum
`1 + (2^63 - 1)` wraps around and the relaxation of the edge back to the source overwrites
both its distance and its predecessor. -/
theorem C3_counterexample :
    NonNeg wrapGraph ∧
      (Dijkstra wrapGraph "A" idOrder 4).map (fun r => (r.1 "A", r.2 "A")) =
        some (some (-9223372036854775808), some "B") :=
  ⟨by decide, by decide⟩

/-- C4: for every graph with non-negative weights, every source, every iteration order and
every key `v` of the graph that is not reachable from the source, `Dijkstra` returns with
`distances[v] == math.MaxInt32` and `predecessors[v] == ""`. -/
theorem C4_unreachable_key (g : Graph) (s : String) (ord : IterOrder) (hv : ord.Valid)
    (_hn : NonNeg g) (v : String) (hk : v ∈ keys g) (hu : ¬ Reachable g s v) :
    (∃ n r, Dijkstra g s ord n = some r) ∧
      ∀ n r, Dijkstra g s ord n = some r → r.1 v = some MaxInt32 ∧ r.2 v = some "" := by
  refine ⟨Dijkstra_terminates g s ord hv, ?_⟩
  intro n r h
  obtain ⟨st, hi, _, rfl⟩ := Dijkstra_induct g s ord (ReachInv g s ord)
    (initState_reachInv g s ord)
    (fun k st st1 hi hne hs => step_reachInv g s ord hv k st st1 hi hne hs) n r h
  have hs : v ≠ s := fun h => hu (h ▸ ⟨0, Walk.nil⟩)
  constructor
  · show st.dist v = some MaxInt32
    rw [hi.dist v hu, initState_dist g s ord hv]
    simp only [hs, hk, if_true, if_false]
  · show st.prev v = some ""
    rw [hi.prev v hu, initState_prev g s ord hv]
    simp only [hk, if_true]

/-- Witness of C4: in the graph of `main` the key `"A"` is not reachable from `"C"`. -/
theorem C4_witness :
    idOrder.Valid ∧ NonNeg mainGraph ∧ "A" ∈ keys mainGraph ∧ ¬ Reachable mainGraph "C" "A" ∧
      ((∃ n r, Dijkstra mainGraph "C" idOrder n = some r) ∧
        ∀ n r, Dijkstra mainGraph "C" idOrder n = some r →
          r.1 "A" = some MaxInt32 ∧ r.2 "A" = some "") :=
  ⟨idOrder_valid, by decide, by decide, mainGraph_unreachable,
    C4_unreachable_key mainGraph "C" idOrder idOrder_valid (by decide) "A" (by decide)
      mainGraph_unreachable⟩

/-- C5, as stated, fails: with non-negative weights that overflow a 64-bit sum, visiting the
two equal-priority neighbours of the source in the two possible orders yields two different
distances for `"Y"`. -/
theorem C5_counterexample :
    NonNeg tieGraph ∧ idOrder.Valid ∧ revOrder.Valid ∧
      (Dijkstra tieGraph "S" idOrder 7).map (fun r => r.1 "Y") = some (some (-1)) ∧
      (Dijkstra tieGraph "S" revOrder 7).map (fun r => r.1 "Y") =
        some (some (-9223372036854775808)) :=
  ⟨by decide, idOrder_valid, revOrder_valid, by decide, by decide⟩

/-- C5, amended: on a graph whose weights lie between `0` and `2^63 - 2^31`, any two runs of
`Dijkstra` on the same graph and source return, and return equal distance maps, whatever the
orders in which the key set and the adjacency maps are visited. -/
theorem C5_distances_order_independent (g : Graph) (s : String) (o1 o2 : IterOrder)
    (h1 : o1.Valid) (h2 : o2.Valid) (hb : Bounded g) :
    (∃ n r, Dijkstra g s o1 n = some r) ∧ (∃ n r, Dijkstra g s o2 n = some r) ∧
      ∀ n1 n2 r1 r2, Dijkstra g s o1 n1 = some r1 → Dijkstra g s o2 n2 = some r2 →
        r1.1 = r2.1 :=
  ⟨Dijkstra_terminates g s o1 h1, Dijkstra_terminates g s o2 h2,
    fun n1 n2 r1 r2 e1 e2 => Dijkstra_dist_unique g s o1 o2 h1 h2 hb n1 n2 r1 r2 e1 e2⟩

/-- Witness of C5: the graph of `main` visited in literal and in reverse order. -/
theorem C5_witness :
    idOrder.Valid ∧ revOrder.Valid ∧ Bounded mainGraph ∧
      ((∃ n r, Dijkstra mainGraph "A" idOrder n = some r) ∧
        (∃ n r, Dijkstra mainGraph "A" revOrder n = some r) ∧
        ∀ n1 n2 r1 r2, Dijkstra mainGraph "A" idOrder n1 = some r1 →
          Dijkstra mainGraph "A" revOrder n2 = some r2 → r1.1 = r2.1) :=
  ⟨idOrder_valid, revOrder_valid, by decide,
    C5_distances_order_independent mainGraph "A" idOrder revOrder idOrder_valid revOrder_valid
      (by decide)⟩

/-- C7: for every graph, every iteration order and every source that is not a key of the graph,
`Dijkstra` returns without failing; `graph[source]` is the nil map, `distances[source]` is `0`,
and every key `v` of the graph keeps `distances[v] == math.MaxInt32` and
`predecessors[v] == ""`. -/
theorem C7_source_not_a_key (g : Graph) (s : String) (ord : IterOrder) (hv : ord.Valid)
    (hs : s ∉ keys g) :
    (∃ n r, Dijkstra g s ord n = some r) ∧
      ∀ n r, Dijkstra g s ord n = some r →
        r.1 s = some 0 ∧ adjOf g s = [] ∧
          ∀ v ∈ keys g, r.1 v = some MaxInt32 ∧ r.2 v = some "" := by
  have h1 := Dijkstra_source_not_key g s ord hv hs
  refine ⟨⟨1, _, h1⟩, ?_⟩
  intro n r h
  have hr := Dijkstra_fuel_unique g s ord n 1 _ _ h h1
  subst hr
  refine ⟨?_, adjOf_not_key g s hs, ?_⟩
  · show (initState g s ord).dist s = some 0
    rw [initState_dist g s ord hv]
    simp only [if_true]
  · intro v hk
    have hne : v ≠ s := fun h => hs (h ▸ hk)
    constructor
    · show (initState g s ord).dist v = some MaxInt32
      rw [initState_dist g s ord hv]
      simp only [hne, hk, if_true, if_false]
    · show (initState g s ord).prev v = some ""
      rw [initState_prev g s ord hv]
      simp only [hk, if_true]

/-- Witness of C7: the graph of `main` with the source `"F"`, which is not one of its keys. -/
theorem C7_witness :
    idOrder.Valid ∧ "F" ∉ keys mainGraph ∧
      ((∃ n r, Dijkstra mainGraph "F" idOrder n = some r) ∧
        ∀ n r, Dijkstra mainGraph "F" idOrder n = some r →
          r.1 "F" = some 0 ∧ adjOf mainGraph "F" = [] ∧
            ∀ v ∈ keys mainGraph, r.1 v = some MaxInt32 ∧ r.2 v = some "") :=
  ⟨idOrder_valid, by decide, C7_source_not_a_key mainGraph "F" idOrder idOrder_valid (by decide)⟩

/-- C8, evaluated on the graph `{A:{B:5}}` with source `"A"`: the read `dist["B"]` of the missing
key yields `0`, the test `5 < 0` fails, and the relaxation of the edge `(A, B, 5)` leaves the
distance map, the predecessor map and the queue as they were; the run returns no entry for
`"B"`. -/
theorem C8_missing_entry_reads_zero :
    getDist (initState leafGraph "A" idOrder).dist "B" = 0 ∧
    (relax "A" { initState leafGraph "A" idOrder with queue := [] } ("B", 5)).dist "B" = none ∧
    (relax "A" { initState leafGraph "A" idOrder with queue := [] } ("B", 5)).prev "B" = none ∧
    (relax "A" { initState leafGraph "A" idOrder with queue := [] } ("B", 5)).queue = [] ∧
    (Dijkstra leafGraph "A" idOrder 1).map (fun r => (r.1 "B", r.2 "B")) = some (none, none) := by
  decide

/-- C9: on a non-empty queue that satisfies the min-heap property, `heap.Pop` returns an entry
whose priority is at most that of every entry of the queue, and leaves a queue that holds
exactly the other entries, is one shorter and satisfies the min-heap property. -/
theorem C9_extract_minimum (pq : priorityQueue) (hne : pq ≠ []) (h : IsHeap pq) :
    ∃ it rest, heapPop pq = some (it, rest) ∧ (∀ x ∈ pq, it.priority ≤ x.priority) ∧
      pq.Perm (it :: rest) ∧ rest.length + 1 = pq.length ∧ IsHeap rest :=
  heapPop_heap pq hne h

/-- Witness of C9: a heap of five entries with repeated priorities and a repeated vertex. -/
theorem C9_witness :
    ([⟨"B", 2⟩, ⟨"C", 3⟩, ⟨"D", 2⟩, ⟨"C", 7⟩, ⟨"E", 3⟩] : priorityQueue) ≠ [] ∧
    IsHeap [⟨"B", 2⟩, ⟨"C", 3⟩, ⟨"D", 2⟩, ⟨"C", 7⟩, ⟨"E", 3⟩] ∧
    ∃ it rest, heapPop [⟨"B", 2⟩, ⟨"C", 3⟩, ⟨"D", 2⟩, ⟨"C", 7⟩, ⟨"E", 3⟩] = some (it, rest) ∧
      (∀ x ∈ ([⟨"B", 2⟩, ⟨"C", 3⟩, ⟨"D", 2⟩, ⟨"C", 7⟩, ⟨"E", 3⟩] : priorityQueue),
        it.priority ≤ x.priority) ∧
      List.Perm [⟨"B", 2⟩, ⟨"C", 3⟩, ⟨"D", 2⟩, ⟨"C", 7⟩, ⟨"E", 3⟩] (it :: rest) ∧
      rest.length + 1 = List.length [⟨"B", 2⟩, ⟨"C", 3⟩, ⟨"D", 2⟩, ⟨"C", 7⟩, (⟨"E", 3⟩ : item)] ∧
      IsHeap rest :=
  ⟨by decide, by decide, C9_extract_minimum _ (by decide) (by decide)⟩

/-- C10: on a queue that satisfies the min-heap property, `heap.Push` of any entry yields a
queue that is exactly one longer, whose entries are the old entries plus the new one (an entry
already present for the same vertex is kept unchanged), and that satisfies the min-heap
property. -/
theorem C10_push (pq : priorityQueue) (x : item) (h : IsHeap pq) :
    (heapPush pq x).length = pq.length + 1 ∧ (heapPush pq x).Perm (x :: pq) ∧
      IsHeap (heapPush pq x) :=
  ⟨heapPush_length pq x, heapPush_perm pq x, heapPush_heap pq x h⟩

/-- Witness of C10: pushing `("C", 1)` on a heap that already holds `("C", 3)`. -/
theorem C10_witness :
    IsHeap [⟨"B", 2⟩, ⟨"C", 3⟩] ∧
    (heapPush [⟨"B", 2⟩, ⟨"C", 3⟩] ⟨"C", 1⟩).length = List.length [⟨"B", 2⟩, (⟨"C", 3⟩ : item)] + 1 ∧
      (heapPush [⟨"B", 2⟩, ⟨"C", 3⟩] ⟨"C", 1⟩).Perm [⟨"C", 1⟩, ⟨"B", 2⟩, ⟨"C", 3⟩] ∧
      IsHeap (heapPush [⟨"B", 2⟩, ⟨"C", 3⟩] ⟨"C", 1⟩) :=
  ⟨by decide, C10_push [⟨"B", 2⟩, ⟨"C", 3⟩] ⟨"C", 1⟩ (by decide)⟩

/-! ## Predecessor links -/

theorem relax_predInv (g : Graph) (s u : String) (pend : String → String × Int → Prop)
    (st : State) (e : String × Int) (rank : String → Nat) (hb : Bounded g)
    (he : e ∈ adjOf g u) (hi : Inv g s pend st) (hp : PredInv g s rank st) :
    ∃ rank1, PredInv g s rank1 (relax u st e) := by
  have halt := hi.alt_eq hb u e he
  have hw := Bounded_adjOf g hb u e he
  have hru := hi.range u
  rw [relax_eq, halt]
  by_cases hc : getDist st.dist u + e.2 < getDist st.dist e.1
  · simp only [hc, if_true]
    have hvu : e.1 ≠ u := by
      intro h
      rw [h] at hc
      omega
    have huv : u ≠ e.1 := fun h => hvu h.symm
    have hgd : ∀ x, getDist (mapSet st.dist e.1 (getDist st.dist u + e.2)) x =
        if x = e.1 then getDist st.dist u + e.2 else getDist st.dist x :=
      fun x => getDist_mapSet _ _ _ x
    refine ⟨fun x => if x = e.1 then rank u + 1 else rank x, ⟨?_⟩⟩
    intro v hk hs hlt
    change getDist (mapSet st.dist e.1 _) v < MaxInt32 at hlt
    show ∃ u1 w, mapSet st.prev e.1 u v = some u1 ∧ (v, w) ∈ adjOf g u1 ∧
      getDist (mapSet st.dist e.1 _) u1 + w ≤ getDist (mapSet st.dist e.1 _) v ∧
      (getDist (mapSet st.dist e.1 _) u1 < getDist (mapSet st.dist e.1 _) v ∨ _)
    by_cases hv : v = e.1
    · subst hv
      refine ⟨u, e.2, ?_, he, ?_, Or.inr ?_⟩
      · simp only [mapSet, if_true]
      · rw [hgd, hgd]
        simp only [huv, if_true, if_false]
        exact le_refl _
      · simp only [huv, if_true, if_false]
        omega
    · rw [hgd] at hlt
      simp only [hv, if_false] at hlt
      obtain ⟨y, w, h1, h2, h3, h4⟩ := hp.link v hk hs hlt
      refine ⟨y, w, ?_, h2, ?_, ?_⟩
      · simp only [mapSet, hv, if_false]
        exact h1
      · rw [hgd, hgd v]
        simp only [hv, if_false]
        by_cases hy : y = e.1
        · simp only [hy, if_true]
          rw [hy] at h3
          omega
        · simp only [hy, if_false]
          exact h3
      · rw [hgd, hgd v]
        simp only [hv, if_false]
        have hwy := (Bounded_adjOf g hb y (v, w) h2).1
        by_cases hy : y = e.1
        · left
          simp only [hy, if_true]
          rw [hy] at h3
          simp only at hwy
          omega
        · simp only [hy, if_false]
          exact h4
  · simp only [hc, if_false]
    exact ⟨rank, hp⟩

/-- One iteration of the main loop preserves the invariant together with the invariant on
predecessor links. -/
theorem step_predInv (g : Graph) (s : String) (ord : IterOrder) (hv : ord.Valid)
    (hb : Bounded g) (k : Nat) (st st1 : State)
    (hi : Inv g s (fun _ _ => False) st ∧ ∃ rank, PredInv g s rank st) (hne : st.queue ≠ [])
    (h : step g ord k st = some st1) :
    Inv g s (fun _ _ => False) st1 ∧ ∃ rank, PredInv g s rank st1 := by
  refine ⟨step_inv g s ord hv hb k st st1 hi.1 hne h, ?_⟩
  obtain ⟨it, q, hp, _, hs⟩ := step_shape g ord k st hne
  rw [hs] at h
  have h := Option.some.inj h
  subst h
  have hfold := foldl_relax_induct it.value
    (fun s' seen => Inv g s (fun x e1 => x = it.value ∧ e1 ∉ seen) s' ∧
      ∃ rank, PredInv g s rank s')
    (ord.adj k (adjOf g it.value)) { st with queue := q }
    (by
      obtain ⟨hi1, rank, hi2⟩ := hi
      exact ⟨hi1.pop it q hp, rank, ⟨hi2.link⟩⟩)
    (by
      intro s' seen e ⟨hs1, rank, hs2⟩ he
      have he' := (hv.2 k _).mem_iff.mp he
      exact ⟨relax_inv g s it.value seen s' e hb he' hs1,
        relax_predInv g s it.value _ s' e rank hb he' hs1 hs2⟩)
  exact hfold.2

theorem initState_predInv (g : Graph) (s : String) (ord : IterOrder) (hv : ord.Valid) :
    PredInv g s (fun _ => 0) (initState g s ord) := by
  constructor
  intro v hk hs hlt
  unfold getDist at hlt
  rw [initState_dist g s ord hv] at hlt
  simp [hs, hk] at hlt

/-- The state in which `Dijkstra` leaves the main loop also satisfies the invariant on
predecessor links. -/
theorem Dijkstra_final_pred (g : Graph) (s : String) (ord : IterOrder) (hv : ord.Valid)
    (hb : Bounded g) (n : Nat) (r : GoMap Int × GoMap String)
    (h : Dijkstra g s ord n = some r) :
    ∃ st, (Inv g s (fun _ _ => False) st ∧ ∃ rank, PredInv g s rank st) ∧ st.queue = [] ∧
      r = (st.dist, st.prev) :=
  Dijkstra_induct g s ord _ ⟨initState_inv g s ord hv hb, _, initState_predInv g s ord hv⟩
    (fun k st st1 hi hne hs => step_predInv g s ord hv hb k st st1 hi hne hs) n r h

theorem walkBack_succ (prev : GoMap String) (source : String) (fuel : Nat) (cur : String)
    (acc : List String) :
    walkBack prev source (fuel + 1) cur acc =
      if cur = source then Trace.path (cur :: acc)
      else if getPrev prev cur = "" then Trace.noPath
      else walkBack prev source fuel (getPrev prev cur) (cur :: acc) := rfl

/-- At the end of a run on bounded weights, the predecessor links from every key whose distance
is below `math.MaxInt32` lead back to the source along a path of the graph that repeats no
vertex and whose weight is the distance of the key. -/
theorem walkBack_chain (g : Graph) (s : String) (st : State) (rank : String → Nat)
    (hi : Inv g s (fun _ _ => False) st) (hp : PredInv g s rank st) (hq : st.queue = [])
    (hb : Bounded g) (he : "" ∉ keys g) :
    ∀ (n m : Nat) (t : String), (t ∈ keys g ∨ t = s) → getDist st.dist t < MaxInt32 →
      (getDist st.dist t).toNat = n → rank t = m →
      ∃ p : List String, p.Nodup ∧ WalkVia g s p t (getDist st.dist t) ∧ (t = s → p = [s]) ∧
        (∀ x ∈ p, getDist st.dist x < getDist st.dist t ∨
          (getDist st.dist x = getDist st.dist t ∧ rank x ≤ rank t)) ∧
        ∀ acc, ∃ fuel, walkBack st.prev s fuel t acc = Trace.path (p ++ acc) := by
  have hs0 : getDist st.dist s = 0 := by
    unfold getDist; rw [hi.src]; rfl
  intro n
  induction n using Nat.strong_induction_on with
  | _ n ihn =>
    intro m
    induction m using Nat.strong_induction_on with
    | _ m ihm =>
      intro t hk hlt hn hm
      by_cases hts : t = s
      · subst hts
        refine ⟨[t], List.nodup_singleton _, ?_, fun _ => rfl, ?_, ?_⟩
        · rw [hs0]; exact WalkVia.nil
        · intro x hx
          rw [List.mem_singleton.mp hx]
          exact Or.inr ⟨rfl, le_refl _⟩
        · intro acc
          exact ⟨1, by rw [walkBack_succ]; simp⟩
      · have hk' : t ∈ keys g := hk.resolve_right hts
        obtain ⟨u, w, h1, h2, h3, h4⟩ := hp.link t hk' hts hlt
        have hw0 : 0 ≤ w := (Bounded_adjOf g hb u (t, w) h2).1
        have hle : getDist st.dist t ≤ getDist st.dist u + w := by
          rcases hi.edges u with ⟨it, hit, _⟩ | hall
          · rw [hq] at hit; cases hit
          · rcases hall (t, w) h2 with hf | hle
            · exact absurd hf id
            · exact hle
        have huk : u ∈ keys g := adjOf_key g u (t, w) h2
        have hru := hi.range u
        have hrt := hi.range t
        have hult : getDist st.dist u < MaxInt32 := by omega
        have hune : u ≠ "" := fun h => he (h ▸ huk)
        have ih : ∃ p : List String, p.Nodup ∧ WalkVia g s p u (getDist st.dist u) ∧
            (u = s → p = [s]) ∧
            (∀ x ∈ p, getDist st.dist x < getDist st.dist u ∨
              (getDist st.dist x = getDist st.dist u ∧ rank x ≤ rank u)) ∧
            ∀ acc, ∃ fuel, walkBack st.prev s fuel u acc = Trace.path (p ++ acc) := by
          by_cases hd : getDist st.dist u < getDist st.dist t
          · exact ihn (getDist st.dist u).toNat (by omega) (rank u) u (Or.inl huk) hult rfl rfl
          · have hrk : rank u < rank t := by
              rcases h4 with h | h
              · exact absurd h hd
              · exact h
            have hdeq : getDist st.dist u = getDist st.dist t := by omega
            exact ihm (rank u) (by omega) u (Or.inl huk) hult (by rw [hdeq]; exact hn) rfl
        obtain ⟨p, hnd, hwalk, _, hlex, hback⟩ := ih
        refine ⟨p ++ [t], ?_, ?_, fun h => absurd h hts, ?_, ?_⟩
        · rw [List.nodup_append]
          refine ⟨hnd, List.nodup_singleton _, ?_⟩
          intro x hx hx'
          rw [List.mem_singleton.mp hx'] at hx
          rcases hlex t hx with h | ⟨h, h'⟩
          · omega
          · rcases h4 with h5 | h5 <;> omega
        · have := WalkVia.snoc (t, w) hwalk h2
          have hdt : getDist st.dist t = getDist st.dist u + w := by omega
          rw [hdt]
          exact this
        · intro x hx
          rcases List.mem_append.mp hx with hx | hx
          · rcases hlex x hx with h | ⟨h, h'⟩
            · left; omega
            · rcases h4 with h5 | h5
              · left; omega
              · by_cases hd : getDist st.dist u < getDist st.dist t
                · left; omega
                · right
                  exact ⟨by omega, by omega⟩
          · rw [List.mem_singleton.mp hx]
            exact Or.inr ⟨rfl, le_refl _⟩
        · intro acc
          obtain ⟨fuel, hf⟩ := hback (t :: acc)
          refine ⟨fuel + 1, ?_⟩
          have hpv : getPrev st.prev t = u := by
            unfold getPrev; rw [h1]; rfl
          rw [walkBack_succ, hpv]
          simp only [hts, hune, if_false]
          rw [hf]
          simp

/-- The path that `reconstruct_path` returns does not depend on the iteration budget. -/
theorem walkBack_mono (prev : GoMap String) (source : String) (p : List String) :
    ∀ (fuel : Nat) (cur : String) (acc : List String),
      walkBack prev source fuel cur acc = Trace.path p →
      walkBack prev source (fuel + 1) cur acc = Trace.path p := by
  intro fuel
  induction fuel with
  | zero => intro cur acc h; cases h
  | succ f ih =>
    intro cur acc h
    rw [walkBack_succ] at h ⊢
    by_cases h1 : cur = source
    · simpa [h1] using h
    · simp only [h1, if_false] at h ⊢
      by_cases h2 : getPrev prev cur = ""
      · simp [h2] at h
      · simp only [h2, if_false] at h ⊢
        exact ih _ _ h

theorem emptyName_reachable : Reachable emptyNameGraph "" "B" :=
  ⟨0 + 1, Walk.snoc (g := emptyNameGraph) (s := "") ("B", 1) Walk.nil (by decide)⟩

/-- C6, as stated, fails in three ways. A reachable vertex at least `math.MaxInt32` away keeps
the predecessor `""`, so the walk reports "no path"; after a 64-bit overflow the links followed
from `"B"` are the single edge `(A, B)` of weight `1` while `distances["B"]` is `-2^63 + 1`; and
a link to a source named by the empty string cannot be told from "none". -/
theorem C6_counterexample :
    (NonNeg satGraph ∧ Reachable satGraph "A" "B" ∧
      (Dijkstra satGraph "A" idOrder 2).map (fun r => reconstructPath r.2 "A" "B" 5) =
        some Trace.noPath) ∧
    (NonNeg wrapGraph ∧
      (Dijkstra wrapGraph "A" idOrder 4).map (fun r => (reconstructPath r.2 "A" "B" 5, r.1 "B")) =
        some (Trace.path ["A", "B"], some (-9223372036854775807)) ∧
      adjOf wrapGraph "A" = [("B", 1)]) ∧
    (NonNeg emptyNameGraph ∧ Reachable emptyNameGraph "" "B" ∧
      (Dijkstra emptyNameGraph "" idOrder 2).map (fun r => reconstructPath r.2 "" "B" 5) =
        some Trace.noPath) :=
  ⟨⟨by decide, ⟨_, satGraph_min.1⟩, by decide⟩, ⟨by decide, by decide, by decide⟩,
    ⟨by decide, emptyName_reachable, by decide⟩⟩

/-- C6, amended: on a graph whose weights lie between `0` and `2^63 - 2^31` and in which the
empty string is not a key, for every source `s`, every iteration order and every target `t` that
is a key of the graph or `s` itself and whose least path weight `d` from `s` is below
`math.MaxInt32`, `Dijkstra` returns, `distances[t] == d`, and following the predecessor links
from `t` reaches `s` after finitely many steps: the vertices visited, from `s` to `t`, repeat no
vertex, each consecutive pair is an edge of the graph, and the weights of those edges sum to
`distances[t]`; for `t == s` the walk is the single vertex `s`. -/
theorem C6_predecessor_walk (g : Graph) (s : String) (ord : IterOrder) (hv : ord.Valid)
    (hb : Bounded g) (he : "" ∉ keys g) (t : String) (d : Int) (hk : t ∈ keys g ∨ t = s)
    (hd : IsMinDist g s t d) (hlt : d < MaxInt32) :
    (∃ n r, Dijkstra g s ord n = some r) ∧
      ∀ n r, Dijkstra g s ord n = some r →
        r.1 t = some d ∧
        ∃ fuel p, reconstructPath r.2 s t fuel = Trace.path p ∧ p.Nodup ∧
          WalkVia g s p t d ∧ (t = s → p = [s]) := by
  refine ⟨Dijkstra_terminates g s ord hv, ?_⟩
  intro n r h
  have hdist := Dijkstra_dist g s ord hv hb n r h t d hk hd
  rw [min_eq_left (le_of_lt hlt)] at hdist
  refine ⟨hdist, ?_⟩
  obtain ⟨st, ⟨hi, rank, hp⟩, hq, rfl⟩ := Dijkstra_final_pred g s ord hv hb n r h
  have hgd : getDist st.dist t = d := by
    unfold getDist
    rw [show st.dist t = some d from hdist]
    rfl
  obtain ⟨p, h1, h2, h3, _, h5⟩ := walkBack_chain g s st rank hi hp hq hb he _ _ t hk
    (by rw [hgd]; exact hlt) rfl rfl
  obtain ⟨fuel, hf⟩ := h5 []
  rw [List.append_nil] at hf
  rw [hgd] at h2
  exact ⟨fuel, p, hf, h1, h2, h3⟩

/-- Witness of C6 on the graph of `main`: the target `"B"`, at distance `2` from `"A"`. -/
theorem C6_witness :
    idOrder.Valid ∧ Bounded mainGraph ∧ "" ∉ keys mainGraph ∧ IsMinDist mainGraph "A" "B" 2 ∧
      ((∃ n r, Dijkstra mainGraph "A" idOrder n = some r) ∧
        ∀ n r, Dijkstra mainGraph "A" idOrder n = some r →
          r.1 "B" = some 2 ∧
          ∃ fuel p, reconstructPath r.2 "A" "B" fuel = Trace.path p ∧ p.Nodup ∧
            WalkVia mainGraph "A" p "B" 2 ∧ ("B" = "A" → p = ["A"])) :=
  ⟨idOrder_valid, by decide, by decide, mainGraph_min,
    C6_predecessor_walk mainGraph "A" idOrder idOrder_valid (by decide) (by decide) "B" 2
      (Or.inl (by decide)) mainGraph_min (by decide)⟩

/-! ## Every state of a run -/

/-- On bounded weights every state at the head of the main loop satisfies the invariant. -/
theorem Reached.inv {g : Graph} {s : String} {ord : IterOrder} {k : Nat} {st : State}
    (hv : ord.Valid) (hb : Bounded g) (h : Reached g s ord k st) :
    Inv g s (fun _ _ => False) st := by
  induction h with
  | init => exact initState_inv g s ord hv hb
  | next _ hne hs ih => exact step_inv g s ord hv hb _ _ _ ih hne hs

/-- Under the invariant the source keeps distance `0` and an empty predecessor. -/
theorem Inv.source {g : Graph} {s : String} {pend : String → String × Int → Prop} {st : State}
    (hi : Inv g s pend st) :
    st.dist s = some 0 ∧ getPrev st.prev s = "" ∧ (st.prev s = some "" ∨ st.prev s = none) := by
  refine ⟨hi.src, ?_, ?_⟩
  · unfold getPrev
    by_cases hk : s ∈ keys g
    · rw [hi.prevNone s hk (Or.inl rfl)]; rfl
    · rw [hi.prevSrc hk]; rfl
  · by_cases hk : s ∈ keys g
    · exact Or.inl (hi.prevNone s hk (Or.inl rfl))
    · exact Or.inr (hi.prevSrc hk)

/-- On bounded weights the invariant holds after every relaxation of the inner loop. -/
theorem Reached.inv_inner {g : Graph} {s : String} {ord : IterOrder} {k : Nat} {st : State}
    (hv : ord.Valid) (hb : Bounded g) (h : Reached g s ord k st) (it : item)
    (q : priorityQueue) (hpop : heapPop st.queue = some (it, q)) (l : List (String × Int))
    (hl : l <+: ord.adj k (adjOf g it.value)) :
    Inv g s (fun x e1 => x = it.value ∧ e1 ∉ l)
      (l.foldl (relax it.value) { st with queue := q }) := by
  have hi := h.inv hv hb
  have hne : st.queue ≠ [] := by
    intro h0
    rw [h0] at hpop
    exact Option.noConfusion hpop
  obtain ⟨it1, q1, h1, h2⟩ := heapPop_perm st.queue hne
  rw [hpop] at h1
  obtain ⟨rfl, rfl⟩ : it = it1 ∧ q = q1 := by simpa using h1
  apply foldl_relax_induct it.value
    (fun s' seen => Inv g s (fun x e1 => x = it.value ∧ e1 ∉ seen) s')
  · exact hi.pop it q h2
  · intro s' seen e hs' he
    exact relax_inv g s it.value seen s' e hb ((hv.2 k _).mem_iff.mp (hl.subset he)) hs'

/-- C3, amended: on a graph whose weights lie between `0` and `2^63 - 2^31`, for every source
and every iteration order, `Dijkstra` returns, `distances[source]` is `0` and
`predecessors[source]` is the empty string or has no entry; the same holds at every head of the
main loop and after every relaxation of the inner loop, so no relaxation overwrites the
distance or the predecessor of the source. -/
theorem C3_source_entry (g : Graph) (s : String) (ord : IterOrder) (hv : ord.Valid)
    (hb : Bounded g) :
    (∃ n r, Dijkstra g s ord n = some r) ∧
    (∀ n r, Dijkstra g s ord n = some r →
      r.1 s = some 0 ∧ getPrev r.2 s = "" ∧ (r.2 s = some "" ∨ r.2 s = none)) ∧
    (∀ k st, Reached g s ord k st →
      st.dist s = some 0 ∧ getPrev st.prev s = "" ∧ (st.prev s = some "" ∨ st.prev s = none)) ∧
    (∀ k st it q l, Reached g s ord k st → heapPop st.queue = some (it, q) →
      l <+: ord.adj k (adjOf g it.value) →
      (l.foldl (relax it.value) { st with queue := q }).dist s = some 0 ∧
      getPrev (l.foldl (relax it.value) { st with queue := q }).prev s = "" ∧
      ((l.foldl (relax it.value) { st with queue := q }).prev s = some "" ∨
        (l.foldl (relax it.value) { st with queue := q }).prev s = none)) := by
  refine ⟨Dijkstra_terminates g s ord hv, ?_, ?_, ?_⟩
  · intro n r h
    obtain ⟨st, hi, _, rfl⟩ := Dijkstra_final g s ord hv hb n r h
    exact hi.source
  · intro k st h
    exact (h.inv hv hb).source
  · intro k st it q l h hpop hl
    exact (h.inv_inner hv hb it q hpop l hl).source

/-- Witness of C3: the graph of `main`, which has a cycle `C → D → C`, with source `"C"`. -/
theorem C3_witness :
    idOrder.Valid ∧ Bounded mainGraph ∧
    ((∃ n r, Dijkstra mainGraph "C" idOrder n = some r) ∧
    (∀ n r, Dijkstra mainGraph "C" idOrder n = some r →
      r.1 "C" = some 0 ∧ getPrev r.2 "C" = "" ∧ (r.2 "C" = some "" ∨ r.2 "C" = none)) ∧
    (∀ k st, Reached mainGraph "C" idOrder k st →
      st.dist "C" = some 0 ∧ getPrev st.prev "C" = "" ∧
        (st.prev "C" = some "" ∨ st.prev "C" = none)) ∧
    (∀ k st it q l, Reached mainGraph "C" idOrder k st → heapPop st.queue = some (it, q) →
      l <+: idOrder.adj k (adjOf mainGraph it.value) →
      (l.foldl (relax it.value) { st with queue := q }).dist "C" = some 0 ∧
      getPrev (l.foldl (relax it.value) { st with queue := q }).prev "C" = "" ∧
      ((l.foldl (relax it.value) { st with queue := q }).prev "C" = some "" ∨
        (l.foldl (relax it.value) { st with queue := q }).prev "C" = none))) :=
  ⟨idOrder_valid, by decide, C3_source_entry mainGraph "C" idOrder idOrder_valid (by decide)⟩

/-! ## The bounds checks of `heap.Pop` -/

theorem index_of_lt (pq : priorityQueue) (i : Nat) (h : i < pq.length) :
    index pq (i : Int) = some (pq.getD i default) := by
  unfold index
  have h1 : (0 : Int) ≤ (i : Int) ∧ (i : Int) < (pq.length : Int) := ⟨by omega, by omega⟩
  rw [if_pos h1]
  simp [List.getElem?_eq_getElem h]

theorem LessChecked_of_lt (pq : priorityQueue) (i j : Nat) (hi : i < pq.length)
    (hj : j < pq.length) : LessChecked pq (i : Int) (j : Int) = some (Less pq i j) := by
  unfold LessChecked
  rw [index_of_lt pq i hi, index_of_lt pq j hj]
  rfl

theorem SwapChecked_of_lt (pq : priorityQueue) (i j : Nat) (hi : i < pq.length)
    (hj : j < pq.length) : SwapChecked pq (i : Int) (j : Int) = some (Swap pq i j) := by
  unfold SwapChecked
  rw [index_of_lt pq i hi, index_of_lt pq j hj]
  simp [Swap]

theorem downLoopChecked_succ (fuel : Nat) (pq : priorityQueue) (i n : Int) :
    downLoopChecked (fuel + 1) pq i n =
      if 2 * i + 1 ≥ n ∨ 2 * i + 1 < 0 then some pq
      else
        match (if 2 * i + 1 + 1 < n then LessChecked pq (2 * i + 1 + 1) (2 * i + 1)
            else some false) with
        | none => none
        | some c =>
          match LessChecked pq (if c then 2 * i + 1 + 1 else 2 * i + 1) i with
          | none => none
          | some b =>
            if ¬ b then some pq
            else
              match SwapChecked pq i (if c then 2 * i + 1 + 1 else 2 * i + 1) with
              | none => none
              | some pq1 => downLoopChecked fuel pq1 (if c then 2 * i + 1 + 1 else 2 * i + 1) n :=
  rfl

/-- Within the first `n` entries of the queue no index expression of `heap.down` is out of
range, and the bounds-checked loop computes what `downLoop` computes. -/
theorem downLoopChecked_eq (fuel : Nat) : ∀ (pq : priorityQueue) (i n : Nat), n ≤ pq.length →
    (i < n ∨ n = 0) →
    downLoopChecked fuel pq (i : Int) (n : Int) = some (downLoop fuel pq i n) := by
  induction fuel with
  | zero => intro pq i n _ _; rfl
  | succ f ih =>
    intro pq i n hn hi
    rw [downLoopChecked_succ, downLoop_succ]
    by_cases hb : 2 * i + 1 ≥ n
    · have hb' : 2 * (i : Int) + 1 ≥ (n : Int) ∨ 2 * (i : Int) + 1 < 0 := Or.inl (by omega)
      rw [if_pos hb', if_pos hb]
    · have hb' : ¬ (2 * (i : Int) + 1 ≥ (n : Int) ∨ 2 * (i : Int) + 1 < 0) := by omega
      rw [if_neg hb', if_neg hb]
      have hin : i < n := by omega
      have e1 : (2 * (i : Int) + 1) = ((2 * i + 1 : Nat) : Int) := by push_cast; ring
      have e2 : (2 * (i : Int) + 1 + 1) = ((2 * i + 1 + 1 : Nat) : Int) := by push_cast; ring
      have hc : (if 2 * (i : Int) + 1 + 1 < (n : Int)
            then LessChecked pq (2 * (i : Int) + 1 + 1) (2 * (i : Int) + 1) else some false) =
          some (decide (2 * i + 1 + 1 < n ∧ Less pq (2 * i + 1 + 1) (2 * i + 1) = true)) := by
        by_cases h2 : 2 * i + 1 + 1 < n
        · have h2' : 2 * (i : Int) + 1 + 1 < (n : Int) := by omega
          rw [if_pos h2', e2, e1, LessChecked_of_lt pq _ _ (by omega) (by omega)]
          simp [h2]
        · have h2' : ¬ 2 * (i : Int) + 1 + 1 < (n : Int) := by omega
          rw [if_neg h2']
          simp [h2]
      rw [hc]
      simp only
      obtain ⟨hj, hjn⟩ := down_child pq i n hb
      have hjc : (if decide (2 * i + 1 + 1 < n ∧ Less pq (2 * i + 1 + 1) (2 * i + 1) = true) = true
            then 2 * (i : Int) + 1 + 1 else 2 * (i : Int) + 1) =
          (((if 2 * i + 1 + 1 < n ∧ Less pq (2 * i + 1 + 1) (2 * i + 1) = true
            then 2 * i + 1 + 1 else 2 * i + 1 : Nat)) : Int) := by
        by_cases hq : 2 * i + 1 + 1 < n ∧ Less pq (2 * i + 1 + 1) (2 * i + 1) = true
        · simp only [hq, and_self, decide_True, if_true]; push_cast; ring
        · simp only [hq, decide_False, if_false]; push_cast; ring
      rw [hjc]
      generalize (if 2 * i + 1 + 1 < n ∧ Less pq (2 * i + 1 + 1) (2 * i + 1) = true
        then 2 * i + 1 + 1 else 2 * i + 1) = j at hj hjn ⊢
      rw [LessChecked_of_lt pq j i (by omega) (by omega)]
      simp only
      by_cases hl : Less pq j i = true
      · simp only [if_neg (not_not.mpr hl)]
        rw [SwapChecked_of_lt pq i j (by omega) (by omega)]
        simp only
        exact ih _ _ _ (by rw [length_Swap]; exact hn) (Or.inl hjn)
      · simp only [if_pos hl]

/-- The bounds-checked `heap.Pop` agrees with `heapPop`: the only index expression that can be
out of range is the one of `h.Swap(0, -1)` on the empty queue. -/
theorem heapPopChecked_eq (pq : priorityQueue) : heapPopChecked pq = heapPop pq := by
  cases pq with
  | nil => rfl
  | cons x l =>
    have hlen : (Len (x :: l) : Int) - 1 = ((l.length : Nat) : Int) := by
      simp [Len]
    unfold heapPopChecked
    simp only [hlen, Int.toNat_ofNat]
    have h0 : SwapChecked (x :: l) 0 (l.length : Int) = some (Swap (x :: l) 0 l.length) := by
      have := SwapChecked_of_lt (x :: l) 0 l.length (by simp) (by simp)
      simpa using this
    rw [h0]
    simp only
    have h1 := downLoopChecked_eq l.length (Swap (x :: l) 0 l.length) 0 l.length
      (by rw [length_Swap]; simp) (by omega)
    simp only [Nat.cast_zero] at h1
    rw [h1]
    simp [heapPop, Len, down]

/-! ## The states of a run -/

theorem stateAfter_succ (g : Graph) (s : String) (ord : IterOrder) (k : Nat) :
    stateAfter g s ord (k + 1) =
      match stateAfter g s ord k with
      | none => none
      | some st => if Len st.queue > 0 then step g ord k st else none := rfl

theorem stateAfter_reached (g : Graph) (s : String) (ord : IterOrder) :
    ∀ (k : Nat) (st : State), stateAfter g s ord k = some st → Reached g s ord k st := by
  intro k
  induction k with
  | zero =>
    intro st h
    have : initState g s ord = st := Option.some.inj h
    subst this
    exact Reached.init
  | succ k ih =>
    intro st h
    rw [stateAfter_succ] at h
    cases h0 : stateAfter g s ord k with
    | none => rw [h0] at h; exact Option.noConfusion h
    | some st0 =>
      rw [h0] at h
      simp only at h
      by_cases hq : Len st0.queue > 0
      · rw [if_pos hq] at h
        exact Reached.next (ih st0 h0) (List.length_pos.mp hq) h
      · rw [if_neg hq] at h
        exact Option.noConfusion h

theorem Reached.stateAfter_eq {g : Graph} {s : String} {ord : IterOrder} {k : Nat} {st : State}
    (h : Reached g s ord k st) : stateAfter g s ord k = some st := by
  induction h with
  | init => rfl
  | next _ hne hs ih =>
    rw [stateAfter_succ, ih]
    simp only
    have hq : Len _ > 0 := List.length_pos.mpr hne
    rw [if_pos hq]
    exact hs

/-- A run has one state per iteration number. -/
theorem Reached.unique {g : Graph} {s : String} {ord : IterOrder} {k : Nat} {st1 st2 : State}
    (h1 : Reached g s ord k st1) (h2 : Reached g s ord k st2) : st1 = st2 := by
  have e1 := h1.stateAfter_eq
  rw [h2.stateAfter_eq] at e1
  exact (Option.some.inj e1).symm

/-- The state in which the main loop exits is a state of the run, with an empty queue. -/
theorem mainLoop_reached (g : Graph) (s : String) (ord : IterOrder) :
    ∀ (fuel k : Nat) (st r : State), Reached g s ord k st →
      mainLoop g ord fuel k st = some r → ∃ k1, k ≤ k1 ∧ Reached g s ord k1 r ∧ r.queue = [] := by
  intro fuel
  induction fuel with
  | zero =>
    intro k st r hr h
    rw [mainLoop_zero] at h
    by_cases hq : Len st.queue > 0
    · simp [hq] at h
    · simp only [hq, if_false, Option.some.injEq] at h
      subst h
      exact ⟨k, le_refl _, hr, List.length_eq_zero.mp (by unfold Len at hq; omega)⟩
  | succ f ih =>
    intro k st r hr h
    rw [mainLoop_succ] at h
    by_cases hq : Len st.queue > 0
    · simp only [hq, if_true] at h
      cases hst : step g ord k st with
      | none => rw [hst] at h; exact Option.noConfusion h
      | some st1 =>
        rw [hst] at h
        obtain ⟨k1, hk, h1, h2⟩ := ih _ _ _ (Reached.next hr (List.length_pos.mp hq) hst) h
        exact ⟨k1, by omega, h1, h2⟩
    · simp only [hq, if_false, Option.some.injEq] at h
      subst h
      exact ⟨k, le_refl _, hr, List.length_eq_zero.mp (by unfold Len at hq; omega)⟩

/-- The maps that `Dijkstra` returns are those of the state of the run whose queue is empty. -/
theorem Dijkstra_reached (g : Graph) (s : String) (ord : IterOrder) (n : Nat)
    (r : GoMap Int × GoMap String) (h : Dijkstra g s ord n = some r) :
    ∃ k st, Reached g s ord k st ∧ st.queue = [] ∧ r = (st.dist, st.prev) := by
  unfold Dijkstra at h
  cases e : mainLoop g ord n 0 (initState g s ord) with
  | none => rw [e] at h; exact Option.noConfusion h
  | some st =>
    rw [e] at h
    obtain ⟨k, _, h1, h2⟩ := mainLoop_reached g s ord n 0 _ st Reached.init e
    exact ⟨k, st, h1, h2, (Option.some.inj h).symm⟩

/-- Every recorded distance of every state of a run is a 64-bit `int`. -/
theorem Reached.range {g : Graph} {s : String} {ord : IterOrder} {k : Nat} {st : State}
    (hv : ord.Valid) (h : Reached g s ord k st) : InRange st.dist := by
  induction h with
  | init => exact initState_range g s ord hv
  | next _ hne hs ih => exact (step_measure g ord hv _ _ _ ih hne hs).1

/-- Every iteration of the main loop lowers the termination measure. -/
theorem Reached.measure_le {g : Graph} {s : String} {ord : IterOrder} {k : Nat} {st : State}
    (hv : ord.Valid) (h : Reached g s ord k st) :
    loopMeasure g st + k ≤ loopMeasure g (initState g s ord) := by
  induction h with
  | init => exact le_refl _
  | next hr hne hs ih =>
    have := (step_measure g ord hv _ _ _ (hr.range hv) hne hs).2
    omega

/-- The inner loop body either leaves the state alone or pushes one entry after strictly
lowering the distance of its vertex. -/
theorem relax_cases (u : String) (st : State) (e : String × Int) :
    relax u st e = st ∨
      ((relax u st e).queue = heapPush st.queue ⟨e.1, getDist (relax u st e).dist e.1⟩ ∧
        getDist (relax u st e).dist e.1 < getDist st.dist e.1) := by
  rw [relax_eq]
  by_cases hc : wrapInt (getDist st.dist u + e.2) < getDist st.dist e.1
  · right
    simp only [hc, if_true, getDist_mapSet]
    exact ⟨trivial, trivial⟩
  · left
    simp only [hc, if_false]

/-- C11: `heap.Pop` fails if and only if the queue is empty. On the empty queue the
bounds-checked index expressions of `h.Swap(0, -1)` panic and no entry is returned; on a
non-empty queue every index stays in range (the bounds-checked run agrees with `heapPop`) and
the entry returned is one of the entries of the queue. -/
theorem C11_pop_fails_iff_empty (pq : priorityQueue) :
    (heapPop pq = none ↔ pq = []) ∧ heapPopChecked pq = heapPop pq ∧
      SwapChecked [] 0 (-1) = none ∧
      (pq ≠ [] → ∃ it rest, heapPop pq = some (it, rest) ∧ it ∈ pq) := by
  refine ⟨heapPop_none pq, heapPopChecked_eq pq, rfl, ?_⟩
  intro hne
  obtain ⟨it, rest, h1, h2⟩ := heapPop_perm pq hne
  exact ⟨it, rest, h1, h2.mem_iff.mpr (List.mem_cons_self _ _)⟩

/-- Witness of C11 on a queue of two entries. -/
theorem C11_witness :
    ([⟨"B", 2⟩, ⟨"C", 3⟩] : priorityQueue) ≠ [] ∧
      ((heapPop [⟨"B", 2⟩, ⟨"C", 3⟩] = none ↔ ([⟨"B", 2⟩, ⟨"C", 3⟩] : priorityQueue) = []) ∧
      heapPopChecked [⟨"B", 2⟩, ⟨"C", 3⟩] = heapPop [⟨"B", 2⟩, ⟨"C", 3⟩] ∧
      SwapChecked [] 0 (-1) = none ∧
      (([⟨"B", 2⟩, ⟨"C", 3⟩] : priorityQueue) ≠ [] →
        ∃ it rest, heapPop [⟨"B", 2⟩, ⟨"C", 3⟩] = some (it, rest) ∧
          it ∈ ([⟨"B", 2⟩, ⟨"C", 3⟩] : priorityQueue))) :=
  ⟨by decide, C11_pop_fails_iff_empty [⟨"B", 2⟩, ⟨"C", 3⟩]⟩

/-- C13, evaluated on a graph with five vertices and source `"S"`: after three iterations of
the main loop the queue holds six entries, several of them for the same vertex. -/
theorem C13_queue_exceeds_vertex_count :
    (vertices fanGraph).length = 5 ∧
      (stateAfter fanGraph "S" idOrder 3).map (fun st => st.queue.map fun it => it.value) =
        some ["A", "B", "B", "B", "A", "A"] ∧
      ∃ st, Reached fanGraph "S" idOrder 3 st ∧ st.queue.length = 6 := by
  refine ⟨by decide, by decide, ?_⟩
  have h : (stateAfter fanGraph "S" idOrder 3).map (fun st => st.queue.length) = some 6 := by
    decide
  cases hs : stateAfter fanGraph "S" idOrder 3 with
  | none => rw [hs] at h; exact Option.noConfusion h
  | some st =>
    rw [hs] at h
    exact ⟨st, stateAfter_reached _ _ _ _ _ hs, Option.some.inj h⟩

/-- C16: for every graph with non-negative weights, every source and every iteration order,
`Dijkstra` returns: the main loop exits with an empty queue after `k` iterations, where `k` is
at most the initial value of the termination measure; every push follows a strict decrease of
the distance of the pushed vertex, and distances are bounded below by the least 64-bit
integer; and whenever the loop body runs, the queue is non-empty and `heap.Pop` succeeds. -/
theorem C16_terminates (g : Graph) (s : String) (ord : IterOrder) (hv : ord.Valid)
    (_hn : NonNeg g) :
    (∃ n r, Dijkstra g s ord n = some r) ∧
    (∀ n r, Dijkstra g s ord n = some r →
      ∃ k st, Reached g s ord k st ∧ st.queue = [] ∧ r = (st.dist, st.prev) ∧
        k ≤ loopMeasure g (initState g s ord)) ∧
    (∀ u st e, relax u st e = st ∨
      ((relax u st e).queue = heapPush st.queue ⟨e.1, getDist (relax u st e).dist e.1⟩ ∧
        getDist (relax u st e).dist e.1 < getDist st.dist e.1)) ∧
    (∀ k st, Reached g s ord k st → ∀ v, MinInt64 ≤ getDist st.dist v) ∧
    (∀ k st, Reached g s ord k st → st.queue ≠ [] →
      ∃ it q st1, heapPop st.queue = some (it, q) ∧ step g ord k st = some st1) := by
  refine ⟨Dijkstra_terminates g s ord hv, ?_, relax_cases, ?_, ?_⟩
  · intro n r h
    obtain ⟨k, st, h1, h2, h3⟩ := Dijkstra_reached g s ord n r h
    have := h1.measure_le hv
    exact ⟨k, st, h1, h2, h3, by omega⟩
  · intro k st h v
    exact (h.range hv v).1
  · intro k st _ hne
    obtain ⟨it, q, _, h2, h3⟩ := step_shape g ord k st hne
    exact ⟨it, q, _, h2, h3⟩

/-- Witness of C16: the graph of `main`. -/
theorem C16_witness :
    idOrder.Valid ∧ NonNeg mainGraph ∧
    ((∃ n r, Dijkstra mainGraph "A" idOrder n = some r) ∧
    (∀ n r, Dijkstra mainGraph "A" idOrder n = some r →
      ∃ k st, Reached mainGraph "A" idOrder k st ∧ st.queue = [] ∧ r = (st.dist, st.prev) ∧
        k ≤ loopMeasure mainGraph (initState mainGraph "A" idOrder)) ∧
    (∀ u st e, relax u st e = st ∨
      ((relax u st e).queue = heapPush st.queue ⟨e.1, getDist (relax u st e).dist e.1⟩ ∧
        getDist (relax u st e).dist e.1 < getDist st.dist e.1)) ∧
    (∀ k st, Reached mainGraph "A" idOrder k st → ∀ v, MinInt64 ≤ getDist st.dist v) ∧
    (∀ k st, Reached mainGraph "A" idOrder k st → st.queue ≠ [] →
      ∃ it q st1, heapPop st.queue = some (it, q) ∧ step mainGraph idOrder k st = some st1)) :=
  ⟨idOrder_valid, by decide, C16_terminates mainGraph "A" idOrder idOrder_valid (by decide)⟩

/-- C17: on the graph `{S:{A:1,B:1}, A:{T:1}, B:{T:1}, T:{}}` with source `"S"`, whose two paths
to `"T"` both have weight `2`, visiting the neighbours of `"S"` in the order `A, B` or in the
order `B, A` yields the same distance map but the predecessor `"A"`, respectively `"B"`, for
`"T"`: the entry pushed first among the two of priority `1` is popped first. -/
theorem C17_tie_decides_predecessor :
    NonNeg diamondGraph ∧ idOrder.Valid ∧ revOrder.Valid ∧
    idOrder.adj 0 (adjOf diamondGraph "S") = [("A", 1), ("B", 1)] ∧
    revOrder.adj 0 (adjOf diamondGraph "S") = [("B", 1), ("A", 1)] ∧
    ∃ r1 r2, Dijkstra diamondGraph "S" idOrder 4 = some r1 ∧
      Dijkstra diamondGraph "S" revOrder 4 = some r2 ∧ r1.1 = r2.1 ∧ r1.1 "T" = some 2 ∧
      r1.2 "T" = some "A" ∧ r2.2 "T" = some "B" ∧ r1.2 ≠ r2.2 := by
  refine ⟨by decide, idOrder_valid, revOrder_valid, by decide, by decide, ?_⟩
  have h1 : (Dijkstra diamondGraph "S" idOrder 4).map (fun r => (r.1 "T", r.2 "T")) =
      some (some 2, some "A") := by decide
  have h2 : (Dijkstra diamondGraph "S" revOrder 4).map (fun r => r.2 "T") = some (some "B") := by
    decide
  cases e1 : Dijkstra diamondGraph "S" idOrder 4 with
  | none => rw [e1] at h1; exact Option.noConfusion h1
  | some r1 =>
    cases e2 : Dijkstra diamondGraph "S" revOrder 4 with
    | none => rw [e2] at h2; exact Option.noConfusion h2
    | some r2 =>
      rw [e1] at h1
      rw [e2] at h2
      simp only [Option.map_some', Option.some.injEq, Prod.mk.injEq] at h1 h2
      refine ⟨r1, r2, rfl, rfl, ?_, h1.1, h1.2, h2, ?_⟩
      · exact Dijkstra_dist_unique diamondGraph "S" idOrder revOrder idOrder_valid
          revOrder_valid (by decide) 4 4 r1 r2 e1 e2
      · intro h
        have := congrFun h "T"
        rw [h1.2, h2] at this
        exact absurd this (by decide)

/-! ## The invariant on the queue -/

theorem Queued_of_mem {pq : priorityQueue} {it : item} (h : it ∈ pq) : Queued pq it.value :=
  ⟨it, h, rfl⟩

/-- The body of the inner loop preserves the invariant on the queue and discharges the visited
edge. -/
theorem relax_queueInv (g : Graph) (u : String) (seen : List (String × Int)) (st : State)
    (e : String × Int) (hi : QueueInv g (fun x e1 => x = u ∧ e1 ∉ seen) st) :
    QueueInv g (fun x e1 => x = u ∧ e1 ∉ seen ++ [e]) (relax u st e) := by
  rw [relax_eq]
  by_cases hc : wrapInt (getDist st.dist u + e.2) < getDist st.dist e.1
  · simp only [hc, if_true]
    have hgd : ∀ x, getDist (mapSet st.dist e.1 (wrapInt (getDist st.dist u + e.2))) x =
        if x = e.1 then wrapInt (getDist st.dist u + e.2) else getDist st.dist x :=
      fun x => getDist_mapSet _ _ _ x
    have hle : ∀ x, getDist (mapSet st.dist e.1 (wrapInt (getDist st.dist u + e.2))) x ≤
        getDist st.dist x := by
      intro x
      rw [hgd]
      split_ifs with hx
      · subst hx; omega
      · exact le_refl _
    refine ⟨heapPush_heap _ _ hi.heap, ?_, ?_⟩
    · intro it hit
      show getDist (mapSet st.dist e.1 _) it.value ≤ it.priority
      rcases (mem_heapPush _ _ _).mp hit with h | h
      · subst h
        rw [hgd]
        simp only [if_true]
        exact le_refl _
      · exact le_trans (hle _) (hi.above it h)
    · intro x hx
      show (⟨x, getDist (mapSet st.dist e.1 _) x⟩ : item) ∈ heapPush st.queue _ ∨ _
      by_cases hxv : x = e.1
      · left
        rw [hgd, if_pos hxv, hxv]
        exact (mem_heapPush _ _ _).mpr (Or.inl rfl)
      · have hxx : getDist (mapSet st.dist e.1 (wrapInt (getDist st.dist u + e.2))) x =
            getDist st.dist x := by rw [hgd, if_neg hxv]
        rw [hxx]
        have hq : Queued st.queue x := by
          rcases (Queued_heapPush _ _ _).mp hx with h | h
          · exact absurd h.symm hxv
          · exact h
        rcases hi.fresh x hq with hf | hall
        · left
          exact (mem_heapPush _ _ _).mpr (Or.inr hf)
        · right
          intro e1 he1
          show _ ∨ getDist (mapSet st.dist e.1 _) e1.1 ≤ _
          rcases hall e1 he1 with ⟨hxu, hns⟩ | hold
          · by_cases hee : e1 = e
            · right
              subst hee
              subst hxu
              rw [hgd]
              simp only [if_true]
              exact le_refl _
            · left
              refine ⟨hxu, ?_⟩
              simp only [List.mem_append, List.mem_singleton, not_or]
              exact ⟨hns, hee⟩
          · right
            exact le_trans (hle e1.1) hold
  · simp only [hc, if_false]
    refine ⟨hi.heap, hi.above, ?_⟩
    intro x hx
    rcases hi.fresh x hx with hf | hall
    · exact Or.inl hf
    · right
      intro e1 he1
      rcases hall e1 he1 with ⟨hxu, hns⟩ | hold
      · by_cases hee : e1 = e
        · right
          subst hee
          subst hxu
          omega
        · left
          refine ⟨hxu, ?_⟩
          simp only [List.mem_append, List.mem_singleton, not_or]
          exact ⟨hns, hee⟩
      · exact Or.inr hold

/-- Relaxing edges that are already relaxed at the current distance changes nothing. -/
theorem foldl_relax_clean (u : String) (l : List (String × Int)) (st : State)
    (h : ∀ e ∈ l, getDist st.dist e.1 ≤ wrapInt (getDist st.dist u + e.2)) :
    l.foldl (relax u) st = st := by
  induction l with
  | nil => rfl
  | cons e l ih =>
    have he := h e (List.mem_cons_self _ _)
    have hr : relax u st e = st := by
      rw [relax_eq, if_neg (by omega)]
    rw [List.foldl_cons, hr]
    exact ih (fun e1 h1 => h e1 (List.mem_cons_of_mem _ h1))

/-- A popped entry whose priority differs from the current distance of its vertex is stale:
all edges of the vertex are already relaxed at its current distance. -/
theorem QueueInv.stale_clean {g : Graph} {st : State} (hi : QueueInv g (fun _ _ => False) st)
    (it : item) (q : priorityQueue) (hpop : heapPop st.queue = some (it, q))
    (hst : it.priority ≠ getDist st.dist it.value) :
    ∀ e ∈ adjOf g it.value,
      getDist st.dist e.1 ≤ wrapInt (getDist st.dist it.value + e.2) := by
  have hne : st.queue ≠ [] := by
    intro h0
    rw [h0] at hpop
    exact Option.noConfusion hpop
  obtain ⟨it1, q1, h1, hmin, hperm, _, _⟩ := heapPop_heap st.queue hne hi.heap
  rw [hpop] at h1
  obtain ⟨rfl, rfl⟩ : it = it1 ∧ q = q1 := by simpa using h1
  have hmem : it ∈ st.queue := hperm.mem_iff.mpr (List.mem_cons_self _ _)
  have habove := hi.above it hmem
  rcases hi.fresh it.value (Queued_of_mem hmem) with hf | hall
  · have := hmin _ hf
    simp only at this
    omega
  · intro e he
    rcases hall e he with hf | hle
    · exact absurd hf id
    · exact hle

/-- Popping an entry keeps the invariant on the queue, with every edge of the popped vertex
pending. -/
theorem QueueInv.popped {g : Graph} {st : State} (hi : QueueInv g (fun _ _ => False) st)
    (it : item) (q : priorityQueue) (hpop : heapPop st.queue = some (it, q)) :
    QueueInv g (fun x e1 => x = it.value ∧ e1 ∉ ([] : List (String × Int)))
      { st with queue := q } := by
  have hne : st.queue ≠ [] := by
    intro h0
    rw [h0] at hpop
    exact Option.noConfusion hpop
  obtain ⟨it1, q1, h1, _, hperm, _, hheap⟩ := heapPop_heap st.queue hne hi.heap
  rw [hpop] at h1
  obtain ⟨rfl, rfl⟩ : it = it1 ∧ q = q1 := by simpa using h1
  refine ⟨hheap, ?_, ?_⟩
  · intro x hx
    exact hi.above x (hperm.mem_iff.mpr (List.mem_cons_of_mem _ hx))
  · intro x hx
    by_cases hxu : x = it.value
    · right
      intro e1 _
      exact Or.inl ⟨hxu, List.not_mem_nil _⟩
    · obtain ⟨y, hy, hyx⟩ := hx
      have hq : Queued st.queue x := ⟨y, hperm.mem_iff.mpr (List.mem_cons_of_mem _ hy), hyx⟩
      rcases hi.fresh x hq with hf | hall
      · left
        rcases List.mem_cons.mp (hperm.mem_iff.mp hf) with h2 | h2
        · exact absurd (congrArg item.value h2) hxu
        · exact h2
      · right
        intro e1 he1
        rcases hall e1 he1 with hf | hle
        · exact absurd hf id
        · exact Or.inr hle

/-- One iteration of the main loop preserves the invariant on the queue. -/
theorem step_queueInv (g : Graph) (ord : IterOrder) (hv : ord.Valid) (k : Nat) (st st1 : State)
    (hi : QueueInv g (fun _ _ => False) st) (hne : st.queue ≠ [])
    (h : step g ord k st = some st1) : QueueInv g (fun _ _ => False) st1 := by
  obtain ⟨it, q, _, hpop, hs⟩ := step_shape g ord k st hne
  rw [hs] at h
  have h := Option.some.inj h
  subst h
  have hfold := foldl_relax_induct it.value
    (fun s' seen => QueueInv g (fun x e1 => x = it.value ∧ e1 ∉ seen) s')
    (ord.adj k (adjOf g it.value)) { st with queue := q } (hi.popped it q hpop)
    (fun s' seen e hs' _ => relax_queueInv g it.value seen s' e hs')
  refine ⟨hfold.heap, hfold.above, ?_⟩
  intro x hx
  rcases hfold.fresh x hx with hf | hall
  · exact Or.inl hf
  · right
    intro e1 he1
    rcases hall e1 he1 with ⟨hxu, hns⟩ | hle
    · exact absurd ((hv.2 k _).mem_iff.mpr (hxu ▸ he1)) hns
    · exact Or.inr hle

theorem initState_queueInv (g : Graph) (s : String) (ord : IterOrder) (hv : ord.Valid) :
    QueueInv g (fun _ _ => False) (initState g s ord) := by
  have hq := initState_queue g s ord
  have hd : getDist (initState g s ord).dist s = 0 := by
    unfold getDist
    rw [initState_dist g s ord hv]
    simp
  refine ⟨?_, ?_, ?_⟩
  · rw [hq]
    intro i hi
    have : i = 0 := by simpa using hi
    subst this
    exact le_refl _
  · intro it hit
    rw [hq] at hit
    rw [List.mem_singleton.mp hit]
    simp only [hd]
    exact le_refl _
  · intro x hx
    left
    rw [hq] at hx ⊢
    obtain ⟨y, hy, hyx⟩ := hx
    rw [List.mem_singleton.mp hy] at hyx
    simp only at hyx
    subst hyx
    rw [hd]
    exact List.mem_singleton.mpr rfl

/-- Every state of a run satisfies the invariant on the queue. -/
theorem Reached.queueInv {g : Graph} {s : String} {ord : IterOrder} {k : Nat} {st : State}
    (hv : ord.Valid) (h : Reached g s ord k st) : QueueInv g (fun _ _ => False) st := by
  induction h with
  | init => exact initState_queueInv g s ord hv
  | next _ hne hs ih => exact step_queueInv g ord hv _ _ _ ih hne hs

/-! ## The settled-check variant -/

/-- On a state that satisfies the invariant on the queue the settled-check changes nothing:
the entries it skips are those whose processing would relax no edge. -/
theorem stepSettled_eq (g : Graph) (ord : IterOrder) (hv : ord.Valid) (k : Nat) (st : State)
    (hi : QueueInv g (fun _ _ => False) st) : stepSettled g ord k st = step g ord k st := by
  unfold stepSettled step
  cases hpop : heapPop st.queue with
  | none => rfl
  | some p =>
    obtain ⟨it, q⟩ := p
    simp only
    by_cases hst : it.priority ≠ getDist st.dist it.value
    · rw [if_pos hst]
      have hclean := hi.stale_clean it q hpop hst
      have := foldl_relax_clean it.value (ord.adj k (adjOf g it.value)) { st with queue := q }
        (fun e he => hclean e ((hv.2 k _).mem_iff.mp he))
      rw [this]
    · rw [if_neg hst]

theorem mainLoopSettled_eq (g : Graph) (ord : IterOrder) (hv : ord.Valid) :
    ∀ (fuel k : Nat) (st : State), QueueInv g (fun _ _ => False) st →
      mainLoopSettled g ord fuel k st = mainLoop g ord fuel k st := by
  intro fuel
  induction fuel with
  | zero => intro k st _; rfl
  | succ f ih =>
    intro k st hi
    rw [mainLoop_succ]
    show (if Len st.queue > 0 then
        match stepSettled g ord k st with
        | none => none
        | some st1 => mainLoopSettled g ord f (k + 1) st1
      else some st) = _
    rw [stepSettled_eq g ord hv k st hi]
    by_cases hq : Len st.queue > 0
    · simp only [hq, if_true]
      cases hs : step g ord k st with
      | none => rfl
      | some st1 =>
        simp only
        exact ih _ _ (step_queueInv g ord hv k st st1 hi (List.length_pos.mp hq) hs)
    · simp only [hq, if_false]

/-- The variant with the settled-check computes what `Dijkstra` computes, for every iteration
budget and whatever the weights. -/
theorem DijkstraSettled_eq (g : Graph) (s : String) (ord : IterOrder) (hv : ord.Valid)
    (n : Nat) : DijkstraSettled g s ord n = Dijkstra g s ord n := by
  unfold DijkstraSettled Dijkstra
  rw [mainLoopSettled_eq g ord hv n 0 _ (initState_queueInv g s ord hv)]

/-- C12: for every graph with non-negative weights, every source and every iteration order
used by both, the variant of `Dijkstra` that skips a popped entry whose priority differs from
the current distance of its vertex returns, and returns the same distance map and the same
predecessor map as `Dijkstra`. -/
theorem C12_settled_check_refines (g : Graph) (s : String) (ord : IterOrder) (hv : ord.Valid)
    (_hn : NonNeg g) :
    (∃ n r, DijkstraSettled g s ord n = some r) ∧
    (∃ n r, Dijkstra g s ord n = some r) ∧
    (∀ n m r1 r2, DijkstraSettled g s ord n = some r1 → Dijkstra g s ord m = some r2 →
      r1.1 = r2.1 ∧ r1.2 = r2.2) ∧
    ∀ n, DijkstraSettled g s ord n = Dijkstra g s ord n := by
  obtain ⟨n, r, h⟩ := Dijkstra_terminates g s ord hv
  refine ⟨⟨n, r, by rw [DijkstraSettled_eq g s ord hv]; exact h⟩, ⟨n, r, h⟩, ?_,
    DijkstraSettled_eq g s ord hv⟩
  intro n m r1 r2 h1 h2
  rw [DijkstraSettled_eq g s ord hv] at h1
  have := Dijkstra_fuel_unique g s ord n m r1 r2 h1 h2
  subst this
  exact ⟨rfl, rfl⟩

/-- Witness of C12: the graph with five vertices on which `Dijkstra` pops stale entries. -/
theorem C12_witness :
    idOrder.Valid ∧ NonNeg fanGraph ∧
    ((∃ n r, DijkstraSettled fanGraph "S" idOrder n = some r) ∧
    (∃ n r, Dijkstra fanGraph "S" idOrder n = some r) ∧
    (∀ n m r1 r2, DijkstraSettled fanGraph "S" idOrder n = some r1 →
      Dijkstra fanGraph "S" idOrder m = some r2 → r1.1 = r2.1 ∧ r1.2 = r2.2) ∧
    ∀ n, DijkstraSettled fanGraph "S" idOrder n = Dijkstra fanGraph "S" idOrder n) :=
  ⟨idOrder_valid, by decide, C12_settled_check_refines fanGraph "S" idOrder idOrder_valid
    (by decide)⟩

/-! ## The sequence of popped entries -/

theorem relax_dist_le (u : String) (st : State) (e : String × Int) (v : String) :
    getDist (relax u st e).dist v ≤ getDist st.dist v := by
  rw [relax_eq]
  by_cases hc : wrapInt (getDist st.dist u + e.2) < getDist st.dist e.1
  · simp only [hc, if_true, getDist_mapSet]
    split_ifs with hx
    · subst hx; omega
    · exact le_refl _
  · simp only [hc, if_false]
    exact le_refl _

/-- Recorded distances never increase during an iteration of the main loop. -/
theorem step_dist_le (g : Graph) (ord : IterOrder) (k : Nat) (st st1 : State)
    (hne : st.queue ≠ []) (h : step g ord k st = some st1) (v : String) :
    getDist st1.dist v ≤ getDist st.dist v := by
  obtain ⟨it, q, _, _, hs⟩ := step_shape g ord k st hne
  rw [hs] at h
  have h := Option.some.inj h
  subst h
  exact foldl_relax_induct it.value (fun s' _ => getDist s'.dist v ≤ getDist st.dist v)
    (ord.adj k (adjOf g it.value)) { st with queue := q } (le_refl _)
    (fun s' _ e hs' _ => le_trans (relax_dist_le it.value s' e v) hs')

/-- Recorded distances never increase along a run. -/
theorem Reached.dist_mono {g : Graph} {s : String} {ord : IterOrder} {k k1 : Nat}
    {st st1 : State} (h : Reached g s ord k st) (h1 : Reached g s ord k1 st1) (hk : k ≤ k1)
    (v : String) : getDist st1.dist v ≤ getDist st.dist v := by
  induction h1 with
  | init =>
    have : k = 0 := by omega
    subst this
    rw [h.unique Reached.init]
  | next hr hne hs ih =>
    rename_i j stj stj1
    by_cases he : k = j + 1
    · subst he
      rw [h.unique (Reached.next hr hne hs)]
    · exact le_trans (step_dist_le g ord j stj stj1 hne hs v) (ih (by omega))

/-- A state of the run that has a successor has a non-empty queue and steps to it. -/
theorem stateAfter_pred (g : Graph) (s : String) (ord : IterOrder) (k : Nat) (st1 : State)
    (h : stateAfter g s ord (k + 1) = some st1) :
    ∃ st, stateAfter g s ord k = some st ∧ st.queue ≠ [] ∧ step g ord k st = some st1 := by
  rw [stateAfter_succ] at h
  cases h0 : stateAfter g s ord k with
  | none => rw [h0] at h; exact Option.noConfusion h
  | some st =>
    rw [h0] at h
    simp only at h
    by_cases hq : Len st.queue > 0
    · rw [if_pos hq] at h
      exact ⟨st, rfl, List.length_pos.mp hq, h⟩
    · rw [if_neg hq] at h
      exact Option.noConfusion h

/-- The run has no state after the one whose queue is empty. -/
theorem stateAfter_none_after (g : Graph) (s : String) (ord : IterOrder) (k : Nat) (st : State)
    (h : stateAfter g s ord k = some st) (hq : st.queue = []) :
    ∀ j, k < j → stateAfter g s ord j = none := by
  intro j hj
  induction j with
  | zero => omega
  | succ j ih =>
    cases hs : stateAfter g s ord (j + 1) with
    | none => rfl
    | some st1 =>
      obtain ⟨stj, h1, h2, _⟩ := stateAfter_pred g s ord j st1 hs
      by_cases he : k = j
      · subst he
        rw [h] at h1
        have := Option.some.inj h1
        subst this
        exact absurd hq h2
      · rw [ih (by omega)] at h1
        exact Option.noConfusion h1

theorem poppedAt_some (g : Graph) (s : String) (ord : IterOrder) (k : Nat) (a : item)
    (h : poppedAt g s ord k = some a) :
    ∃ st q, Reached g s ord k st ∧ heapPop st.queue = some (a, q) ∧ a ∈ st.queue := by
  unfold poppedAt at h
  cases hs : stateAfter g s ord k with
  | none => rw [hs] at h; exact Option.noConfusion h
  | some st =>
    rw [hs] at h
    simp only at h
    cases hp : heapPop st.queue with
    | none => rw [hp] at h; exact Option.noConfusion h
    | some p =>
      obtain ⟨it, q⟩ := p
      rw [hp] at h
      have : it = a := by simpa using h
      subst this
      have hne : st.queue ≠ [] := by
        intro h0
        rw [h0] at hp
        exact Option.noConfusion hp
      obtain ⟨it1, q1, h1, h2⟩ := heapPop_perm st.queue hne
      rw [hp] at h1
      obtain ⟨rfl, rfl⟩ : it = it1 ∧ q = q1 := by simpa using h1
      exact ⟨st, q, stateAfter_reached g s ord k st hs, hp,
        h2.mem_iff.mpr (List.mem_cons_self _ _)⟩

/-- Every popped priority is at least the distance that the run finally returns for the popped
vertex; this holds for all weights. -/
theorem popped_ge_final (g : Graph) (s : String) (ord : IterOrder) (hv : ord.Valid) (k : Nat)
    (a : item) (h : poppedAt g s ord k = some a) (n : Nat) (r : GoMap Int × GoMap String)
    (hr : Dijkstra g s ord n = some r) : getDist r.1 a.value ≤ a.priority := by
  obtain ⟨st, q, h1, _, h3⟩ := poppedAt_some g s ord k a h
  obtain ⟨k1, st1, f1, f2, rfl⟩ := Dijkstra_reached g s ord n r hr
  have hk : k ≤ k1 := by
    by_contra hlt
    have := stateAfter_none_after g s ord k1 st1 f1.stateAfter_eq f2 k (by omega)
    rw [h1.stateAfter_eq] at this
    exact Option.noConfusion this
  exact le_trans (h1.dist_mono f1 hk a.value) ((h1.queueInv hv).above a h3)

/-- On bounded weights no entry of the queue after an iteration lies below the entry popped in
that iteration. -/
theorem step_floor (g : Graph) (s : String) (ord : IterOrder) (hv : ord.Valid) (hb : Bounded g)
    (k : Nat) (st st1 : State) (hr : Reached g s ord k st) (it : item) (q : priorityQueue)
    (hpop : heapPop st.queue = some (it, q)) (h : step g ord k st = some st1) :
    ∀ x ∈ st1.queue, it.priority ≤ x.priority := by
  have hqi := hr.queueInv hv
  have hi := hr.inv hv hb
  have hne : st.queue ≠ [] := by
    intro h0
    rw [h0] at hpop
    exact Option.noConfusion hpop
  obtain ⟨it1, q1, h1, hmin, hperm, _, _⟩ := heapPop_heap st.queue hne hqi.heap
  rw [hpop] at h1
  obtain ⟨rfl, rfl⟩ : it = it1 ∧ q = q1 := by simpa using h1
  have hq : ∀ x ∈ q, it.priority ≤ x.priority :=
    fun x hx => hmin x (hperm.mem_iff.mpr (List.mem_cons_of_mem _ hx))
  have hs : step g ord k st =
      some ((ord.adj k (adjOf g it.value)).foldl (relax it.value) { st with queue := q }) := by
    unfold step
    rw [hpop]
  rw [hs] at h
  have h := Option.some.inj h
  subst h
  by_cases hst : it.priority ≠ getDist st.dist it.value
  · have hclean := hqi.stale_clean it q hpop hst
    rw [foldl_relax_clean it.value (ord.adj k (adjOf g it.value)) { st with queue := q }
      (fun e he => hclean e ((hv.2 k _).mem_iff.mp he))]
    exact hq
  · have hfresh : it.priority = getDist st.dist it.value := not_not.mp hst
    have hfold := foldl_relax_induct it.value
      (fun s' seen => Inv g s (fun x e1 => x = it.value ∧ e1 ∉ seen) s' ∧
        (∀ x ∈ s'.queue, it.priority ≤ x.priority) ∧
        getDist s'.dist it.value = it.priority)
      (ord.adj k (adjOf g it.value)) { st with queue := q }
      ⟨hi.pop it q hperm, hq, hfresh.symm⟩
      (by
        intro s' seen e ⟨hs1, hs2, hs3⟩ he
        have he' := (hv.2 k _).mem_iff.mp he
        refine ⟨relax_inv g s it.value seen s' e hb he' hs1, ?_⟩
        have halt := hs1.alt_eq hb it.value e he'
        have hw := (Bounded_adjOf g hb it.value e he').1
        rw [relax_eq, halt]
        by_cases hc : getDist s'.dist it.value + e.2 < getDist s'.dist e.1
        · simp only [hc, if_true]
          constructor
          · intro x hx
            rcases (mem_heapPush _ _ _).mp hx with h1 | h1
            · subst h1
              show it.priority ≤ getDist s'.dist it.value + e.2
              omega
            · exact hs2 x h1
          · show getDist (mapSet s'.dist e.1 _) it.value = it.priority
            rw [getDist_mapSet]
            have hne1 : it.value ≠ e.1 := by
              intro h1
              rw [← h1] at hc
              omega
            simp only [hne1, if_false]
            exact hs3
        · simp only [hc, if_false]
          exact ⟨hs2, hs3⟩)
    exact hfold.2.1

/-- On bounded weights the priorities of the popped entries are non-decreasing. -/
theorem popped_mono (g : Graph) (s : String) (ord : IterOrder) (hv : ord.Valid) (hb : Bounded g)
    (i : Nat) (a : item) (ha : poppedAt g s ord i = some a) :
    ∀ (j : Nat) (b : item), i ≤ j → poppedAt g s ord j = some b → a.priority ≤ b.priority := by
  intro j
  induction j with
  | zero =>
    intro b hij hb0
    have : i = 0 := by omega
    subst this
    rw [ha] at hb0
    rw [Option.some.inj hb0]
  | succ j ih =>
    intro b hij hbj
    by_cases he : i = j + 1
    · subst he
      rw [ha] at hbj
      rw [Option.some.inj hbj]
    · obtain ⟨st1, q1, r1, _, m1⟩ := poppedAt_some g s ord (j + 1) b hbj
      obtain ⟨st, h1, h2, h3⟩ := stateAfter_pred g s ord j st1 r1.stateAfter_eq
      obtain ⟨c, q, _, hpop, _⟩ := step_shape g ord j st h2
      have hc : poppedAt g s ord j = some c := by
        unfold poppedAt
        rw [h1]
        simp only [hpop, Option.map_some']
      have := step_floor g s ord hv hb j st st1 (stateAfter_reached g s ord j st h1) c q hpop h3
        b m1
      exact le_trans (ih c (by omega) hc) this

/-- C15, as stated, fails: on a cycle with non-negative weights whose sum `1 + (2^63 - 1)` wraps
around, the entry popped after `("B", 1)` is `("A", -2^63)`. -/
theorem C15_counterexample :
    NonNeg wrapGraph ∧ idOrder.Valid ∧
      poppedAt wrapGraph "A" idOrder 1 = some ⟨"B", 1⟩ ∧
      poppedAt wrapGraph "A" idOrder 2 = some ⟨"A", -9223372036854775808⟩ :=
  ⟨by decide, idOrder_valid, by decide, by decide⟩

/-- C15, amended: on a graph whose weights lie between `0` and `2^63 - 2^31`, for every source
and every iteration order, `Dijkstra` returns, the priorities of the entries popped over the run
are non-decreasing, and every popped entry `(u, p)` has `p` at least the distance finally
returned for `u`. -/
theorem C15_popped_priorities_monotone (g : Graph) (s : String) (ord : IterOrder)
    (hv : ord.Valid) (hb : Bounded g) :
    (∃ n r, Dijkstra g s ord n = some r) ∧
    (∀ i j a b, i ≤ j → poppedAt g s ord i = some a → poppedAt g s ord j = some b →
      a.priority ≤ b.priority) ∧
    (∀ k a n r, poppedAt g s ord k = some a → Dijkstra g s ord n = some r →
      getDist r.1 a.value ≤ a.priority) :=
  ⟨Dijkstra_terminates g s ord hv,
    fun i j a b hij ha hbj => popped_mono g s ord hv hb i a ha j b hij hbj,
    fun k a n r ha hr => popped_ge_final g s ord hv k a ha n r hr⟩

/-- Witness of C15: the graph with five vertices on which stale entries are popped. -/
theorem C15_witness :
    idOrder.Valid ∧ Bounded fanGraph ∧
    ((∃ n r, Dijkstra fanGraph "S" idOrder n = some r) ∧
    (∀ i j a b, i ≤ j → poppedAt fanGraph "S" idOrder i = some a →
      poppedAt fanGraph "S" idOrder j = some b → a.priority ≤ b.priority) ∧
    (∀ k a n r, poppedAt fanGraph "S" idOrder k = some a →
      Dijkstra fanGraph "S" idOrder n = some r → getDist r.1 a.value ≤ a.priority)) :=
  ⟨idOrder_valid, by decide, C15_popped_priorities_monotone fanGraph "S" idOrder idOrder_valid
    (by decide)⟩

/-! ## Runs without overflow -/

/-- Induction principle for the inner loop that records the prefix visited so far. -/
theorem foldl_relax_prefix_induct (u : String) (Q : State → List (String × Int) → Prop)
    (l : List (String × Int)) (st0 : State) (h0 : Q st0 [])
    (hs : ∀ seen e, seen ++ [e] <+: l → Q (seen.foldl (relax u) st0) seen →
      Q ((seen ++ [e]).foldl (relax u) st0) (seen ++ [e])) :
    Q (l.foldl (relax u) st0) l := by
  suffices h : ∀ (rest seen : List (String × Int)), seen ++ rest = l →
      Q (seen.foldl (relax u) st0) seen → Q (l.foldl (relax u) st0) l from h l [] rfl h0
  intro rest
  induction rest with
  | nil =>
    intro seen he hq
    rw [List.append_nil] at he
    subst he
    exact hq
  | cons e rest ih =>
    intro seen he hq
    apply ih (seen ++ [e])
    · rw [List.append_assoc]; exact he
    · exact hs seen e ⟨rest, by rw [List.append_assoc]; exact he⟩ hq

/-- When no sum overflows and the weights are non-negative, every state of a run satisfies the
invariant. -/
theorem Reached.inv_gen {g : Graph} {s : String} {ord : IterOrder} {k : Nat} {st : State}
    (hv : ord.Valid) (hn : NonNeg g) (hno : NoOverflow g s ord) (h : Reached g s ord k st) :
    Inv g s (fun _ _ => False) st := by
  induction h with
  | init => exact initState_inv_gen g s ord hv hn
  | next hr hne hs ih =>
    rename_i j stj stj1
    obtain ⟨it, q, hp, hpop, hs1⟩ := step_shape g ord j stj hne
    rw [hs1] at hs
    have hs := Option.some.inj hs
    subst hs
    have hfold := foldl_relax_prefix_induct it.value
      (fun s' seen => Inv g s (fun x e1 => x = it.value ∧ e1 ∉ seen) s')
      (ord.adj j (adjOf g it.value)) { stj with queue := q } (ih.pop it q hp)
      (by
        intro seen e hpre hq
        rw [List.foldl_append]
        have he : e ∈ adjOf g it.value :=
          (hv.2 j _).mem_iff.mp (hpre.subset (List.mem_append_right _ (List.mem_singleton.mpr rfl)))
        exact relax_inv_gen g s it.value seen _ e (NonNeg_adjOf g hn _ e he)
          (wrapInt_id _ (hno j stj it q seen e hr hpop hpre)) he hq)
    refine ⟨hfold.range, hfold.src, hfold.nonkey, hfold.key, hfold.walk, hfold.prevNone,
      hfold.prevSrc, ?_⟩
    intro x
    rcases hfold.edges x with hq | hall
    · exact Or.inl hq
    · right
      intro e1 he1
      rcases hall e1 he1 with ⟨hxu, hns⟩ | hle
      · exact absurd ((hv.2 j _).mem_iff.mpr (hxu ▸ he1)) hns
      · exact Or.inr hle

/-- On bounded weights no sum overflows. -/
theorem NoOverflow_of_Bounded (g : Graph) (s : String) (ord : IterOrder) (hv : ord.Valid)
    (hb : Bounded g) : NoOverflow g s ord := by
  intro k st it q seen e hr hpop hpre
  have hi := hr.inv_inner hv hb it q hpop seen ((List.prefix_append seen [e]).trans hpre)
  have he : e ∈ adjOf g it.value :=
    (hv.2 k _).mem_iff.mp (hpre.subset (List.mem_append_right _ (List.mem_singleton.mpr rfl)))
  have h1 := hi.range it.value
  have h2 := Bounded_adjOf g hb _ e he
  unfold InInt64 MinInt64 MaxInt64
  unfold MaxInt32 at h1
  unfold MaxInt64 MaxInt32 at h2
  omega

/-- With non-negative weights every reachable vertex has a least path weight. -/
theorem exists_minDist (g : Graph) (s v : String) (hn : NonNeg g) (h : Reachable g s v) :
    ∃ d, IsMinDist g s v d := by
  obtain ⟨c, hc⟩ := h
  suffices hgen : ∀ (n : Nat) (c : Int), Walk g s v c → c.toNat = n → ∃ d, IsMinDist g s v d from
    hgen _ c hc rfl
  intro n
  induction n using Nat.strong_induction_on with
  | _ n ih =>
    intro c hc hcn
    by_cases hmin : ∀ c1, Walk g s v c1 → c ≤ c1
    · exact ⟨c, hc, hmin⟩
    · push_neg at hmin
      obtain ⟨c1, hw1, hlt⟩ := hmin
      have h0 := Walk.nonneg hn hw1
      exact ih c1.toNat (by omega) c1 hw1 rfl

/-- At the end of a run that satisfies the invariant, the distance of a key, or of the source,
is its least path weight capped at `math.MaxInt32`. -/
theorem Inv.dist_eq {g : Graph} {s : String} {st : State} (hi : Inv g s (fun _ _ => False) st)
    (hq : st.queue = []) (hn : NonNeg g) (v : String) (d : Int) (hk : v ∈ keys g ∨ v = s)
    (hd : IsMinDist g s v d) : st.dist v = some (min d MaxInt32) := by
  have hlow := hi.lower hq hd.1
  by_cases hs : v = s
  · subst hs
    rw [hi.src]
    have h0 : d ≤ 0 := hd.2 0 Walk.nil
    have h1 : 0 ≤ d := Walk.nonneg hn hd.1
    have : d = 0 := by omega
    subst this
    simp [MaxInt32]
  · have hk' : v ∈ keys g := hk.resolve_right hs
    rw [hi.key v hk']
    congr 1
    have hr := hi.range v
    by_cases hlt : getDist st.dist v < MaxInt32
    · have := hd.2 _ (hi.walk v hk' hlt)
      rw [min_def]
      split_ifs <;> omega
    · rw [min_def]
      split_ifs <;> omega

/-- At the end of a run that satisfies the invariant, a key that is unreachable, or whose least
path weight is at least `math.MaxInt32`, holds `math.MaxInt32` and the empty predecessor. -/
theorem Inv.saturated {g : Graph} {s : String} {st : State} (hi : Inv g s (fun _ _ => False) st)
    (v : String) (hk : v ∈ keys g)
    (hfar : ∀ c, Walk g s v c → MaxInt32 ≤ c) :
    st.dist v = some MaxInt32 ∧ st.prev v = some "" := by
  have hr := hi.range v
  have hge : ¬ getDist st.dist v < MaxInt32 := by
    intro hlt
    have := hfar _ (hi.walk v hk hlt)
    omega
  have heq : getDist st.dist v = MaxInt32 := by omega
  refine ⟨?_, hi.prevNone v hk (Or.inr heq)⟩
  rw [hi.key v hk, heq]

/-- C18: on a graph in which every neighbour is a key and every weight is non-negative, for a
source that is a key and a run in which no sum `dist[u] + w` overflows, `Dijkstra` returns and,
for every key `v`, `distances[v]` is the least path weight from the source capped at
`math.MaxInt32`: it is `min(d, 2^31 - 1)` when `v` is reachable with least path weight `d`
(which then exists) and `2^31 - 1` when `v` is unreachable; a reachable key whose least path
weight is at least `2^31 - 1` is reported like an unreachable one, with distance
`math.MaxInt32` and predecessor `""`. -/
theorem C18_saturating_distance (g : Graph) (s : String) (ord : IterOrder) (hv : ord.Valid)
    (_hkeys : ∀ x ∈ targets g, x ∈ keys g) (_hs : s ∈ keys g) (hn : NonNeg g)
    (hno : NoOverflow g s ord) :
    (∃ n r, Dijkstra g s ord n = some r) ∧
    ∀ n r, Dijkstra g s ord n = some r → ∀ v ∈ keys g,
      (Reachable g s v → ∃ d, IsMinDist g s v d) ∧
      (∀ d, IsMinDist g s v d → r.1 v = some (min d MaxInt32)) ∧
      (¬ Reachable g s v → r.1 v = some MaxInt32 ∧ r.2 v = some "") ∧
      (∀ d, IsMinDist g s v d → MaxInt32 ≤ d → r.1 v = some MaxInt32 ∧ r.2 v = some "") := by
  refine ⟨Dijkstra_terminates g s ord hv, ?_⟩
  intro n r h v hk
  obtain ⟨k, st, hr, hq, rfl⟩ := Dijkstra_reached g s ord n r h
  have hi := hr.inv_gen hv hn hno
  refine ⟨exists_minDist g s v hn, ?_, ?_, ?_⟩
  · intro d hd
    exact hi.dist_eq hq hn v d (Or.inl hk) hd
  · intro hu
    exact hi.saturated v hk (fun c hc => absurd ⟨c, hc⟩ hu)
  · intro d hd hge
    exact hi.saturated v hk (fun c hc => le_trans hge (hd.2 c hc))

/-- Witness of C18 on the graph with one edge of weight `2^31`, in which `"B"` is reachable at
distance `2^31` and reported at `2^31 - 1` with predecessor `""`. -/
theorem C18_witness :
    idOrder.Valid ∧ (∀ x ∈ targets satGraph, x ∈ keys satGraph) ∧ "A" ∈ keys satGraph ∧
    NonNeg satGraph ∧ NoOverflow satGraph "A" idOrder ∧ IsMinDist satGraph "A" "B" 2147483648 ∧
    ((∃ n r, Dijkstra satGraph "A" idOrder n = some r) ∧
    ∀ n r, Dijkstra satGraph "A" idOrder n = some r → ∀ v ∈ keys satGraph,
      (Reachable satGraph "A" v → ∃ d, IsMinDist satGraph "A" v d) ∧
      (∀ d, IsMinDist satGraph "A" v d → r.1 v = some (min d MaxInt32)) ∧
      (¬ Reachable satGraph "A" v → r.1 v = some MaxInt32 ∧ r.2 v = some "") ∧
      (∀ d, IsMinDist satGraph "A" v d → MaxInt32 ≤ d →
        r.1 v = some MaxInt32 ∧ r.2 v = some "")) :=
  ⟨idOrder_valid, by decide, by decide, by decide,
    NoOverflow_of_Bounded satGraph "A" idOrder idOrder_valid (by decide), satGraph_min,
    C18_saturating_distance satGraph "A" idOrder idOrder_valid (by decide) (by decide)
      (by decide) (NoOverflow_of_Bounded satGraph "A" idOrder idOrder_valid (by decide))⟩

end Dijkstras

namespace BinaryTrees

/-! ## Trees as values -/

theorem Tree.mirror_mirror (t : Tree) : t.mirror.mirror = t := by
  induction t with
  | nil => rfl
  | node l d r ihl ihr => simp [Tree.mirror, ihl, ihr]

theorem Tree.size_mirror (t : Tree) : t.mirror.size = t.size := by
  induction t with
  | nil => rfl
  | node l d r ihl ihr => simp only [Tree.mirror, Tree.size, ihl, ihr]; omega

theorem Tree.height_mirror (t : Tree) : t.mirror.height = t.height := by
  induction t with
  | nil => rfl
  | node l d r ihl ihr => simp only [Tree.mirror, Tree.height, ihl, ihr, max_comm]

theorem Tree.height_le_size (t : Tree) : t.height ≤ t.size := by
  induction t with
  | nil => exact le_refl _
  | node l d r ihl ihr =>
    simp only [Tree.height, Tree.size]
    have := max_le_iff.mpr ⟨le_trans ihl (Nat.le_add_right l.size r.size),
      le_trans ihr (Nat.le_add_left r.size l.size)⟩
    omega

theorem Tree.size_ins (t : Tree) (v : Int) : (t.ins v).size = t.size + 1 := by
  induction t with
  | nil => rfl
  | node l d r ihl ihr =>
    simp only [Tree.ins]
    split_ifs
    · simp only [Tree.size, ihl]; omega
    · simp only [Tree.size, ihr]; omega

theorem Tree.toList_ins (t : Tree) (v : Int) : (t.ins v).toList.Perm (v :: t.toList) := by
  induction t with
  | nil => exact List.Perm.refl _
  | node l d r ihl ihr =>
    simp only [Tree.ins]
    split_ifs
    · simp only [Tree.toList, List.append_assoc]
      exact (List.Perm.append_right _ ihl).trans (by simp)
    · simp only [Tree.toList, List.append_assoc]
      refine (List.Perm.append_left _ (List.Perm.append_left _ ihr)).trans ?_
      simp only [← List.append_assoc]
      exact List.perm_middle

theorem Tree.ordered_ins (t : Tree) (v : Int) (h : t.Ordered) : (t.ins v).Ordered := by
  induction t with
  | nil => simp [Tree.ins, Tree.Ordered, Tree.toList]
  | node l d r ihl ihr =>
    obtain ⟨h1, h2, h3, h4⟩ := h
    simp only [Tree.ins]
    split_ifs with hv
    · refine ⟨?_, h2, ihl h3, h4⟩
      intro x hx
      rcases List.mem_cons.mp ((Tree.toList_ins l v).mem_iff.mp hx) with rfl | hx
      · exact hv
      · exact h1 x hx
    · refine ⟨h1, ?_, h3, ihr h4⟩
      intro x hx
      rcases List.mem_cons.mp ((Tree.toList_ins r v).mem_iff.mp hx) with rfl | hx
      · omega
      · exact h2 x hx

/-- The in-order sequence of an ordered tree is non-decreasing. -/
theorem Tree.sorted_toList (t : Tree) (h : t.Ordered) : t.toList.Pairwise (· ≤ ·) := by
  induction t with
  | nil => exact List.Pairwise.nil
  | node l d r ihl ihr =>
    obtain ⟨h1, h2, h3, h4⟩ := h
    simp only [Tree.toList, List.append_assoc, List.singleton_append]
    rw [List.pairwise_append]
    refine ⟨ihl h3, ?_, ?_⟩
    · rw [List.pairwise_cons]
      exact ⟨h2, ihr h4⟩
    · intro x hx y hy
      rcases List.mem_cons.mp hy with rfl | hy
      · exact le_of_lt (h1 x hx)
      · exact le_trans (le_of_lt (h1 x hx)) (h2 y hy)

/-! ## Trees in the heap -/

theorem IsTree.lt_length {h : Heap} {p : Ptr} {t : Tree} {fp : List Nat} (ht : IsTree h p t fp) :
    ∀ a ∈ fp, a < h.length := by
  induction ht with
  | nil => intro a ha; cases ha
  | node hn _ _ _ ihl ihr =>
    intro b hb
    rcases List.mem_cons.mp hb with rfl | hb
    · by_contra hlt
      rw [List.getElem?_eq_none (by omega)] at hn
      exact Option.noConfusion hn
    · rcases List.mem_append.mp hb with hb | hb
      · exact ihl b hb
      · exact ihr b hb

/-- A tree in the heap is not affected by writes outside its cells. -/
theorem IsTree.frame {h h1 : Heap} {p : Ptr} {t : Tree} {fp : List Nat} (ht : IsTree h p t fp)
    (hf : ∀ a ∈ fp, h1[a]? = h[a]?) : IsTree h1 p t fp := by
  induction ht with
  | nil => exact IsTree.nil
  | node hn _ _ hnd ihl ihr =>
    refine IsTree.node ?_ (ihl ?_) (ihr ?_) hnd
    · rw [hf _ (List.mem_cons_self _ _)]; exact hn
    · intro b hb
      exact hf b (List.mem_cons_of_mem _ (List.mem_append_left _ hb))
    · intro b hb
      exact hf b (List.mem_cons_of_mem _ (List.mem_append_right _ hb))

theorem IsTree.nodup {h : Heap} {p : Ptr} {t : Tree} {fp : List Nat} (ht : IsTree h p t fp) :
    fp.Nodup := by
  cases ht with
  | nil => exact List.nodup_nil
  | node _ _ _ hnd => exact hnd

theorem IsTree.nil_inv {h : Heap} {t : Tree} {fp : List Nat} (ht : IsTree h none t fp) :
    t = Tree.nil ∧ fp = [] := by
  cases ht
  exact ⟨rfl, rfl⟩

theorem IsTree.node_inv {h : Heap} {a : Nat} {t : Tree} {fp : List Nat}
    (ht : IsTree h (some a) t fp) :
    ∃ n l r fl fr, h[a]? = some n ∧ IsTree h n.left l fl ∧ IsTree h n.right r fr ∧
      (a :: (fl ++ fr)).Nodup ∧ t = Tree.node l n.data r ∧ fp = a :: (fl ++ fr) := by
  cases ht with
  | node hn hl hr hnd => exact ⟨_, _, _, _, _, hn, hl, hr, hnd, rfl, rfl⟩

/-! ## The read-only functions -/

theorem Size_spec (t : Tree) : ∀ (h : Heap) (p : Ptr) (fp : List Nat) (fuel : Nat),
    IsTree h p t fp → t.height < fuel → Size fuel h p = some (t.size : Int) := by
  induction t with
  | nil =>
    intro h p fp fuel ht hf
    cases ht
    obtain ⟨f, rfl⟩ : ∃ f, fuel = f + 1 := ⟨fuel - 1, by omega⟩
    rfl
  | node l d r ihl ihr =>
    intro h p fp fuel ht hf
    cases ht with
    | node hn hl hr hnd =>
      obtain ⟨f, rfl⟩ : ∃ f, fuel = f + 1 := ⟨fuel - 1, by omega⟩
      simp only [Tree.height] at hf
      have h1 := ihl h _ _ f hl (by omega)
      have h2 := ihr h _ _ f hr (by omega)
      simp only [Size, hn, h1, h2, Tree.size]
      exact congrArg some (by omega)

theorem Height_spec (t : Tree) : ∀ (h : Heap) (p : Ptr) (fp : List Nat) (fuel : Nat),
    IsTree h p t fp → t.height < fuel → Height fuel h p = some (t.height : Int) := by
  induction t with
  | nil =>
    intro h p fp fuel ht hf
    cases ht
    obtain ⟨f, rfl⟩ : ∃ f, fuel = f + 1 := ⟨fuel - 1, by omega⟩
    rfl
  | node l d r ihl ihr =>
    intro h p fp fuel ht hf
    cases ht with
    | node hn hl hr hnd =>
      obtain ⟨f, rfl⟩ : ∃ f, fuel = f + 1 := ⟨fuel - 1, by omega⟩
      simp only [Tree.height] at hf
      have h1 := ihl h _ _ f hl (by omega)
      have h2 := ihr h _ _ f hr (by omega)
      simp only [Height, hn, h1, h2, Tree.height]
      refine congrArg some ?_
      split_ifs with hc
      · have : max l.height r.height = l.height := by omega
        rw [this]; omega
      · have : max l.height r.height = r.height := by omega
        rw [this]; omega

theorem InOrder_spec (t : Tree) : ∀ (h : Heap) (p : Ptr) (fp : List Nat) (fuel : Nat),
    IsTree h p t fp → t.height < fuel → InOrder fuel h p = some t.toList := by
  induction t with
  | nil =>
    intro h p fp fuel ht hf
    cases ht
    obtain ⟨f, rfl⟩ : ∃ f, fuel = f + 1 := ⟨fuel - 1, by omega⟩
    rfl
  | node l d r ihl ihr =>
    intro h p fp fuel ht hf
    cases ht with
    | node hn hl hr hnd =>
      obtain ⟨f, rfl⟩ : ∃ f, fuel = f + 1 := ⟨fuel - 1, by omega⟩
      simp only [Tree.height] at hf
      have h1 := ihl h _ _ f hl (by omega)
      have h2 := ihr h _ _ f hr (by omega)
      simp only [InOrder, hn, h1, h2, Tree.toList]

/-! ## Exchanging the pointers of a set of cells -/

theorem getElem?_swapOn (fp : List Nat) (h : Heap) (b : Nat) :
    (swapOn fp h)[b]? = (h[b]?).map fun n => if b ∈ fp then swapCell n else n := by
  unfold swapOn
  rw [List.getElem?_mapIdx]

theorem length_swapOn (fp : List Nat) (h : Heap) : (swapOn fp h).length = h.length := by
  unfold swapOn
  rw [List.length_mapIdx]

theorem swapCell_swapCell (n : BinaryTreeNode) : swapCell (swapCell n) = n := by
  cases n
  rfl

theorem getElem?_swapOn_not_mem (fp : List Nat) (h : Heap) (b : Nat) (hb : b ∉ fp) :
    (swapOn fp h)[b]? = h[b]? := by
  rw [getElem?_swapOn]
  simp only [hb, if_false]
  cases h[b]? <;> rfl

theorem getElem?_swapOn_mem (fp : List Nat) (h : Heap) (b : Nat) (n : BinaryTreeNode)
    (hb : b ∈ fp) (hn : h[b]? = some n) : (swapOn fp h)[b]? = some (swapCell n) := by
  rw [getElem?_swapOn, hn]
  simp only [hb, if_true, Option.map_some']

theorem swapOn_congr (A B : List Nat) (h : Heap) (hAB : ∀ x, x ∈ A ↔ x ∈ B) :
    swapOn A h = swapOn B h := by
  apply List.ext_getElem?
  intro b
  rw [getElem?_swapOn, getElem?_swapOn]
  simp only [hAB b]

/-- Exchanging the pointers of two disjoint sets of cells, one after the other. -/
theorem swapOn_swapOn (A B : List Nat) (h : Heap) (hd : ∀ x ∈ A, x ∉ B) :
    swapOn A (swapOn B h) = swapOn (A ++ B) h := by
  apply List.ext_getElem?
  intro b
  rw [getElem?_swapOn, getElem?_swapOn, getElem?_swapOn]
  cases h[b]? with
  | none => rfl
  | some n =>
    simp only [Option.map_some', List.mem_append]
    by_cases hA : b ∈ A
    · have hB := hd b hA
      simp only [hA, hB, if_true, if_false, true_or]
    · simp only [hA, if_false, false_or]

/-- Exchanging the pointers of the same cells twice restores the heap. -/
theorem swapOn_self (A B : List Nat) (h : Heap) (hAB : ∀ x, x ∈ A ↔ x ∈ B) :
    swapOn A (swapOn B h) = h := by
  apply List.ext_getElem?
  intro b
  rw [getElem?_swapOn, getElem?_swapOn]
  cases h[b]? with
  | none => rfl
  | some n =>
    simp only [Option.map_some', hAB b]
    by_cases hB : b ∈ B
    · simp only [hB, if_true, swapCell_swapCell]
    · simp only [hB, if_false]

theorem set_swapCell (h : Heap) (a : Nat) (n : BinaryTreeNode) (hn : h[a]? = some n) :
    h.set a (swapCell n) = swapOn [a] h := by
  apply List.ext_getElem?
  intro b
  rw [getElem?_swapOn, List.getElem?_set]
  by_cases hb : a = b
  · subst hb
    have hlt : a < h.length := by
      by_contra hlt
      rw [List.getElem?_eq_none (by omega)] at hn
      exact Option.noConfusion hn
    simp [hlt, hn]
  · have hb' : b ≠ a := fun h => hb h.symm
    simp only [hb, if_false, List.mem_singleton, hb']
    cases h[b]? <;> rfl

/-- In the heap whose cells at `F` have their pointers exchanged, a tree whose cells lie in `F`
has become its mirror image. -/
theorem IsTree.swapOn {h : Heap} {p : Ptr} {t : Tree} {fp : List Nat} (ht : IsTree h p t fp) :
    ∀ F : List Nat, (∀ x ∈ fp, x ∈ F) →
      ∃ fp1, fp1.Perm fp ∧ IsTree (BinaryTrees.swapOn F h) p t.mirror fp1 := by
  induction ht with
  | nil => intro F _; exact ⟨[], List.Perm.refl _, IsTree.nil⟩
  | @node a n l r fl fr hn _ _ hnd ihl ihr =>
    intro F hF
    obtain ⟨fl1, pl, tl⟩ := ihl F
      (fun x hx => hF x (List.mem_cons_of_mem _ (List.mem_append_left _ hx)))
    obtain ⟨fr1, pr, tr⟩ := ihr F
      (fun x hx => hF x (List.mem_cons_of_mem _ (List.mem_append_right _ hx)))
    have hperm : (a :: (fr1 ++ fl1)).Perm (a :: (fl ++ fr)) :=
      List.Perm.cons a ((List.Perm.append pr pl).trans List.perm_append_comm)
    refine ⟨a :: (fr1 ++ fl1), hperm, ?_⟩
    have hcell := getElem?_swapOn_mem F h a n (hF a (List.mem_cons_self _ _)) hn
    have := IsTree.node (h := BinaryTrees.swapOn F h) (n := swapCell n) hcell tr tl
      (hperm.nodup_iff.mpr hnd)
    exact this

/-! ## `InvertTree` and `InvertTree2` -/

theorem swapOn_nil (h : Heap) : swapOn [] h = h := by
  apply List.ext_getElem?
  intro b
  rw [getElem?_swapOn_not_mem [] h b (List.not_mem_nil _)]

theorem InvertTree_succ (fuel : Nat) (h : Heap) (a : Nat) :
    InvertTree (fuel + 1) h (some a) =
      match h[a]? with
      | none => none
      | some n =>
        match InvertTree fuel h n.right with
        | none => none
        | some (h1, p1) =>
          match h1[a]? with
          | none => none
          | some n1 =>
            match InvertTree fuel h1 n1.left with
            | none => none
            | some (h2, p2) =>
              match h2[a]? with
              | none => none
              | some n2 => some (h2.set a { n2 with left := p1, right := p2 }, some a) := rfl

/-- On a tree in the heap, `InvertTree` exchanges the two pointers of every cell of the tree,
leaves all other cells alone, and returns the pointer it was given. -/
theorem InvertTree_spec (t : Tree) : ∀ (h : Heap) (p : Ptr) (fp : List Nat) (fuel : Nat),
    IsTree h p t fp → t.height < fuel → InvertTree fuel h p = some (swapOn fp h, p) := by
  induction t with
  | nil =>
    intro h p fp fuel ht hf
    cases ht
    obtain ⟨f, rfl⟩ : ∃ f, fuel = f + 1 := ⟨fuel - 1, by omega⟩
    rw [swapOn_nil]
    rfl
  | node l d r ihl ihr =>
    intro h p fp fuel ht hf
    cases ht with
    | @node a n _ _ fl fr hn hl hr hnd =>
      obtain ⟨f, rfl⟩ : ∃ f, fuel = f + 1 := ⟨fuel - 1, by omega⟩
      simp only [Tree.height] at hf
      have hnd' := hnd
      rw [List.nodup_cons, List.nodup_append] at hnd'
      obtain ⟨ha, hfl, hfr, hdisj⟩ := hnd'
      have hafl : a ∉ fl := fun hx => ha (List.mem_append_left _ hx)
      have hafr : a ∉ fr := fun hx => ha (List.mem_append_right _ hx)
      have e1 := ihr h _ _ f hr (by omega)
      have c1 : (swapOn fr h)[a]? = some n := by
        rw [getElem?_swapOn_not_mem fr h a hafr]; exact hn
      have hl1 : IsTree (swapOn fr h) n.left l fl :=
        hl.frame (fun x hx => getElem?_swapOn_not_mem fr h x (fun hx' => hdisj hx hx'))
      have e2 := ihl (swapOn fr h) _ _ f hl1 (by omega)
      have c2 : (swapOn fl (swapOn fr h))[a]? = some n := by
        rw [getElem?_swapOn_not_mem fl _ a hafl]; exact c1
      rw [InvertTree_succ]
      simp only [hn, e1, c1, e2, c2]
      congr 1
      congr 1
      have hset := set_swapCell (swapOn fl (swapOn fr h)) a n c2
      have hcell : ({ n with left := n.right, right := n.left } : BinaryTreeNode) = swapCell n :=
        rfl
      rw [hcell, hset, swapOn_swapOn fl fr h (fun x hx hx' => hdisj hx hx'),
        swapOn_swapOn [a] (fl ++ fr) h (fun x hx => by rw [List.mem_singleton.mp hx]; exact ha)]
      rfl

theorem Tree.height_left_lt (l r : Tree) (d : Int) : l.height < (Tree.node l d r).height := by
  simp only [Tree.height]; omega

theorem Tree.height_right_lt (l r : Tree) (d : Int) : r.height < (Tree.node l d r).height := by
  simp only [Tree.height]; omega

/-- On a tree in the heap, `InvertTree2` has the same effect on the heap as `InvertTree` and
returns the same pointer. -/
theorem InvertTree2_spec (t : Tree) (h : Heap) (p : Ptr) (fp : List Nat) (fuel : Nat)
    (ht : IsTree h p t fp) (hf : t.height ≤ fuel) :
    InvertTree2 fuel h p = some (swapOn fp h, p) := by
  cases ht with
  | nil =>
    rw [swapOn_nil]
    rfl
  | @node a n l r fl fr hn hl hr hnd =>
    have hnd' := hnd
    rw [List.nodup_cons, List.nodup_append] at hnd'
    obtain ⟨ha, hfl, hfr, hdisj⟩ := hnd'
    have hafl : a ∉ fl := fun hx => ha (List.mem_append_left _ hx)
    have hafr : a ∉ fr := fun hx => ha (List.mem_append_right _ hx)
    have hhl := Tree.height_left_lt l r n.data
    have hhr := Tree.height_right_lt l r n.data
    have hcell : ({ n with left := n.right, right := n.left } : BinaryTreeNode) = swapCell n :=
      rfl
    have h0 : h.set a (swapCell n) = swapOn [a] h := set_swapCell h a n hn
    have c0 : (swapOn [a] h)[a]? = some (swapCell n) :=
      getElem?_swapOn_mem [a] h a n (List.mem_singleton.mpr rfl) hn
    have hr0 : IsTree (swapOn [a] h) n.right r fr :=
      hr.frame (fun x hx => getElem?_swapOn_not_mem [a] h x
        (fun hx' => hafr (List.mem_singleton.mp hx' ▸ hx)))
    have e1 := InvertTree_spec r (swapOn [a] h) _ _ fuel hr0 (by omega)
    have c1 : (swapOn fr (swapOn [a] h))[a]? = some (swapCell n) := by
      rw [getElem?_swapOn_not_mem fr _ a hafr]; exact c0
    have hl1 : IsTree (swapOn fr (swapOn [a] h)) n.left l fl := by
      apply hl.frame
      intro x hx
      rw [getElem?_swapOn_not_mem fr _ x (fun hx' => hdisj hx hx'),
        getElem?_swapOn_not_mem [a] h x (fun hx' => hafl (List.mem_singleton.mp hx' ▸ hx))]
    have e2 := InvertTree_spec l (swapOn fr (swapOn [a] h)) _ _ fuel hl1 (by omega)
    unfold InvertTree2
    simp only [hn, hcell, h0, c0]
    have s1 : (swapCell n).left = n.right := rfl
    have s2 : (swapCell n).right = n.left := rfl
    simp only [s1, e1, c1, s2, e2]
    congr 1
    congr 1
    rw [swapOn_swapOn fr [a] h (fun x hx hx' => hafr (List.mem_singleton.mp hx' ▸ hx)),
      swapOn_swapOn fl (fr ++ [a]) h (fun x hx hx' => by
        rcases List.mem_append.mp hx' with h1 | h1
        · exact hdisj hx h1
        · exact hafl (List.mem_singleton.mp h1 ▸ hx))]
    apply swapOn_congr
    intro x
    simp only [List.mem_append, List.mem_cons, List.mem_singleton, List.not_mem_nil, or_false]
    tauto

theorem smallHeap_isTree : IsTree smallHeap (some 0) smallTree [0, 1, 2] := by
  have hl : IsTree smallHeap (some 1) (Tree.node Tree.nil 1 Tree.nil) [1] :=
    IsTree.node (h := smallHeap) (a := 1) (n := ⟨none, 1, none⟩) (by decide) IsTree.nil
      IsTree.nil (by decide)
  have hr : IsTree smallHeap (some 2) (Tree.node Tree.nil 3 Tree.nil) [2] :=
    IsTree.node (h := smallHeap) (a := 2) (n := ⟨none, 3, none⟩) (by decide) IsTree.nil
      IsTree.nil (by decide)
  exact IsTree.node (h := smallHeap) (a := 0) (n := ⟨some 1, 2, some 2⟩) (by decide) hl hr
    (by decide)

/-- C19: on every tree `t` in the heap, `InvertTree2` and `InvertTree` return the same pointer
and leave the same heap, in which the pointer holds the mirror image of `t`; applying either
of them again restores the original heap, so each is an involution; and `Size` and `Height`
return the same values before and after. -/
theorem C19_invert_is_mirror (h : Heap) (p : Ptr) (t : Tree) (fp : List Nat) (fuel : Nat)
    (ht : IsTree h p t fp) (hf : t.height < fuel) :
    InvertTree fuel h p = some (swapOn fp h, p) ∧
    InvertTree2 fuel h p = some (swapOn fp h, p) ∧
    (∃ fp1, fp1.Perm fp ∧ IsTree (swapOn fp h) p t.mirror fp1) ∧
    InvertTree fuel (swapOn fp h) p = some (h, p) ∧
    InvertTree2 fuel (swapOn fp h) p = some (h, p) ∧
    t.mirror.mirror = t ∧
    Size fuel h p = some (t.size : Int) ∧ Size fuel (swapOn fp h) p = some (t.size : Int) ∧
    Height fuel h p = some (t.height : Int) ∧
    Height fuel (swapOn fp h) p = some (t.height : Int) := by
  obtain ⟨fp1, hp1, ht1⟩ := ht.swapOn fp (fun x hx => hx)
  have hm : t.mirror.height < fuel := by rw [Tree.height_mirror]; exact hf
  have hback : swapOn fp1 (swapOn fp h) = h := swapOn_self fp1 fp h (fun x => hp1.mem_iff)
  refine ⟨InvertTree_spec t h p fp fuel ht hf, InvertTree2_spec t h p fp fuel ht (le_of_lt hf),
    ⟨fp1, hp1, ht1⟩, ?_, ?_, Tree.mirror_mirror t, Size_spec t h p fp fuel ht hf, ?_,
    Height_spec t h p fp fuel ht hf, ?_⟩
  · rw [InvertTree_spec t.mirror _ p fp1 fuel ht1 hm, hback]
  · rw [InvertTree2_spec t.mirror _ p fp1 fuel ht1 (le_of_lt hm), hback]
  · rw [Size_spec t.mirror _ p fp1 fuel ht1 hm, Tree.size_mirror]
  · rw [Height_spec t.mirror _ p fp1 fuel ht1 hm, Tree.height_mirror]

/-- Witness of C19: the tree with root `2`, left child `1` and right child `3`. -/
theorem C19_witness :
    IsTree smallHeap (some 0) smallTree [0, 1, 2] ∧ smallTree.height < 3 ∧
    (InvertTree 3 smallHeap (some 0) = some (swapOn [0, 1, 2] smallHeap, some 0) ∧
    InvertTree2 3 smallHeap (some 0) = some (swapOn [0, 1, 2] smallHeap, some 0) ∧
    (∃ fp1, fp1.Perm [0, 1, 2] ∧
      IsTree (swapOn [0, 1, 2] smallHeap) (some 0) smallTree.mirror fp1) ∧
    InvertTree 3 (swapOn [0, 1, 2] smallHeap) (some 0) = some (smallHeap, some 0) ∧
    InvertTree2 3 (swapOn [0, 1, 2] smallHeap) (some 0) = some (smallHeap, some 0) ∧
    smallTree.mirror.mirror = smallTree ∧
    Size 3 smallHeap (some 0) = some (smallTree.size : Int) ∧
    Size 3 (swapOn [0, 1, 2] smallHeap) (some 0) = some (smallTree.size : Int) ∧
    Height 3 smallHeap (some 0) = some (smallTree.height : Int) ∧
    Height 3 (swapOn [0, 1, 2] smallHeap) (some 0) = some (smallTree.height : Int)) :=
  ⟨smallHeap_isTree, by decide, C19_invert_is_mirror smallHeap (some 0) smallTree [0, 1, 2] 3
    smallHeap_isTree (by decide)⟩

/-- C14, evaluated on the tree with root `2`, left child `1` and right child `3`, which
`NewBinaryTree(3, 1)` builds when `rand.Perm(3)` returns `[1, 0, 2]`: `FindMax` returns `2`,
the data of the root, although the largest data value stored in the tree is `3`. The maximum of
the left subtree is above `math.MinInt32`, so the maximum of the right subtree is never
looked at. -/
theorem C14_findmax_ignores_right_subtree :
    NewBinaryTree 3 [] [1, 0, 2] 1 = some (smallHeap, some 0) ∧
    IsTree smallHeap (some 0) smallTree [0, 1, 2] ∧ smallTree.toList = [1, 2, 3] ∧
    FindMax 3 smallHeap (some 0) = some 2 ∧
    FindMax 2 smallHeap (some 1) = some 1 ∧ FindMax 2 smallHeap (some 2) = some 3 :=
  ⟨by decide, smallHeap_isTree, by decide, by decide, by decide, by decide⟩

/-! ## `insert` -/

theorem insert_succ_some (fuel : Nat) (h : Heap) (a : Nat) (v : Int) :
    insert (fuel + 1) h (some a) v =
      match h[a]? with
      | none => none
      | some n =>
        if v < n.data then
          match insert fuel h n.left v with
          | none => none
          | some (h1, p) =>
            match h1[a]? with
            | none => none
            | some n1 => some (h1.set a { n1 with left := p }, some a)
        else
          match insert fuel h n.right v with
          | none => none
          | some (h1, p) =>
            match h1[a]? with
            | none => none
            | some n1 => some (h1.set a { n1 with right := p }, some a) := rfl

theorem getElem?_set_self_of (h : Heap) (a : Nat) (n m : BinaryTreeNode) (hn : h[a]? = some n) :
    (h.set a m)[a]? = some m := by
  have hlt : a < h.length := by
    by_contra hlt
    rw [List.getElem?_eq_none (by omega)] at hn
    exact Option.noConfusion hn
  rw [List.getElem?_set_self hlt]

/-- On a tree in the heap, `insert` allocates one cell at the end of the heap, rewrites only
cells of the tree, and returns a pointer to the tree with the value inserted by the
comparisons of `Tree.ins`. -/
theorem insert_spec (t : Tree) : ∀ (h : Heap) (p : Ptr) (fp : List Nat) (fuel : Nat) (v : Int),
    IsTree h p t fp → t.height < fuel →
    ∃ h1 p1 fp1, insert fuel h p v = some (h1, p1) ∧ IsTree h1 p1 (t.ins v) fp1 ∧
      fp1.Perm (h.length :: fp) ∧ h1.length = h.length + 1 ∧
      (∀ b, b < h.length → b ∉ fp → h1[b]? = h[b]?) ∧ (∀ a, p = some a → p1 = some a) := by
  induction t with
  | nil =>
    intro h p fp fuel v ht hf
    cases ht
    obtain ⟨f, rfl⟩ : ∃ f, fuel = f + 1 := ⟨fuel - 1, by omega⟩
    refine ⟨h ++ [(⟨none, v, none⟩ : BinaryTreeNode)], some h.length, [h.length], rfl, ?_,
      List.Perm.refl _,
      by simp, ?_, ?_⟩
    · have hc : (h ++ [(⟨none, v, none⟩ : BinaryTreeNode)])[h.length]? = some ⟨none, v, none⟩ := by
        simp
      exact IsTree.node (h := h ++ [⟨none, v, none⟩]) (a := h.length) (n := ⟨none, v, none⟩) hc
        IsTree.nil IsTree.nil (by simp)
    · intro b hb _
      rw [List.getElem?_append_left hb]
    · intro a ha
      exact Option.noConfusion ha
  | node l d r ihl ihr =>
    intro h p fp fuel v ht hf
    cases ht with
    | @node a n _ _ fl fr hn hl hr hnd =>
      obtain ⟨f, rfl⟩ : ∃ f, fuel = f + 1 := ⟨fuel - 1, by omega⟩
      simp only [Tree.height] at hf
      have hnd' := hnd
      rw [List.nodup_cons, List.nodup_append] at hnd'
      obtain ⟨ha, hfl, hfr, hdisj⟩ := hnd'
      have hafl : a ∉ fl := fun hx => ha (List.mem_append_left _ hx)
      have hafr : a ∉ fr := fun hx => ha (List.mem_append_right _ hx)
      have hal : a < h.length := by
        by_contra hlt
        rw [List.getElem?_eq_none (by omega)] at hn
        exact Option.noConfusion hn
      have hll := hl.lt_length
      have hrl := hr.lt_length
      rw [insert_succ_some]
      simp only [hn, Tree.ins]
      by_cases hv : v < n.data
      · simp only [hv, if_true]
        obtain ⟨h1, p1, fl1, e1, t1, pm1, len1, fr1, _⟩ := ihl h _ fl f v hl (by omega)
        have c1 : h1[a]? = some n := by rw [fr1 a hal hafl]; exact hn
        simp only [e1, c1]
        have hafl1 : a ∉ fl1 := by
          intro hx
          rcases List.mem_cons.mp (pm1.mem_iff.mp hx) with h2 | h2
          · omega
          · exact hafl h2
        refine ⟨_, _, a :: (fl1 ++ fr), rfl, ?_, ?_, ?_, ?_, ?_⟩
        · have hcell := getElem?_set_self_of h1 a n { n with left := p1 } c1
          refine IsTree.node (n := { n with left := p1 }) hcell ?_ ?_ ?_
          · apply t1.frame
            intro x hx
            rw [List.getElem?_set_ne (fun h2 : a = x => hafl1 (by rw [h2]; exact hx))]
          · apply hr.frame
            intro x hx
            rw [List.getElem?_set_ne (fun h2 : a = x => hafr (by rw [h2]; exact hx))]
            exact fr1 x (hrl x hx) (fun h2 => hdisj h2 hx)
          · rw [List.nodup_cons, List.nodup_append]
            refine ⟨?_, pm1.nodup_iff.mpr ?_, hfr, ?_⟩
            · intro hx
              rcases List.mem_append.mp hx with h2 | h2
              · exact hafl1 h2
              · exact hafr h2
            · rw [List.nodup_cons]
              exact ⟨fun h2 => absurd (hll _ h2) (lt_irrefl _), hfl⟩
            · intro x hx hx'
              rcases List.mem_cons.mp (pm1.mem_iff.mp hx) with h2 | h2
              · have := hrl x hx'
                omega
              · exact hdisj h2 hx'
        · refine (List.Perm.cons a (List.Perm.append_right fr pm1)).trans ?_
          simp only [List.cons_append]
          exact List.Perm.swap _ _ _
        · rw [List.length_set, len1]
        · intro b hb hbn
          have hba : a ≠ b := fun h2 => hbn (h2 ▸ List.mem_cons_self _ _)
          rw [List.getElem?_set_ne hba]
          exact fr1 b hb (fun h2 => hbn (List.mem_cons_of_mem _ (List.mem_append_left _ h2)))
        · intro a1 ha1
          exact ha1
      · simp only [hv, if_false]
        obtain ⟨h1, p1, fr1', e1, t1, pm1, len1, frm1, _⟩ := ihr h _ fr f v hr (by omega)
        have c1 : h1[a]? = some n := by rw [frm1 a hal hafr]; exact hn
        simp only [e1, c1]
        have hafr1 : a ∉ fr1' := by
          intro hx
          rcases List.mem_cons.mp (pm1.mem_iff.mp hx) with h2 | h2
          · omega
          · exact hafr h2
        refine ⟨_, _, a :: (fl ++ fr1'), rfl, ?_, ?_, ?_, ?_, ?_⟩
        · have hcell := getElem?_set_self_of h1 a n { n with right := p1 } c1
          refine IsTree.node (n := { n with right := p1 }) hcell ?_ ?_ ?_
          · apply hl.frame
            intro x hx
            rw [List.getElem?_set_ne (fun h2 : a = x => hafl (by rw [h2]; exact hx))]
            exact frm1 x (hll x hx) (fun h2 => hdisj hx h2)
          · apply t1.frame
            intro x hx
            rw [List.getElem?_set_ne (fun h2 : a = x => hafr1 (by rw [h2]; exact hx))]
          · rw [List.nodup_cons, List.nodup_append]
            refine ⟨?_, hfl, pm1.nodup_iff.mpr ?_, ?_⟩
            · intro hx
              rcases List.mem_append.mp hx with h2 | h2
              · exact hafl h2
              · exact hafr1 h2
            · rw [List.nodup_cons]
              exact ⟨fun h2 => absurd (hrl _ h2) (lt_irrefl _), hfr⟩
            · intro x hx hx'
              rcases List.mem_cons.mp (pm1.mem_iff.mp hx') with h2 | h2
              · have := hll x hx
                omega
              · exact hdisj hx h2
        · refine (List.Perm.cons a (List.Perm.append_left fl pm1)).trans ?_
          refine (List.Perm.cons a List.perm_middle).trans ?_
          exact List.Perm.swap _ _ _
        · rw [List.length_set, len1]
        · intro b hb hbn
          have hba : a ≠ b := fun h2 => hbn (h2 ▸ List.mem_cons_self _ _)
          rw [List.getElem?_set_ne hba]
          exact frm1 b hb (fun h2 => hbn (List.mem_cons_of_mem _ (List.mem_append_right _ h2)))
        · intro a1 ha1
          exact ha1

/-! ## `NewBinaryTree` -/

/-- The loop of `NewBinaryTree` keeps an ordered tree in the heap and adds one node for every
element of the slice. -/
theorem NewBinaryTree_loop (fuel : Nat) (k : Int) : ∀ (perm : List Nat) (h : Heap) (p : Ptr)
    (t : Tree) (fp : List Nat), IsTree h p t fp → t.Ordered → t.size + perm.length < fuel →
    ∃ h1 p1 t1 fp1,
      perm.foldl
        (fun acc (v : Nat) =>
          match acc with
          | none => none
          | some (h1, root) => insert fuel h1 root (Dijkstras.wrapInt ((1 + (v : Int)) * k)))
        (some (h, p)) = some (h1, p1) ∧
      IsTree h1 p1 t1 fp1 ∧ t1.Ordered ∧ t1.size = t.size + perm.length := by
  intro perm
  induction perm with
  | nil =>
    intro h p t fp ht ho _
    exact ⟨h, p, t, fp, rfl, ht, ho, rfl⟩
  | cons v perm ih =>
    intro h p t fp ht ho hf
    simp only [List.length_cons] at hf
    obtain ⟨h1, p1, fp1, e1, t1, _, _, _, _⟩ := insert_spec t h p fp fuel
      (Dijkstras.wrapInt ((1 + (v : Int)) * k)) ht
      (by have := Tree.height_le_size t; omega)
    obtain ⟨h2, p2, t2, fp2, e2, ht2, ho2, hs2⟩ := ih h1 p1 _ fp1 t1
      (Tree.ordered_ins t _ ho) (by rw [Tree.size_ins]; omega)
    refine ⟨h2, p2, t2, fp2, ?_, ht2, ho2, ?_⟩
    · rw [List.foldl_cons]
      simp only [e1]
      exact e2
    · rw [hs2, Tree.size_ins, List.length_cons]
      omega

/-- C20: `insert` preserves the search-tree ordering. On every ordered tree `t` in the heap and
every integer `v`, `insert` returns a pointer to an ordered tree that has one node more, as
`Size` reports, and holds the data of `t` together with `v`. Hence, for every slice `perm` that
is a permutation of `0, ..., n-1` and every `k`, `NewBinaryTree` returns a pointer to an
ordered tree on which `Size` returns `n` and whose in-order traversal is non-decreasing. -/
theorem C20_insert_preserves_order :
    (∀ (h : Heap) (p : Ptr) (t : Tree) (fp : List Nat) (fuel : Nat) (v : Int),
      IsTree h p t fp → t.Ordered → t.height < fuel →
      ∃ h1 p1 t1 fp1, insert fuel h p v = some (h1, p1) ∧ IsTree h1 p1 t1 fp1 ∧ t1.Ordered ∧
        Size fuel h p = some (t.size : Int) ∧ Size (fuel + 1) h1 p1 = some ((t.size : Int) + 1) ∧
        t1.toList.Perm (v :: t.toList)) ∧
    (∀ (n : Nat) (k : Int) (perm : List Nat) (fuel : Nat) (h : Heap),
      perm.Perm (List.range n) → n < fuel →
      ∃ h1 p1 t1 fp1, NewBinaryTree fuel h perm k = some (h1, p1) ∧ IsTree h1 p1 t1 fp1 ∧
        t1.Ordered ∧ Size fuel h1 p1 = some (n : Int) ∧
        InOrder fuel h1 p1 = some t1.toList ∧ t1.toList.Pairwise (· ≤ ·)) := by
  constructor
  · intro h p t fp fuel v ht ho hf
    obtain ⟨h1, p1, fp1, e1, t1, _, _, _, _⟩ := insert_spec t h p fp fuel v ht hf
    refine ⟨h1, p1, t.ins v, fp1, e1, t1, Tree.ordered_ins t v ho, Size_spec t h p fp fuel ht hf,
      ?_, Tree.toList_ins t v⟩
    have hh : (t.ins v).height < fuel + 1 := by
      have : ∀ t : Tree, (t.ins v).height ≤ t.height + 1 := by
        intro t
        induction t with
        | nil => simp [Tree.ins, Tree.height]
        | node l d r ihl ihr =>
          simp only [Tree.ins]
          split_ifs <;> simp only [Tree.height] <;> omega
      have := this t
      omega
    rw [Size_spec (t.ins v) h1 p1 fp1 (fuel + 1) t1 hh, Tree.size_ins]
    exact congrArg some (by omega)
  · intro n k perm fuel h hperm hf
    have hlen : perm.length = n := by rw [hperm.length_eq, List.length_range]
    obtain ⟨h1, p1, t1, fp1, e1, ht1, ho1, hs1⟩ := NewBinaryTree_loop fuel k perm h none
      Tree.nil [] IsTree.nil trivial (by simp only [Tree.size]; omega)
    have hsz : t1.size = n := by rw [hs1, hlen]; simp [Tree.size]
    have hh : t1.height < fuel := by have := Tree.height_le_size t1; omega
    refine ⟨h1, p1, t1, fp1, e1, ht1, ho1, ?_, InOrder_spec t1 h1 p1 fp1 fuel ht1 hh,
      Tree.sorted_toList t1 ho1⟩
    rw [Size_spec t1 h1 p1 fp1 fuel ht1 hh, hsz]

/-- Witness of C20: inserting `2` into the tree with root `2`, left child `1` and right child
`3`, and building a tree from the slice `[1, 0, 2]`. -/
theorem C20_witness :
    (IsTree smallHeap (some 0) smallTree [0, 1, 2] ∧ smallTree.Ordered ∧ smallTree.height < 3 ∧
      ∃ h1 p1 t1 fp1, insert 3 smallHeap (some 0) 2 = some (h1, p1) ∧ IsTree h1 p1 t1 fp1 ∧
        t1.Ordered ∧ Size 3 smallHeap (some 0) = some (smallTree.size : Int) ∧
        Size (3 + 1) h1 p1 = some ((smallTree.size : Int) + 1) ∧
        t1.toList.Perm (2 :: smallTree.toList)) ∧
    (List.Perm [1, 0, 2] (List.range 3) ∧ 3 < 4 ∧
      ∃ h1 p1 t1 fp1, NewBinaryTree 4 [] [1, 0, 2] 1 = some (h1, p1) ∧ IsTree h1 p1 t1 fp1 ∧
        t1.Ordered ∧ Size 4 h1 p1 = some ((3 : Nat) : Int) ∧
        InOrder 4 h1 p1 = some t1.toList ∧ t1.toList.Pairwise (· ≤ ·)) := by
  have ho : smallTree.Ordered := by
    simp [smallTree, Tree.Ordered, Tree.toList]
  exact ⟨⟨smallHeap_isTree, ho, by decide,
      C20_insert_preserves_order.1 smallHeap (some 0) smallTree [0, 1, 2] 3 2 smallHeap_isTree ho
        (by decide)⟩,
    ⟨by decide, by decide,
      C20_insert_preserves_order.2 3 1 [1, 0, 2] 4 [] (by decide) (by decide)⟩⟩

end BinaryTrees
